import Mathlib

/-!
Verification of `src/ci/clang-formater/clang-format-wrapper.py`.

The development shallowly embeds the wrapper script: its diff renderer
(`make_diff`, which calls Python's `difflib.unified_diff` on two lists of
lines), the single-file formatter invocation (`run_clang_format_diff` and its
wrapper), the result-aggregation loop of `main`, and the discovery prologue
(`list_files`, `excludes_from_file`, exit-code plumbing).  Operating-system
collaborators (file reads, subprocess execution, `os.walk`, `fnmatch`) are
modelled as oracles supplied through environment records; every piece of
logic that lives in the script itself, and the `difflib` algorithm it calls,
is translated directly from the source.
-/

namespace Py

/-- Python line boundaries used by `str.splitlines`:
`\n`, `\r`, `\v` (0x0b), `\f` (0x0c), 0x1c, 0x1d, 0x1e, 0x85, 0x2028, 0x2029.
`\r\n` counts as a single boundary. -/
def isLineBoundary (c : Char) : Bool :=
  c = '\n' || c = '\r' || c = Char.ofNat 0x0b || c = Char.ofNat 0x0c ||
  c = Char.ofNat 0x1c || c = Char.ofNat 0x1d || c = Char.ofNat 0x1e ||
  c = Char.ofNat 0x85 || c = Char.ofNat 0x2028 || c = Char.ofNat 0x2029

/-- Worker for `splitlines(keepends=True)` over the character list, carrying
the (reversed) characters of the current unfinished line. -/
def splitlinesAux : List Char → List Char → List String
  | acc, [] => if acc.isEmpty then [] else [String.mk acc.reverse]
  | acc, '\r' :: '\n' :: rest =>
      String.mk (acc.reverse ++ ['\r', '\n']) :: splitlinesAux [] rest
  | acc, c :: rest =>
      if isLineBoundary c then
        String.mk (acc.reverse ++ [c]) :: splitlinesAux [] rest
      else
        splitlinesAux (c :: acc) rest
  termination_by _ cs => cs.length

/-- Python `s.splitlines(True)`: split at line boundaries, keeping the
line-end characters on each line.  Used for `proc.stdout.splitlines(True)`
and `proc.stderr.splitlines(True)` in `run_clang_format_diff`. -/
def splitlinesKeepends (s : String) : List String :=
  splitlinesAux [] s.data

/-- Python whitespace for `str.strip` / `str.rstrip` (ASCII part; the
ignore-file patterns of this repository are ASCII). -/
def isSpaceChar (c : Char) : Bool :=
  c = ' ' || c = '\t' || c = '\n' || c = '\r' ||
  c = Char.ofNat 0x0b || c = Char.ofNat 0x0c

/-- Python `s.rstrip()`. -/
def rstrip (s : String) : String :=
  String.mk ((s.data.reverse.dropWhile isSpaceChar).reverse)

/-- Python `s.strip()`. -/
def strip (s : String) : String :=
  String.mk (((s.data.dropWhile isSpaceChar).reverse.dropWhile isSpaceChar).reverse)

/-- Python substring containment `needle in hay` on strings. -/
def strContainsAux : List Char → List Char → Bool
  | hay, needle =>
    needle.isPrefixOf hay ||
      match hay with
      | [] => false
      | _ :: t => strContainsAux t needle

/-- Python `needle in hay` for strings (substring test). -/
def strContains (hay needle : String) : Bool :=
  strContainsAux hay.data needle.data

/-- Decimal digits of a natural number, as produced by Python's
`'{}'.format(n)` / `str(n)`. -/
def natToDec (n : Nat) : String :=
  if h : n < 10 then String.mk [Char.ofNat (48 + n)]
  else natToDec (n / 10) ++ String.mk [Char.ofNat (48 + n % 10)]
  termination_by n
  decreasing_by
    exact Nat.div_lt_self (Nat.pos_of_ne_zero (by omega)) (by omega)

/-- Parse a decimal digit character. -/
def decDigit (c : Char) : Option Nat :=
  if 48 ≤ c.toNat ∧ c.toNat ≤ 57 then some (c.toNat - 48) else none

/-- Parse a nonempty all-digit string as a decimal natural number. -/
def decToNatAux : Nat → List Char → Option Nat
  | acc, [] => some acc
  | acc, c :: rest =>
    match decDigit c with
    | some d => decToNatAux (acc * 10 + d) rest
    | none => none

/-- Parse a decimal natural number; `none` on the empty string or any
non-digit character. -/
def decToNat (s : String) : Option Nat :=
  match s.data with
  | [] => none
  | cs => decToNatAux 0 cs

end Py

namespace Difflib

/-!
Embedding of the parts of CPython's `difflib` exercised by the script:
`SequenceMatcher(None, a, b)` (so `isjunk` is `None`, `bjunk` is empty and
`isbjunk` is constantly false, while `autojunk` is on) followed by
`unified_diff(a, b, fromfile, tofile, n=3)`.
-/

/-- `ntest` from `SequenceMatcher.__chain_b`: an element is "popular" when it
occupies more than one percent of `b` and `b` has at least 200 elements. -/
def ntest (lb : Nat) : Nat := lb / 100 + 1

/-- autojunk popularity test from `__chain_b` (with `isjunk = None` the junk
set is empty, so only popular elements are purged from `b2j`). -/
def isPopular (b : List String) (x : String) : Bool :=
  decide (200 ≤ b.length) && decide (ntest b.length < b.count x)

/-- `b2j.get(x, [])`: the indices of `x` in `b` in increasing order, except
that popular elements have been purged. -/
def b2jGet (b : List String) (x : String) : List Nat :=
  if isPopular b x then []
  else (List.range b.length).filter (fun j => b.getD j "" = x)

/-- One step of the inner `for j in b2j.get(a[i], nothing)` loop of
`find_longest_match`: `prev` is the previous iteration's `j2len`, the state
is `(newj2len, besti, bestj, bestsize)`.  `j2len.get(j-1, 0)` is `0` both
when `j-1` is absent and, in Python, when `j = 0` (key `-1` is never
present). -/
def flmStepJ (i : Nat) (prev : Nat → Nat) (st : (Nat → Nat) × Nat × Nat × Nat)
    (j : Nat) : (Nat → Nat) × Nat × Nat × Nat :=
  let k := (if j = 0 then 0 else prev (j - 1)) + 1
  let newj2len : Nat → Nat := fun x => if x = j then k else st.1 x
  -- `i-k+1` and `j-k+1` are computed in ℤ by Python; since a run of length
  -- `k` ending at `(i, j)` always has `k ≤ i+1` and `k ≤ j+1`, they equal
  -- `i+1-k` and `j+1-k`, which are safe in ℕ.
  if st.2.2.2 < k then (newj2len, i + 1 - k, j + 1 - k, k)
  else (newj2len, st.2.1, st.2.2.1, st.2.2.2)

/-- The indices of `b` visited by the inner loop at outer index `i`: the
`b2j` list of `a[i]`, restricted to `blo ≤ j < bhi`.  The source skips
`j < blo` (`continue`) and stops at the first `j >= bhi` (`break`); since the
`b2j` index lists are increasing, this equals the filter. -/
def flmJs (a b : List String) (blo bhi i : Nat) : List Nat :=
  (b2jGet b (a.getD i "")).filter (fun j => decide (blo ≤ j) && decide (j < bhi))

/-- One step of the outer `for i in range(alo, ahi)` loop. -/
def flmStepI (a b : List String) (blo bhi : Nat)
    (st : (Nat → Nat) × Nat × Nat × Nat) (i : Nat) :
    (Nat → Nat) × Nat × Nat × Nat :=
  (flmJs a b blo bhi i).foldl (flmStepJ i st.1) (fun _ => 0, st.2.1, st.2.2.1, st.2.2.2)

/-- The `j2len` dynamic-programming scan of `find_longest_match`, starting
from the empty `j2len` and `besti, bestj, bestsize = alo, blo, 0`. -/
def flmScan (a b : List String) (alo ahi blo bhi : Nat) :
    (Nat → Nat) × Nat × Nat × Nat :=
  (List.range' alo (ahi - alo)).foldl (flmStepI a b blo bhi) (fun _ => 0, alo, blo, 0)

/-- First extension loop: `while besti > alo and bestj > blo and
a[besti-1] == b[bestj-1]` (the `not isbjunk(...)` conjunct is constantly true
because `isjunk` is `None`). -/
def extendLeft (a b : List String) (alo blo : Nat)
    (besti bestj bestsize : Nat) : Nat × Nat × Nat :=
  if alo < besti ∧ blo < bestj ∧ a.getD (besti - 1) "" = b.getD (bestj - 1) "" then
    extendLeft a b alo blo (besti - 1) (bestj - 1) (bestsize + 1)
  else (besti, bestj, bestsize)
  termination_by besti
  decreasing_by omega

/-- Second extension loop: `while besti+bestsize < ahi and bestj+bestsize <
bhi and a[besti+bestsize] == b[bestj+bestsize]`.  The two further "junk"
extension loops of the source never run because `bjunk` is empty. -/
def extendRight (a b : List String) (ahi bhi besti bestj : Nat)
    (bestsize : Nat) : Nat :=
  if besti + bestsize < ahi ∧ bestj + bestsize < bhi ∧
      a.getD (besti + bestsize) "" = b.getD (bestj + bestsize) "" then
    extendRight a b ahi bhi besti bestj (bestsize + 1)
  else bestsize
  termination_by ahi - (besti + bestsize)
  decreasing_by omega

/-- `SequenceMatcher.find_longest_match(alo, ahi, blo, bhi)` for
`SequenceMatcher(None, a, b)`. -/
def find_longest_match (a b : List String) (alo ahi blo bhi : Nat) :
    Nat × Nat × Nat :=
  let s := flmScan a b alo ahi blo bhi
  let e := extendLeft a b alo blo s.2.1 s.2.2.1 s.2.2.2
  (e.1, e.2.1, extendRight a b ahi bhi e.1 e.2.1 e.2.2)

/-- The work queue loop of `get_matching_blocks`.  The Python list is used as
a stack (`append`/`pop()`); here the head of the list is the top of the
stack, so pushing the left sub-rectangle and then the right one makes the
right one the next to be popped, exactly as in the source.  `fuel` bounds the
number of iterations; `la + lb + 1` iterations always suffice for the initial
queue `[(0, la, 0, lb)]` (each iteration either consumes a rectangle of total
side length `s` and pushes rectangles of total side length at most `s - 2`,
or pops an unproductive rectangle), which is proved where needed. -/
def processQueue (a b : List String) :
    Nat → List (Nat × Nat × Nat × Nat) → List (Nat × Nat × Nat) →
    List (Nat × Nat × Nat)
  | 0, _, acc => acc
  | _ + 1, [], acc => acc
  | fuel + 1, (alo, ahi, blo, bhi) :: rest, acc =>
    let m := find_longest_match a b alo ahi blo bhi
    let i := m.1
    let j := m.2.1
    let k := m.2.2
    if k ≠ 0 then
      let q1 := if alo < i ∧ blo < j then (alo, i, blo, j) :: rest else rest
      let q2 := if i + k < ahi ∧ j + k < bhi then (i + k, ahi, j + k, bhi) :: q1 else q1
      processQueue a b fuel q2 (acc ++ [(i, j, k)])
    else processQueue a b fuel rest acc

/-- `matching_blocks.sort()`: Python sorts the triples lexicographically. -/
def blockLe (x y : Nat × Nat × Nat) : Bool :=
  decide (x.1 < y.1) ||
  (decide (x.1 = y.1) &&
    (decide (x.2.1 < y.2.1) ||
      (decide (x.2.1 = y.2.1) && decide (x.2.2 ≤ y.2.2))))

/-- The collapse loop of `get_matching_blocks` merging adjacent equal blocks;
the running triple `(i1, j1, k1)` starts at `(0, 0, 0)` and a triple is
emitted only when its size is nonzero. -/
def collapseBlocks : Nat × Nat × Nat → List (Nat × Nat × Nat) → List (Nat × Nat × Nat)
  | t, [] => if t.2.2 ≠ 0 then [t] else []
  | t, (i2, j2, k2) :: rest =>
    if t.1 + t.2.2 = i2 ∧ t.2.1 + t.2.2 = j2 then
      collapseBlocks (t.1, t.2.1, t.2.2 + k2) rest
    else
      (if t.2.2 ≠ 0 then [t] else []) ++ collapseBlocks (i2, j2, k2) rest

/-- `SequenceMatcher.get_matching_blocks()`: run the queue, sort, collapse
adjacent blocks, and append the `(la, lb, 0)` sentinel. -/
def get_matching_blocks (a b : List String) : List (Nat × Nat × Nat) :=
  let la := a.length
  let lb := b.length
  let blocks := processQueue a b (la + lb + 1) [(0, la, 0, lb)] []
  collapseBlocks (0, 0, 0) (blocks.mergeSort blockLe) ++ [(la, lb, 0)]

/-- Opcode tags of `get_opcodes`. -/
inductive Tag where
  | replace
  | delete
  | insert
  | equal
deriving DecidableEq, Repr

/-- An opcode `(tag, i1, i2, j1, j2)`. -/
structure Opcode where
  tag : Tag
  i1 : Nat
  i2 : Nat
  j1 : Nat
  j2 : Nat
deriving DecidableEq, Repr

/-- The loop body of `get_opcodes`, walking the matching blocks with the
cursor `(i, j)`. -/
def opcodesLoop : Nat → Nat → List (Nat × Nat × Nat) → List Opcode
  | _, _, [] => []
  | i, j, (ai, bj, size) :: rest =>
    let tagged : List Opcode :=
      if i < ai ∧ j < bj then [⟨.replace, i, ai, j, bj⟩]
      else if i < ai then [⟨.delete, i, ai, j, bj⟩]
      else if j < bj then [⟨.insert, i, ai, j, bj⟩]
      else []
    tagged ++
      (if size ≠ 0 then [⟨.equal, ai, ai + size, bj, bj + size⟩] else []) ++
      opcodesLoop (ai + size) (bj + size) rest

/-- `SequenceMatcher.get_opcodes()`. -/
def get_opcodes (a b : List String) : List Opcode :=
  opcodesLoop 0 0 (get_matching_blocks a b)

/-- Fixup of the leading opcode in `get_grouped_opcodes`: a leading `equal`
run is truncated to the last `n` lines of context. -/
def fixupFirst (n : Nat) : List Opcode → List Opcode
  | [] => []
  | c :: rest =>
    if c.tag = .equal then
      ⟨.equal, max c.i1 (c.i2 - n), c.i2, max c.j1 (c.j2 - n), c.j2⟩ :: rest
    else c :: rest

/-- Fixup of the trailing opcode in `get_grouped_opcodes`: a trailing `equal`
run is truncated to the first `n` lines of context. -/
def fixupLast (n : Nat) : List Opcode → List Opcode
  | [] => []
  | [c] =>
    if c.tag = .equal then
      [⟨.equal, c.i1, min c.i2 (c.i1 + n), c.j1, min c.j2 (c.j1 + n)⟩]
    else [c]
  | c :: rest => c :: fixupLast n rest

/-- Final `yield` of `get_grouped_opcodes`: the pending group is emitted
unless it is empty or consists of a single `equal` opcode. -/
def finalGroup : List Opcode → List (List Opcode)
  | [] => []
  | [c] => if c.tag = .equal then [] else [[c]]
  | g => [g]

/-- The grouping loop of `get_grouped_opcodes`: a long `equal` opcode (more
than `2 n` lines) ends the current group with `n` trailing context lines and
starts the next group with `n` leading context lines. -/
def groupLoop (n : Nat) : List Opcode → List Opcode → List (List Opcode)
  | group, [] => finalGroup group
  | group, c :: rest =>
    if c.tag = .equal ∧ 2 * n < c.i2 - c.i1 then
      (group ++ [⟨.equal, c.i1, min c.i2 (c.i1 + n), c.j1, min c.j2 (c.j1 + n)⟩]) ::
        groupLoop n [⟨.equal, max c.i1 (c.i2 - n), c.i2, max c.j1 (c.j2 - n), c.j2⟩] rest
    else groupLoop n (group ++ [c]) rest

/-- `SequenceMatcher.get_grouped_opcodes(n)`, including the substitution of
`[("equal", 0, 1, 0, 1)]` for an empty opcode list. -/
def get_grouped_opcodes (a b : List String) (n : Nat) : List (List Opcode) :=
  let codes := get_opcodes a b
  let codes := if codes = [] then [⟨.equal, 0, 1, 0, 1⟩] else codes
  groupLoop n [] (fixupLast n (fixupFirst n codes))

/-- Python slice `l[i:j]`. -/
def pySlice (l : List String) (i j : Nat) : List String :=
  (l.drop i).take (j - i)

/-- `_format_range_unified(start, stop)`. -/
def formatRangeUnified (start stop : Nat) : String :=
  let beginning := start + 1
  let length := stop - start
  if length = 1 then Py.natToDec beginning
  else
    Py.natToDec (if length = 0 then beginning - 1 else beginning) ++ "," ++
      Py.natToDec length

/-- The body lines produced for one opcode of a group in `unified_diff`. -/
def opcodeLines (a b : List String) (c : Opcode) : List String :=
  match c.tag with
  | .equal => (pySlice a c.i1 c.i2).map (fun line => " " ++ line)
  | .replace =>
      (pySlice a c.i1 c.i2).map (fun line => "-" ++ line) ++
        (pySlice b c.j1 c.j2).map (fun line => "+" ++ line)
  | .delete => (pySlice a c.i1 c.i2).map (fun line => "-" ++ line)
  | .insert => (pySlice b c.j1 c.j2).map (fun line => "+" ++ line)

/-- The hunk produced for one group: the `@@` header line (built from the
first and last opcode of the group) followed by the body lines. -/
def hunkLines (a b : List String) (lineterm : String) (g : List Opcode) :
    List String :=
  let first := g.headD ⟨.equal, 0, 0, 0, 0⟩
  let last := g.getLastD ⟨.equal, 0, 0, 0, 0⟩
  ("@@ -" ++ formatRangeUnified first.i1 last.i2 ++ " +" ++
      formatRangeUnified first.j1 last.j2 ++ " @@" ++ lineterm) ::
    g.flatMap (opcodeLines a b)

/-- `difflib.unified_diff(a, b, fromfile, tofile, n=n, lineterm=lineterm)`
with empty `fromfiledate`/`tofiledate` (as in the script): the two header
lines are produced lazily before the first group, so the result is empty
exactly when there are no groups. -/
def unified_diff (a b : List String) (fromfile tofile : String) (n : Nat)
    (lineterm : String) : List String :=
  match get_grouped_opcodes a b n with
  | [] => []
  | groups =>
      ("--- " ++ fromfile ++ lineterm) :: ("+++ " ++ tofile ++ lineterm) ::
        groups.flatMap (hunkLines a b lineterm)

/-! Specification-level (ghost) definitions used to state and prove
properties of the embedding. -/

/-- Default opcode used with `headD`/`getLastD`. -/
def dfltOp : Opcode := ⟨.equal, 0, 0, 0, 0⟩

/-- `matchAt a b i j k`: the `k`-element segments of `a` at `i` and of `b`
at `j` exist and are equal. -/
def matchAt (a b : List String) (i j k : Nat) : Prop :=
  i + k ≤ a.length ∧ j + k ≤ b.length ∧
    ∀ t, t < k → a.getD (i + t) "" = b.getD (j + t) ""

/-- `between a b x y u v`: the region from `(x, y)` to `(u, v)` is a pair of
equal-length equal-content segments of `a` and `b`. -/
def between (a b : List String) (x y u v : Nat) : Prop :=
  x ≤ u ∧ y ≤ v ∧ u - x = v - y ∧ matchAt a b x y (u - x)

/-- The semantic value of the `j2len` map after the outer loop has processed
index `i`: the length of the match run ending at `(i, j)`. -/
def runFn (a b : List String) (alo blo bhi : Nat) : Nat → Nat → Nat
  | 0, j => if j ∈ flmJs a b blo bhi 0 then 1 else 0
  | i + 1, j =>
      if j ∈ flmJs a b blo bhi (i + 1) then
        (if i + 1 = alo ∨ j = 0 then 0 else runFn a b alo blo bhi i (j - 1)) + 1
      else 0

/-- Soundness of a best-match candidate `(besti, bestj, bestsize)` inside a
search rectangle: a zero-size candidate sits at the rectangle origin, a
nonzero one is an in-rectangle equal-content match. -/
def bestOK (a b : List String) (alo ahi blo bhi : Nat)
    (t : Nat × Nat × Nat) : Prop :=
  (t.2.2 = 0 → t.1 = alo ∧ t.2.1 = blo) ∧
  (t.2.2 ≠ 0 → matchAt a b t.1 t.2.1 t.2.2 ∧ alo ≤ t.1 ∧ blo ≤ t.2.1 ∧
    t.1 + t.2.2 ≤ ahi ∧ t.2.1 + t.2.2 ≤ bhi)

/-- A found matching block: equal content, nonzero size (bounds are part of
`matchAt`). -/
def goodBlock (a b : List String) (x : Nat × Nat × Nat) : Prop :=
  matchAt a b x.1 x.2.1 x.2.2 ∧ x.2.2 ≠ 0

/-- Block `x` lies entirely before block `y` in both coordinates. -/
def chainB (x y : Nat × Nat × Nat) : Prop :=
  x.1 + x.2.2 ≤ y.1 ∧ x.2.1 + x.2.2 ≤ y.2.1

/-- Two blocks are aligned: one lies entirely before the other in both
coordinates simultaneously. -/
def bAligned (x y : Nat × Nat × Nat) : Prop := chainB x y ∨ chainB y x

/-- Rectangle `r` and `s` are aligned: one lies entirely before the other. -/
def rAligned (r s : Nat × Nat × Nat × Nat) : Prop :=
  (r.2.1 ≤ s.1 ∧ r.2.2.2 ≤ s.2.2.1) ∨ (s.2.1 ≤ r.1 ∧ s.2.2.2 ≤ r.2.2.1)

/-- Rectangle `r` and block `x` are aligned. -/
def rbAligned (r : Nat × Nat × Nat × Nat) (x : Nat × Nat × Nat) : Prop :=
  (x.1 + x.2.2 ≤ r.1 ∧ x.2.1 + x.2.2 ≤ r.2.2.1) ∨
    (r.2.1 ≤ x.1 ∧ r.2.2.2 ≤ x.2.1)

/-- A well-formed work rectangle: bounded by the sequence lengths. -/
def wfRect (a b : List String) (r : Nat × Nat × Nat × Nat) : Prop :=
  r.2.1 ≤ a.length ∧ r.2.2.2 ≤ b.length

/-- `tiles x y codes u v`: the opcodes `codes` are contiguous in both
coordinates, starting at `(x, y)` and ending at `(u, v)`. -/
def tiles : Nat → Nat → List Opcode → Nat → Nat → Prop
  | x, y, [], u, v => x = u ∧ y = v
  | x, y, c :: rest, u, v =>
      c.i1 = x ∧ c.j1 = y ∧ x ≤ c.i2 ∧ y ≤ c.j2 ∧ tiles c.i2 c.j2 rest u v

/-- Per-opcode soundness: bounds, equal content for `equal`, degenerate side
ranges for `delete`/`insert`. -/
def opcodeSound (a b : List String) (c : Opcode) : Prop :=
  c.i2 ≤ a.length ∧ c.j2 ≤ b.length ∧
    (c.tag = .equal → c.i2 - c.i1 = c.j2 - c.j1 ∧
      matchAt a b c.i1 c.j1 (c.i2 - c.i1)) ∧
    (c.tag = .delete → c.j1 = c.j2) ∧
    (c.tag = .insert → c.i1 = c.i2)

/-- Start of a group on the `a` side. -/
def gStartA (g : List Opcode) : Nat := (g.headD dfltOp).i1

/-- Start of a group on the `b` side. -/
def gStartB (g : List Opcode) : Nat := (g.headD dfltOp).j1

/-- End of a group on the `a` side. -/
def gEndA (g : List Opcode) : Nat := (g.getLastD dfltOp).i2

/-- End of a group on the `b` side. -/
def gEndB (g : List Opcode) : Nat := (g.getLastD dfltOp).j2

/-- The structure produced by `get_grouped_opcodes`: nonempty groups of
sound contiguous opcodes, whose first and last opcodes carry at most `n`
context lines when they are `equal`, separated (and surrounded) by regions
where `a` and `b` agree. -/
def GroupsChained (a b : List String) (n : Nat) :
    Nat → Nat → List (List Opcode) → Prop
  | u, v, [] => between a b u v a.length b.length
  | u, v, g :: rest =>
      g ≠ [] ∧ between a b u v (gStartA g) (gStartB g) ∧
      tiles (gStartA g) (gStartB g) g (gEndA g) (gEndB g) ∧
      (∀ c ∈ g, opcodeSound a b c) ∧
      ((g.headD dfltOp).tag = .equal →
        (g.headD dfltOp).i2 - (g.headD dfltOp).i1 ≤ n) ∧
      ((g.getLastD dfltOp).tag = .equal →
        (g.getLastD dfltOp).i2 - (g.getLastD dfltOp).i1 ≤ n) ∧
      GroupsChained a b n (gEndA g) (gEndB g) rest

/-- Split a character list at commas. -/
def splitComma : List Char → List (List Char)
  | [] => [[]]
  | ',' :: rest => [] :: splitComma rest
  | c :: rest =>
      match splitComma rest with
      | [] => [[c]]
      | h :: t => (c :: h) :: t

/-- Parse a nonempty digit list as a decimal number. -/
def decFromDigits (cs : List Char) : Option Nat :=
  if cs = [] then none else Py.decToNatAux 0 cs

/-- Parse the `a`-side start (0-based) out of a rendered hunk header
`@@ -start,len +... @@`, inverting `_format_range_unified`. -/
def parseHunkStart (s : String) : Option Nat :=
  match s.data with
  | '@' :: '@' :: ' ' :: '-' :: rest =>
      let t := rest.takeWhile (fun c => c ≠ ' ')
      match splitComma t with
      | [bs] => (decFromDigits bs).map (fun x => x - 1)
      | [bs, ls] =>
          match decFromDigits bs, decFromDigits ls with
          | some bnum, some lnum => some (if lnum = 0 then bnum else bnum - 1)
          | _, _ => none
      | _ => none
  | _ => none

/-- Apply the body of a unified diff to the original line list: copy
untouched lines up to each hunk, check and copy context lines, check and
drop removed lines, insert added lines, and copy the tail.  Returns `none`
when the diff does not fit the original. -/
def applyHunks (orig : List String) : List String → Nat → List String → Option (List String)
  | [], cursor, acc =>
      if cursor ≤ orig.length then some (acc ++ orig.drop cursor) else none
  | line :: rest, cursor, acc =>
      match line.data with
      | '@' :: _ =>
          match parseHunkStart line with
          | none => none
          | some s =>
              if cursor ≤ s ∧ s ≤ orig.length then
                applyHunks orig rest s (acc ++ (orig.drop cursor).take (s - cursor))
              else none
      | ' ' :: cs =>
          match orig.getD cursor "" with
          | l =>
              if cursor < orig.length ∧ l.data = cs then
                applyHunks orig rest (cursor + 1) (acc ++ [l])
              else none
      | '-' :: cs =>
          if cursor < orig.length ∧ (orig.getD cursor "").data = cs then
            applyHunks orig rest (cursor + 1) acc
          else none
      | '+' :: cs => applyHunks orig rest cursor (acc ++ [String.mk cs])
      | _ => none

/-- Apply a whole rendered unified diff (the two header lines followed by
hunks) to the original content. -/
def applyUnified (diff : List String) (orig : List String) : Option (List String) :=
  match diff with
  | [] => some orig
  | h1 :: h2 :: rest =>
      match h1.data, h2.data with
      | '-' :: '-' :: '-' :: ' ' :: _, '+' :: '+' :: '+' :: ' ' :: _ =>
          applyHunks orig rest 0 []
      | _, _ => none
  | _ => none

end Difflib

namespace Wrapper

/-! Embedding of the script `clang-format-wrapper.py` itself. -/

/-- `ExitStatus.SUCCESS`. -/
def ExitStatus.SUCCESS : Nat := 0

/-- `ExitStatus.DIFF`. -/
def ExitStatus.DIFF : Nat := 1

/-- `ExitStatus.TROUBLE`. -/
def ExitStatus.TROUBLE : Nat := 2

/-- `DEFAULT_EXTENSIONS` (a comma-separated string; `list_files` tests
membership with Python's substring operator `in`). -/
def DEFAULT_EXTENSIONS : String := "c,h,C,H,cpp,hpp,cc,hh,c++,h++,cxx,hxx"

/-- Body of `subprocess.list2cmdline` for one argument: returns the emitted
characters and the final backslash buffer. -/
def cmdlineArgBody : List Char → List Char → List Char × List Char
  | bs, [] => ([], bs)
  | bs, '\\' :: rest => cmdlineArgBody (bs ++ ['\\']) rest
  | bs, '\"' :: rest =>
      let r := cmdlineArgBody [] rest
      (List.replicate (2 * bs.length) '\\' ++ ['\\', '\"'] ++ r.1, r.2)
  | bs, c :: rest =>
      let r := cmdlineArgBody [] rest
      (bs ++ [c] ++ r.1, r.2)
  termination_by _ cs => cs.length

/-- `subprocess.list2cmdline` quoting of one argument. -/
def list2cmdlineArg (arg : String) : String :=
  let needquote := Py.strContains arg " " || Py.strContains arg "\t" || arg = ""
  let r := cmdlineArgBody [] arg.data
  String.mk
    ((if needquote then ['\"'] else []) ++ r.1 ++ r.2 ++
      (if needquote then r.2 ++ ['\"'] else []))

/-- `subprocess.list2cmdline` (used only to build error messages). -/
def list2cmdline (seq : List String) : String :=
  String.intercalate " " (seq.map list2cmdlineArg)

/-- Python `str(n)` for an `int`. -/
def pyIntStr (n : Int) : String :=
  if n < 0 then "-" ++ Py.natToDec n.natAbs else Py.natToDec n.toNat

/-- Result of `io.open(file).readlines()` as an oracle: either the list of
lines (keeping line ends, as `readlines` does), an `IOError`/`OSError`
(missing file, permission denied), or a `UnicodeDecodeError` — which in
Python is a `ValueError`, not an `IOError`.  A decode error carries the
exception class name and message, and the traceback text the interpreter
would format for it. -/
inductive ReadResult where
  | ok (lines : List String)
  | ioError (msg : String)
  | decodeError (excName msg tb : String)

/-- Result of `subprocess.run(...)` as an oracle: either an `OSError` while
starting (executable missing or not executable), or a completed process with
its exit status and captured text streams. -/
inductive ProcResult where
  | startFailure (msg : String)
  | finished (returncode : Int) (stdout stderr : String)

/-- The operating-system collaborators of one formatter invocation. -/
structure Env where
  readFile : String → ReadResult
  runProcess : List String → ProcResult

/-- Exceptions escaping `run_clang_format_diff`: a `DiffError` or any other
exception (class name, message, formatted traceback). -/
inductive PyExc where
  | diffError (msg : String) (errs : List String)
  | otherError (excName msg tb : String)

/-- `make_diff(file, original, reformatted)`: `difflib.unified_diff` with
three lines of context and tab-separated `(original)`/`(reformatted)`
labels. -/
def make_diff (file : String) (original reformatted : List String) :
    List String :=
  Difflib.unified_diff original reformatted (file ++ "\t(original)")
    (file ++ "\t(reformatted)") 3 "\n"

/-- The argparse namespace fields used by the script. -/
structure Args where
  clang_format_executable : String
  workplace : String
  dry_run : Bool
  in_place : Bool
  quiet : Bool
  j : Nat
  color : String
  exclude : List String
  fallback : String

/-- The subprocess argument vector built by `run_clang_format_diff`
(`args.fallback` participates when truthy, i.e. nonempty). -/
def invocationOf (args : Args) (file : String) : List String :=
  let base :=
    if args.in_place then [args.clang_format_executable, "-i", file]
    else [args.clang_format_executable, file]
  if args.fallback ≠ "" then base ++ ["--fallback-style", args.fallback]
  else base

/-- `run_clang_format_diff(args, file)`: either `(outs, errs)` or a raised
exception, together with the lines printed to standard output (the dry-run
invocation preview).  The file is read first; an `IOError` there raises
`DiffError`, while a decode error is not an `IOError` and propagates.  In
dry-run mode no subprocess runs.  Otherwise an `OSError` starting the
subprocess or a nonzero exit status raises `DiffError`, the latter carrying
`stderr.splitlines(True)`. -/
def run_clang_format_diff (env : Env) (args : Args) (file : String) :
    Except PyExc (List String × List String) × List String :=
  match env.readFile file with
  | .ioError msg => (.error (.diffError msg []), [])
  | .decodeError excName msg tb => (.error (.otherError excName msg tb), [])
  | .ok original =>
    let invocation := invocationOf args file
    if args.dry_run then (.ok ([], []), [String.intercalate " " invocation])
    else
      match env.runProcess invocation with
      | .startFailure msg =>
          (.error (.diffError
            ("Command \x27" ++ list2cmdline invocation ++
              "\x27 failed to start: " ++ msg) []), [])
      | .finished returncode stdout stderr =>
          let outs := Py.splitlinesKeepends stdout
          let errs := Py.splitlinesKeepends stderr
          if returncode ≠ 0 then
            (.error (.diffError
              ("Command \x27" ++ list2cmdline invocation ++
                "\x27 returned non-zero exit status " ++ pyIntStr returncode)
              errs), [])
          else if args.in_place then (.ok ([], errs), [])
          else (.ok (make_diff file original outs, errs), [])

/-- Typed result of one task as observed by the aggregation loop. -/
inductive InvocationResult where
  | ok (outs errs : List String)
  | diffError (msg : String) (errs : List String)
  | unexpectedError (msg tb : String)
deriving DecidableEq, Repr

/-- `run_clang_format_diff_wrapper(args, file)`: re-raise `DiffError`, wrap
any other exception as
`UnexpectedError('{file}: {class}: {msg}')` with its traceback. -/
def run_clang_format_diff_wrapper (env : Env) (args : Args) (file : String) :
    InvocationResult × List String :=
  match run_clang_format_diff env args file with
  | (.ok (outs, errs), printed) => (.ok outs errs, printed)
  | (.error (.diffError msg errs), printed) => (.diffError msg errs, printed)
  | (.error (.otherError excName msg tb), printed) =>
      (.unexpectedError (file ++ ": " ++ excName ++ ": " ++ msg) tb, printed)

/-- `bold_red`. -/
def bold_red (s : String) : String := "\x1b[1m\x1b[31m" ++ s ++ "\x1b[0m"

/-- `bold` (local to `colorize`). -/
def boldStyle (s : String) : String := "\x1b[1m" ++ s ++ "\x1b[0m"

/-- `cyan` (local to `colorize`). -/
def cyanStyle (s : String) : String := "\x1b[36m" ++ s ++ "\x1b[0m"

/-- `green` (local to `colorize`). -/
def greenStyle (s : String) : String := "\x1b[32m" ++ s ++ "\x1b[0m"

/-- `red` (local to `colorize`). -/
def redStyle (s : String) : String := "\x1b[31m" ++ s ++ "\x1b[0m"

/-- `colorize(diff_lines)`. -/
def colorize (diff_lines : List String) : List String :=
  diff_lines.map fun line =>
    if line.take 4 = "--- " ∨ line.take 4 = "+++ " then boldStyle line
    else if line.startsWith "@@ " then cyanStyle line
    else if line.startsWith "+" then greenStyle line
    else if line.startsWith "-" then redStyle line
    else line

/-- One chunk of process output, tagged with its stream. -/
inductive Output where
  | out (s : String)
  | err (s : String)
deriving DecidableEq, Repr

/-- `print_diff(diff_lines, use_color)`: write the (optionally colorized)
lines to standard output. -/
def print_diff (diff_lines : List String) (use_color : Bool) : List Output :=
  (if use_color then colorize diff_lines else diff_lines).map Output.out

/-- `print_trouble(prog, message, use_colors)`: one line to standard
error. -/
def print_trouble (prog message : String) (use_colors : Bool) : Output :=
  .err (prog ++ ": " ++ (if use_colors then bold_red "error:" else "error:") ++
    " " ++ message ++ "\n")

/-- One event of the result stream consumed by the aggregation loop of
`main`, in completion order: a `(outs, errs)` tuple (with the lines the
task printed to standard output while running, nonempty only in dry-run
mode), a `DiffError`, or an `UnexpectedError`. -/
inductive Event where
  | result (printed outs errs : List String)
  | diffErr (msg : String) (errs : List String)
  | unexpErr (msg tb : String)
deriving DecidableEq, Repr

/-- Convert a wrapper result into the event the loop observes. -/
def eventOf (r : InvocationResult × List String) : Event :=
  match r with
  | (.ok outs errs, printed) => .result printed outs errs
  | (.diffError msg errs, _) => .diffErr msg errs
  | (.unexpectedError msg tb, _) => .unexpErr msg tb

/-- The `while True: outs, errs = next(it) ...` aggregation loop of `main`,
processing the result stream in completion order.  Returns the final
`retcode`, the emitted output, the number of results consumed from the
stream, and whether `pool.terminate()` was called.  A `DiffError` prints a
trouble line and the captured stderr and escalates to `TROUBLE`; an
`UnexpectedError` prints the trouble line and the traceback, escalates to
`TROUBLE`, terminates the pool and breaks out of the loop; a tuple result
first passes `errs` to standard error, skips empty `outs` (`continue`), and
otherwise prints the diff and raises `SUCCESS` to `DIFF`. -/
def processEvents (prog : String) (colored_stdout colored_stderr pool : Bool) :
    Nat → List Event → Nat × List Output × Nat × Bool
  | retcode, [] => (retcode, [], 0, false)
  | _, .diffErr msg errs :: rest =>
      let r := processEvents prog colored_stdout colored_stderr pool
        ExitStatus.TROUBLE rest
      (r.1, print_trouble prog msg colored_stderr :: errs.map Output.err ++ r.2.1,
        r.2.2.1 + 1, r.2.2.2)
  | _, .unexpErr msg tb :: _ =>
      (ExitStatus.TROUBLE, [print_trouble prog msg colored_stderr, Output.err tb],
        1, pool)
  | retcode, .result printed outs errs :: rest =>
      let pre := printed.map Output.out ++ errs.map Output.err
      if outs = [] then
        let r := processEvents prog colored_stdout colored_stderr pool retcode rest
        (r.1, pre ++ r.2.1, r.2.2.1 + 1, r.2.2.2)
      else
        let r := processEvents prog colored_stdout colored_stderr pool
          (if retcode = ExitStatus.SUCCESS then ExitStatus.DIFF else retcode) rest
        (r.1, pre ++ print_diff outs colored_stdout ++ r.2.1,
          r.2.2.1 + 1, r.2.2.2)

/-- Severity of one event under the order
`Success (0) < DiffFound (1) < Trouble (2)`. -/
def severity : Event → Nat
  | .result _ outs _ => if outs = [] then ExitStatus.SUCCESS else ExitStatus.DIFF
  | .diffErr _ _ => ExitStatus.TROUBLE
  | .unexpErr _ _ => ExitStatus.TROUBLE

/-- One step of the status fold: the worst of the status so far and the
severity of the next event. -/
def worstOf (acc : Nat) (e : Event) : Nat := max acc (severity e)

/-- Whether an event is an expected or unexpected failure. -/
def isFailureEvent : Event → Bool
  | .diffErr _ _ => true
  | .unexpErr _ _ => true
  | .result _ _ _ => false

/-- Whether an event is a completed result with a nonempty diff. -/
def isDiffFoundEvent : Event → Bool
  | .result _ outs _ => outs ≠ ([] : List String)
  | _ => false

/-- Whether an event is an unexpected failure. -/
def isUnexpEvent : Event → Bool
  | .unexpErr _ _ => true
  | _ => false

/-- `isEmpty(string)`: Python `not (string and string.strip())`. -/
def isEmpty (string : String) : Bool :=
  !(decide (string ≠ "") && decide (Py.strip string ≠ ""))

/-- Python `s.rfind(c)`: greatest index of `c`, or `-1`. -/
def rfind (cs : List Char) (c : Char) : Int :=
  match ((List.range cs.length).filter (fun i => cs.getD i ' ' = c)).getLast? with
  | some i => (i : Int)
  | none => -1

/-- `os.path.splitext(p)[1][1:]`: the extension after the last dot of the
basename, without the dot; empty when the basename has no dot or consists
only of leading dots. -/
def splitextExt (p : String) : String :=
  let cs := p.data
  let sepIndex := rfind cs '/'
  let dotIndex := rfind cs '.'
  if sepIndex < dotIndex then
    let filenameIndex := (sepIndex + 1).toNat
    if (List.range' filenameIndex (dotIndex.toNat - filenameIndex)).any
        (fun idx => cs.getD idx ' ' ≠ '.') then
      String.mk (cs.drop (dotIndex.toNat + 1))
    else ""
  else ""

/-- `os.path.join(path, x)` for the relative paths produced by the walk. -/
def pathJoin (path x : String) : String :=
  if path = "" then x
  else if path.endsWith "/" then path ++ x
  else path ++ "/" ++ x

/-- The oracles for the whole `main` run: the per-invocation collaborators,
the preflight `--version` check outcome, and the discovery collaborators
(`os.path.isdir`, the relative paths `os.walk` yields in walk order, the
`.clang-format-ignore` lines if that file exists, and `fnmatch.fnmatch`). -/
structure MainEnv where
  env : Env
  versionCheckFails : Bool
  versionCheckMsg : String
  isDirectory : Bool
  walkFiles : List String
  ignoreFile : Option (List String)
  fnmatch : String → String → Bool
  cpuCount : Nat
  stdoutIsTty : Bool
  stderrIsTty : Bool

/-- `excludes_from_file(ignore_file)`: keep the rstripped nonempty lines
that are not comments; an absent file contributes nothing. -/
def excludes_from_file (ignoreFile : Option (List String)) : List String :=
  match ignoreFile with
  | none => []
  | some lines =>
    lines.filterMap fun line =>
      if line.startsWith "#" then none
      else
        let pattern := Py.rstrip line
        if pattern = "" then none else some pattern

/-- `list_files(path, extensions=DEFAULT_EXTENSIONS, exclude=exclude)`:
under a directory, keep walked files whose extension is nonempty and occurs
in the `DEFAULT_EXTENSIONS` string (a substring test in the source), remove
those matching an exclude pattern, and prefix the root path; otherwise
print a trouble line and return no files. -/
def list_files (menv : MainEnv) (path : String) (exclude : List String) :
    List String × List Output :=
  if menv.isDirectory then
    let files_filtered := menv.walkFiles.filter fun file =>
      let ext := splitextExt file
      !isEmpty ext && Py.strContains DEFAULT_EXTENSIONS ext
    let files_to_be_remove := files_filtered.filter fun file =>
      exclude.any fun pattern => menv.fnmatch file pattern
    let files_filtered := files_filtered.filter fun d => d ∉ files_to_be_remove
    (files_filtered.map (pathJoin path), [])
  else ([], [print_trouble "list_files" ("No such folder: " ++ path) false])

/-- `check_clang_version(executable)`: `SUCCESS`, or a printed trouble line
and `TROUBLE` when the version invocation fails (the two failure branches
differ only in the message, summarized by the oracle). -/
def check_clang_version (menv : MainEnv) : Nat × List Output :=
  if menv.versionCheckFails then
    (ExitStatus.TROUBLE, [print_trouble "check_clang_version" menv.versionCheckMsg false])
  else (ExitStatus.SUCCESS, [])

/-- The body of `main` after argument parsing: preflight check, excludes,
discovery, early return on an empty file list, worker-count computation, and
the aggregation loop.  Returns `main`'s return value (`none` models
`return` with no value), the emitted output, and the file list submitted to
the pool (empty when no task was scheduled).  Results are modelled in
submission order, which is exact for `njobs = 1`; for a pool the stream is
a permutation of it, and the aggregation-loop theorems below quantify over
arbitrary streams. -/
def mainModel (menv : MainEnv) (args : Args) (prog : String) :
    Option Nat × List Output × List String :=
  let colored_stdout := args.color = "always" || (args.color = "auto" && menv.stdoutIsTty)
  let colored_stderr := args.color = "always" || (args.color = "auto" && menv.stderrIsTty)
  let v := check_clang_version menv
  if v.1 ≠ ExitStatus.SUCCESS then (some v.1, v.2, [])
  else
    let excludes := excludes_from_file menv.ignoreFile ++ args.exclude
    let lf := list_files menv args.workplace excludes
    let files := lf.1
    if files = [] then (none, v.2 ++ lf.2, [])
    else
      let njobs := if args.j = 0 then menv.cpuCount + 1 else args.j
      let njobs := min files.length njobs
      let pool := njobs ≠ 1
      let events := files.map fun file =>
        eventOf (run_clang_format_diff_wrapper menv.env args file)
      let r := processEvents prog colored_stdout colored_stderr pool
        ExitStatus.SUCCESS events
      (some r.1, v.2 ++ lf.2 ++ r.2.1, files)

/-- `sys.exit(main())`: a `None` return exits with status `0`. -/
def processExitCode (r : Option Nat) : Nat := r.getD 0

end Wrapper

namespace Wrapper

/-! Lemmas about the aggregation loop. -/

/-- Unfolding: a completed result with empty `outs` writes the dry-run
preview and the stderr lines, then continues with the same `retcode`. -/
theorem processEvents_result_empty (prog : String) (cs ce pool : Bool)
    (r : Nat) (printed errs : List String) (rest : List Event) :
    processEvents prog cs ce pool r (.result printed [] errs :: rest) =
      ((processEvents prog cs ce pool r rest).1,
        printed.map Output.out ++ errs.map Output.err ++
          (processEvents prog cs ce pool r rest).2.1,
        (processEvents prog cs ce pool r rest).2.2.1 + 1,
        (processEvents prog cs ce pool r rest).2.2.2) := by
  simp [processEvents]

/-- Unfolding: a completed result with nonempty `outs` prints the diff and
continues with `retcode` raised from `SUCCESS` to `DIFF`. -/
theorem processEvents_result_diff (prog : String) (cs ce pool : Bool)
    (r : Nat) (printed outs errs : List String) (rest : List Event)
    (houts : outs ≠ []) :
    processEvents prog cs ce pool r (.result printed outs errs :: rest) =
      ((processEvents prog cs ce pool
          (if r = ExitStatus.SUCCESS then ExitStatus.DIFF else r) rest).1,
        printed.map Output.out ++ errs.map Output.err ++ print_diff outs cs ++
          (processEvents prog cs ce pool
            (if r = ExitStatus.SUCCESS then ExitStatus.DIFF else r) rest).2.1,
        (processEvents prog cs ce pool
          (if r = ExitStatus.SUCCESS then ExitStatus.DIFF else r) rest).2.2.1 + 1,
        (processEvents prog cs ce pool
          (if r = ExitStatus.SUCCESS then ExitStatus.DIFF else r) rest).2.2.2) := by
  simp [processEvents, houts]

/-- Unfolding: a `DiffError` prints the trouble line and the captured stderr
and continues with `retcode = TROUBLE`. -/
theorem processEvents_diffErr (prog : String) (cs ce pool : Bool)
    (r : Nat) (msg : String) (errs : List String) (rest : List Event) :
    processEvents prog cs ce pool r (.diffErr msg errs :: rest) =
      ((processEvents prog cs ce pool ExitStatus.TROUBLE rest).1,
        print_trouble prog msg ce :: errs.map Output.err ++
          (processEvents prog cs ce pool ExitStatus.TROUBLE rest).2.1,
        (processEvents prog cs ce pool ExitStatus.TROUBLE rest).2.2.1 + 1,
        (processEvents prog cs ce pool ExitStatus.TROUBLE rest).2.2.2) := by
  simp [processEvents]

/-- Unfolding: an `UnexpectedError` prints the trouble line and the
traceback, terminates the pool if there is one, and stops consuming. -/
theorem processEvents_unexpErr (prog : String) (cs ce pool : Bool)
    (r : Nat) (msg tb : String) (rest : List Event) :
    processEvents prog cs ce pool r (.unexpErr msg tb :: rest) =
      (ExitStatus.TROUBLE, [print_trouble prog msg ce, Output.err tb], 1, pool) := rfl

/-- Severity of every event is at most `TROUBLE`. -/
theorem severity_le_two (e : Event) : severity e ≤ 2 := by
  cases e with
  | result printed outs errs =>
      by_cases h : outs = [] <;>
        simp [severity, h, ExitStatus.SUCCESS, ExitStatus.DIFF]
  | diffErr msg errs => exact Nat.le_refl 2
  | unexpErr msg tb => exact Nat.le_refl 2

/-- Folding severities starting from `TROUBLE` stays at `TROUBLE`. -/
theorem foldl_sev_two (l : List Event) : l.foldl worstOf 2 = 2 := by
  induction l with
  | nil => rfl
  | cons e rest ih =>
      have h := severity_le_two e
      have h2 : worstOf 2 e = 2 := by
        simp only [worstOf]
        omega
      rw [List.foldl_cons, h2]
      exact ih

/-- The step of the status fold never decreases the status. -/
theorem worstOf_mono (r : Nat) (e : Event) : r ≤ worstOf r e := by
  simp only [worstOf]
  omega

/-- The final `retcode` of the aggregation loop equals the running maximum of
the event severities, despite the early `break` on an unexpected failure
(whose severity is already the top element). -/
theorem processEvents_retcode (prog : String) (cs ce pool : Bool) :
    ∀ (events : List Event) (r : Nat), r ≤ 2 →
      (processEvents prog cs ce pool r events).1 = events.foldl worstOf r := by
  intro events
  induction events with
  | nil => intro r _; rfl
  | cons e rest ih =>
    intro r hr
    cases e with
    | result printed outs errs =>
      by_cases houts : outs = []
      · subst houts
        rw [processEvents_result_empty, List.foldl_cons]
        have h0 : worstOf r (Event.result printed [] errs) = r := by
          have : severity (Event.result printed [] errs) = 0 := by
            simp [severity, ExitStatus.SUCCESS]
          simp only [worstOf, this]
          omega
        rw [h0]
        exact ih r hr
      · rw [processEvents_result_diff prog cs ce pool r printed outs errs rest houts,
          List.foldl_cons]
        have h1 : worstOf r (Event.result printed outs errs) = max r 1 := by
          have : severity (Event.result printed outs errs) = 1 := by
            simp [severity, houts, ExitStatus.DIFF]
          simp only [worstOf, this]
        have h2 : (if r = ExitStatus.SUCCESS then ExitStatus.DIFF else r) = max r 1 := by
          simp only [ExitStatus.SUCCESS, ExitStatus.DIFF]
          split <;> omega
        rw [h1, h2]
        exact ih (max r 1) (by omega)
    | diffErr msg errs =>
      rw [processEvents_diffErr, List.foldl_cons]
      have h1 : worstOf r (Event.diffErr msg errs) = 2 := by
        have : severity (Event.diffErr msg errs) = 2 := rfl
        simp only [worstOf, this]
        omega
      rw [h1]
      exact ih 2 (by omega)
    | unexpErr msg tb =>
      rw [processEvents_unexpErr, List.foldl_cons]
      have h1 : worstOf r (Event.unexpErr msg tb) = 2 := by
        have : severity (Event.unexpErr msg tb) = 2 := rfl
        simp only [worstOf, this]
        omega
      rw [h1]
      exact (foldl_sev_two rest).symm

/-- The severity fold is invariant under permutation of the stream. -/
theorem foldl_sev_perm {l₁ l₂ : List Event} (h : l₁.Perm l₂) :
    ∀ r : Nat, l₁.foldl worstOf r = l₂.foldl worstOf r := by
  induction h with
  | nil => intro r; rfl
  | cons x _ ih => intro r; simp only [List.foldl_cons]; exact ih _
  | swap x y l =>
      intro r
      simp only [List.foldl_cons]
      have hc : worstOf (worstOf r y) x = worstOf (worstOf r x) y := by
        simp only [worstOf]
        omega
      rw [hc]
  | trans _ _ ih₁ ih₂ => intro r; exact (ih₁ r).trans (ih₂ r)

/-- The severity fold from `r` joins `r` with the worst severity present:
`2` for any failure, else `1` for any nonempty diff, else `0`. -/
theorem foldl_sev_char (l : List Event) : ∀ r : Nat,
    l.foldl worstOf r =
      max r (if l.any isFailureEvent then 2
        else if l.any isDiffFoundEvent then 1 else 0) := by
  induction l with
  | nil => intro r; simp
  | cons e rest ih =>
    intro r
    rw [List.foldl_cons, ih (worstOf r e), List.any_cons, List.any_cons]
    by_cases hf : rest.any isFailureEvent = true <;>
      by_cases hd : rest.any isDiffFoundEvent = true <;>
        cases e with
        | result printed outs errs =>
            by_cases houts : outs = [] <;>
              simp [worstOf, severity, isFailureEvent, isDiffFoundEvent, hf, hd,
                houts, ExitStatus.SUCCESS, ExitStatus.DIFF] <;> omega
        | diffErr msg errs =>
            simp [worstOf, severity, isFailureEvent, hf, hd, ExitStatus.TROUBLE]
        | unexpErr msg tb =>
            simp [worstOf, severity, isFailureEvent, hf, hd, ExitStatus.TROUBLE]

/-- Helper for C2: in in-place mode a successful invocation always returns
empty `outs` (the diff is never computed). -/
theorem in_place_no_diff (env : Env) (args : Args) (file : String)
    (hip : args.in_place = true) :
    ∀ outs errs printed,
      run_clang_format_diff_wrapper env args file = (.ok outs errs, printed) →
      outs = [] := by
  intro outs errs printed h
  unfold run_clang_format_diff_wrapper run_clang_format_diff at h
  cases hr : env.readFile file with
  | ioError msg => rw [hr] at h; simp at h
  | decodeError n m tb => rw [hr] at h; simp at h
  | ok original =>
    rw [hr] at h
    by_cases hdry : args.dry_run = true
    · simp [hdry] at h
      exact h.1.1
    · simp only [Bool.not_eq_true] at hdry
      simp only [hdry, Bool.false_eq_true, if_false] at h
      cases hp : env.runProcess (invocationOf args file) with
      | startFailure msg => rw [hp] at h; simp at h
      | finished rc out err =>
        rw [hp] at h
        by_cases hrc : rc = 0
        · simp [hrc, hip] at h
          exact h.1.1
        · simp [hrc] at h

/-- C1: for every finite stream of per-file results the final run status of
the aggregation loop equals the maximum severity present under
`Success (0) < DiffFound (1) < Trouble (2)` (the fold of `worstOf` over the
stream), is the same for every permutation of the arrival order, and the
status variable never decreases at any single step of the fold. -/
theorem C1_status_is_max_severity (prog : String) (cs ce pool : Bool)
    (events events2 : List Event) (hperm : events.Perm events2) :
    (processEvents prog cs ce pool ExitStatus.SUCCESS events).1 =
        events.foldl worstOf 0
      ∧ (processEvents prog cs ce pool ExitStatus.SUCCESS events).1 =
          (processEvents prog cs ce pool ExitStatus.SUCCESS events2).1
      ∧ (∀ (r : Nat) (e : Event), r ≤ 2 →
          r ≤ (processEvents prog cs ce pool r [e]).1) := by
  refine ⟨processEvents_retcode prog cs ce pool events ExitStatus.SUCCESS (by decide), ?_, ?_⟩
  · rw [processEvents_retcode prog cs ce pool events ExitStatus.SUCCESS (by decide),
      processEvents_retcode prog cs ce pool events2 ExitStatus.SUCCESS (by decide)]
    exact foldl_sev_perm hperm ExitStatus.SUCCESS
  · intro r e hr
    rw [processEvents_retcode prog cs ce pool [e] r hr]
    exact worstOf_mono r e

/-- Witness for C1 at a concrete two-event stream and its transposition. -/
theorem C1_status_is_max_severity_witness :
    (processEvents "p" false false false ExitStatus.SUCCESS
        [Event.diffErr "m" [], Event.result [] [] []]).1 =
        [Event.diffErr "m" [], Event.result [] [] []].foldl worstOf 0
      ∧ (processEvents "p" false false false ExitStatus.SUCCESS
            [Event.diffErr "m" [], Event.result [] [] []]).1 =
          (processEvents "p" false false false ExitStatus.SUCCESS
            [Event.result [] [] [], Event.diffErr "m" []]).1
      ∧ (∀ (r : Nat) (e : Event), r ≤ 2 →
          r ≤ (processEvents "p" false false false r [e]).1) :=
  C1_status_is_max_severity "p" false false false
    [Event.diffErr "m" [], Event.result [] [] []]
    [Event.result [] [] [], Event.diffErr "m" []]
    (List.Perm.swap (Event.result [] [] []) (Event.diffErr "m" []) [])

/-- C2: the final status of a run is exactly `TROUBLE (2)` when some
expected or unexpected failure occurred, else `DIFF (1)` when some result
carried a nonempty diff, else `SUCCESS (0)`; and in in-place mode a
successful invocation never carries a nonempty diff, so diff-based
escalation can only arise outside in-place mode. -/
theorem C2_exit_code_precedence (prog : String) (cs ce pool : Bool)
    (events : List Event) (env : Env) (args : Args) (file : String) :
    ((processEvents prog cs ce pool ExitStatus.SUCCESS events).1 =
        if events.any isFailureEvent then ExitStatus.TROUBLE
        else if events.any isDiffFoundEvent then ExitStatus.DIFF
        else ExitStatus.SUCCESS)
      ∧ (args.in_place = true →
          ∀ outs errs printed,
            run_clang_format_diff_wrapper env args file = (.ok outs errs, printed) →
            outs = []) := by
  constructor
  · rw [processEvents_retcode prog cs ce pool events ExitStatus.SUCCESS (by decide),
      foldl_sev_char]
    simp only [ExitStatus.SUCCESS, ExitStatus.DIFF, ExitStatus.TROUBLE]
    split <;> omega
  · exact fun hip => in_place_no_diff env args file hip

/-- Witness for C2: a stream with one failure and one diff yields `2`, and a
concrete in-place invocation returns empty `outs`. -/
theorem C2_exit_code_precedence_witness :
    ((processEvents "p" false false false ExitStatus.SUCCESS
        [Event.result [] ["+x\n"] [], Event.diffErr "m" []]).1 =
        if [Event.result [] ["+x\n"] [], Event.diffErr "m" []].any isFailureEvent
        then ExitStatus.TROUBLE
        else if [Event.result [] ["+x\n"] [], Event.diffErr "m" []].any isDiffFoundEvent
        then ExitStatus.DIFF
        else ExitStatus.SUCCESS)
      ∧ (Args.in_place ⟨"clang-format", ".", false, true, false, 0, "auto", [], "Google"⟩ = true →
          ∀ outs errs printed,
            run_clang_format_diff_wrapper
                ⟨fun _ => .ok ["x\n"], fun _ => .finished 0 "" ""⟩
                ⟨"clang-format", ".", false, true, false, 0, "auto", [], "Google"⟩ "f.c" =
              (.ok outs errs, printed) →
            outs = []) :=
  C2_exit_code_precedence "p" false false false
    [Event.result [] ["+x\n"] [], Event.diffErr "m" []]
    ⟨fun _ => .ok ["x\n"], fun _ => .finished 0 "" ""⟩
    ⟨"clang-format", ".", false, true, false, 0, "auto", [], "Google"⟩ "f.c"

/-- C3: when the stream yields an `UnexpectedError` after the failure-free
prefix `pre`, the loop reports exactly the outputs of `pre` followed by the
trouble line and the traceback, finishes with status `TROUBLE`, consumes
exactly `pre.length + 1` results, terminates the pool iff one exists, and
the result is independent of everything after the failure. -/
theorem C3_fail_fast_cancellation (prog : String) (cs ce pool : Bool)
    (r : Nat) (pre rest rest2 : List Event) (msg tb : String)
    (hpre : ∀ e ∈ pre, isUnexpEvent e = false) :
    processEvents prog cs ce pool r (pre ++ .unexpErr msg tb :: rest) =
      (ExitStatus.TROUBLE,
        (processEvents prog cs ce pool r pre).2.1 ++
          [print_trouble prog msg ce, Output.err tb],
        pre.length + 1, pool)
    ∧ processEvents prog cs ce pool r (pre ++ .unexpErr msg tb :: rest) =
        processEvents prog cs ce pool r (pre ++ .unexpErr msg tb :: rest2) := by
  have main : ∀ (pre : List Event), (∀ e ∈ pre, isUnexpEvent e = false) →
      ∀ (r : Nat) (rest : List Event),
      processEvents prog cs ce pool r (pre ++ .unexpErr msg tb :: rest) =
        (ExitStatus.TROUBLE,
          (processEvents prog cs ce pool r pre).2.1 ++
            [print_trouble prog msg ce, Output.err tb],
          pre.length + 1, pool) := by
    intro pre
    induction pre with
    | nil =>
        intro _ r rest
        rw [List.nil_append, processEvents_unexpErr]
        rfl
    | cons e pre ih =>
        intro hpre r rest
        have he : isUnexpEvent e = false := hpre e (List.mem_cons_self e pre)
        have hpre2 : ∀ x ∈ pre, isUnexpEvent x = false :=
          fun x hx => hpre x (List.mem_cons_of_mem e hx)
        cases e with
        | result printed outs errs =>
          by_cases houts : outs = []
          · subst houts
            rw [List.cons_append, processEvents_result_empty,
              processEvents_result_empty, ih hpre2 r rest]
            simp [List.append_assoc]
          · rw [List.cons_append,
              processEvents_result_diff prog cs ce pool r printed outs errs _ houts,
              processEvents_result_diff prog cs ce pool r printed outs errs pre houts,
              ih hpre2 _ rest]
            simp [List.append_assoc]
        | diffErr m es =>
            rw [List.cons_append, processEvents_diffErr, processEvents_diffErr,
              ih hpre2 _ rest]
            simp [List.append_assoc]
        | unexpErr m t => simp [isUnexpEvent] at he
  exact ⟨main pre hpre r rest, (main pre hpre r rest).trans (main pre hpre r rest2).symm⟩

/-- Witness for C3: one clean result, then an unexpected failure, then a
never-consumed tail. -/
theorem C3_fail_fast_cancellation_witness :
    processEvents "p" false false true ExitStatus.SUCCESS
        ([Event.result [] [] []] ++ Event.unexpErr "boom" "tb\n" :: [Event.diffErr "m" []]) =
      (ExitStatus.TROUBLE,
        (processEvents "p" false false true ExitStatus.SUCCESS [Event.result [] [] []]).2.1 ++
          [print_trouble "p" "boom" false, Output.err "tb\n"],
        [Event.result [] [] []].length + 1, true)
    ∧ processEvents "p" false false true ExitStatus.SUCCESS
          ([Event.result [] [] []] ++ Event.unexpErr "boom" "tb\n" :: [Event.diffErr "m" []]) =
        processEvents "p" false false true ExitStatus.SUCCESS
          ([Event.result [] [] []] ++ Event.unexpErr "boom" "tb\n" :: []) :=
  C3_fail_fast_cancellation "p" false false true ExitStatus.SUCCESS
    [Event.result [] [] []] [Event.diffErr "m" []] [] "boom" "tb\n"
    (by intro e he; simp at he; subst he; rfl)

/-- C8 fails as stated: an outcome with an empty diff-line list but captured
stderr lines does produce output (the stderr passthrough).  Concretely, a
clean result carrying `warning\n` on stderr makes the loop emit that line. -/
theorem C8_counterexample :
    (processEvents "clang-format-wrapper" false false false ExitStatus.SUCCESS
        [Event.result [] [] ["warning\n"]]).2.1 = [Output.err "warning\n"]
      ∧ [Output.err "warning\n"] ≠ ([] : List Output) := by
  constructor
  · rfl
  · simp

/-- C8 (amended): an outcome whose diff-line list is empty produces no
standard-output text and leaves the run status unchanged; its captured
stderr lines are still written to standard error. -/
theorem C8_empty_diff_no_stdout (prog : String) (cs ce pool : Bool)
    (r : Nat) (errs : List String) (rest : List Event) :
    processEvents prog cs ce pool r (.result [] [] errs :: rest) =
      ((processEvents prog cs ce pool r rest).1,
        errs.map Output.err ++ (processEvents prog cs ce pool r rest).2.1,
        (processEvents prog cs ce pool r rest).2.2.1 + 1,
        (processEvents prog cs ce pool r rest).2.2.2)
    ∧ ∀ o ∈ errs.map Output.err, ∃ s, o = Output.err s := by
  constructor
  · have h := processEvents_result_empty prog cs ce pool r [] errs rest
    simpa using h
  · intro o ho
    rcases List.mem_map.1 ho with ⟨s, _, rfl⟩
    exact ⟨s, rfl⟩


/-- Witness for C8 (amended) at a concrete clean result with stderr. -/
theorem C8_empty_diff_no_stdout_witness :
    processEvents "p" false false false ExitStatus.SUCCESS
        (.result [] [] ["w\n"] :: []) =
      ((processEvents "p" false false false ExitStatus.SUCCESS []).1,
        ["w\n"].map Output.err ++
          (processEvents "p" false false false ExitStatus.SUCCESS []).2.1,
        (processEvents "p" false false false ExitStatus.SUCCESS []).2.2.1 + 1,
        (processEvents "p" false false false ExitStatus.SUCCESS []).2.2.2)
    ∧ ∀ o ∈ (["w\n"].map Output.err), ∃ s, o = Output.err s :=
  C8_empty_diff_no_stdout "p" false false false ExitStatus.SUCCESS ["w\n"] []

/-- C9: the `--quiet` flag has no effect: every run with `quiet` set to any
value produces exactly the same return value, output stream, and scheduled
task list as the same run with the original flag (the `args.quiet` check in
the aggregation loop is commented out in the source, and no other code
reads the flag). -/
theorem C9_quiet_has_no_effect (menv : MainEnv) (args : Args) (prog : String)
    (b : Bool) :
    mainModel menv { args with quiet := b } prog = mainModel menv args prog
      ∧ processExitCode (mainModel menv { args with quiet := b } prog).1 =
          processExitCode (mainModel menv args prog).1 := by
  have h : mainModel menv { args with quiet := b } prog = mainModel menv args prog := by
    cases args
    rfl
  exact ⟨h, by rw [h]⟩

/-- C10: with a successful preflight check, a workplace that is not a
directory makes `main` print the discovery trouble line to standard error,
schedule no task, and return `None`, so the process exits `0`; an empty
discovery result also schedules no task, prints nothing, and exits `0`. -/
theorem C10_discovery_failure_exits_zero (menv : MainEnv) (args : Args)
    (prog : String) (hv : menv.versionCheckFails = false) :
    (menv.isDirectory = false →
        mainModel menv args prog =
          (none,
            [print_trouble "list_files" ("No such folder: " ++ args.workplace) false],
            [])
          ∧ processExitCode (mainModel menv args prog).1 = 0)
    ∧ (menv.isDirectory = true →
        (list_files menv args.workplace
            (excludes_from_file menv.ignoreFile ++ args.exclude)).1 = [] →
        mainModel menv args prog = (none, [], [])
          ∧ processExitCode (mainModel menv args prog).1 = 0) := by
  constructor
  · intro hdir
    have h : mainModel menv args prog =
        (none,
          [print_trouble "list_files" ("No such folder: " ++ args.workplace) false],
          []) := by
      unfold mainModel
      simp [check_clang_version, hv, list_files, hdir, ExitStatus.SUCCESS]
    exact ⟨h, by rw [h]; rfl⟩
  · intro hdir hempty
    have hout : (list_files menv args.workplace
        (excludes_from_file menv.ignoreFile ++ args.exclude)).2 = [] := by
      simp [list_files, hdir]
    have h : mainModel menv args prog = (none, [], []) := by
      unfold mainModel
      simp only [check_clang_version, hv, Bool.false_eq_true, if_false]
      simp only [ExitStatus.SUCCESS, ne_eq, not_true_eq_false, if_false,
        not_false_eq_true, if_true]
      simp [hempty, hout]
    exact ⟨h, by rw [h]; rfl⟩

/-- Witness for C10 at a concrete environment whose workplace is missing. -/
theorem C10_discovery_failure_exits_zero_witness :
    (MainEnv.isDirectory
          ⟨⟨fun _ => .ok [], fun _ => .finished 0 "" ""⟩, false, "", false, [],
            none, fun _ _ => false, 4, false, false⟩ = false →
        mainModel
            ⟨⟨fun _ => .ok [], fun _ => .finished 0 "" ""⟩, false, "", false, [],
              none, fun _ _ => false, 4, false, false⟩
            ⟨"clang-format", "/nosuch", false, false, false, 0, "auto", [], "Google"⟩
            "p" =
          (none, [print_trouble "list_files" ("No such folder: " ++ "/nosuch") false], [])
          ∧ processExitCode
              (mainModel
                ⟨⟨fun _ => .ok [], fun _ => .finished 0 "" ""⟩, false, "", false, [],
                  none, fun _ _ => false, 4, false, false⟩
                ⟨"clang-format", "/nosuch", false, false, false, 0, "auto", [], "Google"⟩
                "p").1 = 0)
    ∧ (MainEnv.isDirectory
          ⟨⟨fun _ => .ok [], fun _ => .finished 0 "" ""⟩, false, "", false, [],
            none, fun _ _ => false, 4, false, false⟩ = true →
        (list_files
            ⟨⟨fun _ => .ok [], fun _ => .finished 0 "" ""⟩, false, "", false, [],
              none, fun _ _ => false, 4, false, false⟩
            "/nosuch"
            (excludes_from_file
                (MainEnv.ignoreFile
                  ⟨⟨fun _ => .ok [], fun _ => .finished 0 "" ""⟩, false, "", false, [],
                    none, fun _ _ => false, 4, false, false⟩) ++
              Args.exclude
                ⟨"clang-format", "/nosuch", false, false, false, 0, "auto", [], "Google"⟩)).1
            = [] →
        mainModel
            ⟨⟨fun _ => .ok [], fun _ => .finished 0 "" ""⟩, false, "", false, [],
              none, fun _ _ => false, 4, false, false⟩
            ⟨"clang-format", "/nosuch", false, false, false, 0, "auto", [], "Google"⟩
            "p" = (none, [], [])
          ∧ processExitCode
              (mainModel
                ⟨⟨fun _ => .ok [], fun _ => .finished 0 "" ""⟩, false, "", false, [],
                  none, fun _ _ => false, 4, false, false⟩
                ⟨"clang-format", "/nosuch", false, false, false, 0, "auto", [], "Google"⟩
                "p").1 = 0) :=
  C10_discovery_failure_exits_zero
    ⟨⟨fun _ => .ok [], fun _ => .finished 0 "" ""⟩, false, "", false, [],
      none, fun _ _ => false, 4, false, false⟩
    ⟨"clang-format", "/nosuch", false, false, false, 0, "auto", [], "Google"⟩
    "p" rfl

/-- C4 fails as stated for decode errors: a file whose bytes fail to decode
raises `UnicodeDecodeError`, which is a `ValueError` and not an `IOError`,
so `run_clang_format_diff` does not convert it to a `DiffError`; the wrapper
turns it into an `UnexpectedError` instead of the claimed
`ExpectedFailure`. -/
theorem C4_counterexample :
    run_clang_format_diff_wrapper
        ⟨fun _ => .decodeError "UnicodeDecodeError" "invalid start byte" "tb\n",
          fun _ => .finished 0 "" ""⟩
        ⟨"clang-format", ".", false, false, false, 0, "auto", [], "Google"⟩ "f.c" =
      (.unexpectedError "f.c: UnicodeDecodeError: invalid start byte" "tb\n", [])
    ∧ (∀ msg errs,
        (run_clang_format_diff_wrapper
            ⟨fun _ => .decodeError "UnicodeDecodeError" "invalid start byte" "tb\n",
              fun _ => .finished 0 "" ""⟩
            ⟨"clang-format", ".", false, false, false, 0, "auto", [], "Google"⟩
            "f.c").1 ≠ .diffError msg errs) := by
  constructor
  · rfl
  · intro msg errs h
    simp [run_clang_format_diff_wrapper, run_clang_format_diff] at h

/-- C4 (amended): an `IOError` while reading (missing file, permission
denied) raises an `ExpectedFailure` (`DiffError`) carrying the error text,
while a decode error raises an `UnexpectedFailure`; in both cases the
outcome is independent of the subprocess oracle, which is never consulted
(the failure happens before any subprocess is started). -/
theorem C4_read_failure_taxonomy (env : Env) (args : Args)
    (file msg excName m tb : String) :
    (env.readFile file = .ioError msg →
        ∀ rp, run_clang_format_diff_wrapper { env with runProcess := rp } args file =
          (.diffError msg [], []))
    ∧ (env.readFile file = .decodeError excName m tb →
        ∀ rp, run_clang_format_diff_wrapper { env with runProcess := rp } args file =
          (.unexpectedError (file ++ ": " ++ excName ++ ": " ++ m) tb, [])) := by
  constructor
  · intro h rp
    unfold run_clang_format_diff_wrapper run_clang_format_diff
    simp only [h]
  · intro h rp
    unfold run_clang_format_diff_wrapper run_clang_format_diff
    simp only [h]

/-- Witness for C4 (amended) at a concrete unreadable file. -/
theorem C4_read_failure_taxonomy_witness :
    run_clang_format_diff_wrapper
        { (⟨fun _ => .ioError "Permission denied", fun _ => .finished 0 "" ""⟩ : Env)
            with runProcess := fun _ => .startFailure "unused" }
        ⟨"clang-format", ".", false, false, false, 0, "auto", [], "Google"⟩ "f.c" =
      (.diffError "Permission denied" [], []) :=
  (C4_read_failure_taxonomy
      ⟨fun _ => .ioError "Permission denied", fun _ => .finished 0 "" ""⟩
      ⟨"clang-format", ".", false, false, false, 0, "auto", [], "Google"⟩
      "f.c" "Permission denied" "" "" "").1 rfl (fun _ => .startFailure "unused")

/-- C5: when the subprocess fails to start (`OSError`) the invocation raises
an `ExpectedFailure` (`DiffError`); when the subprocess exits nonzero it
raises an `ExpectedFailure` whose attached lines are exactly
`stderr.splitlines(True)` of the captured standard error. -/
theorem C5_subprocess_failures (env : Env) (args : Args) (file : String)
    (lines : List String) (msg : String) (rc : Int) (pout perr : String)
    (hread : env.readFile file = .ok lines) (hdry : args.dry_run = false) :
    (env.runProcess (invocationOf args file) = .startFailure msg →
        run_clang_format_diff_wrapper env args file =
          (.diffError ("Command \x27" ++ list2cmdline (invocationOf args file) ++
            "\x27 failed to start: " ++ msg) [], []))
    ∧ (env.runProcess (invocationOf args file) = .finished rc pout perr → rc ≠ 0 →
        run_clang_format_diff_wrapper env args file =
          (.diffError ("Command \x27" ++ list2cmdline (invocationOf args file) ++
            "\x27 returned non-zero exit status " ++ pyIntStr rc)
            (Py.splitlinesKeepends perr), [])) := by
  constructor
  · intro h
    unfold run_clang_format_diff_wrapper run_clang_format_diff
    simp only [hread, hdry, Bool.false_eq_true, if_false, h]
  · intro h hrc
    unfold run_clang_format_diff_wrapper run_clang_format_diff
    simp only [hread, hdry, Bool.false_eq_true, if_false, h, hrc, if_true, ne_eq,
      not_false_eq_true]

/-- Witness for C5 at a concrete failing formatter invocation. -/
theorem C5_subprocess_failures_witness :
    ((⟨fun _ => .ok ["x\n"], fun _ => .finished 1 "" "err line\n"⟩ : Env).runProcess
        (invocationOf ⟨"cf", ".", false, false, false, 0, "auto", [], "Google"⟩ "f.c") =
          .startFailure "m" →
        run_clang_format_diff_wrapper
            ⟨fun _ => .ok ["x\n"], fun _ => .finished 1 "" "err line\n"⟩
            ⟨"cf", ".", false, false, false, 0, "auto", [], "Google"⟩ "f.c" =
          (.diffError ("Command \x27" ++
              list2cmdline (invocationOf
                ⟨"cf", ".", false, false, false, 0, "auto", [], "Google"⟩ "f.c") ++
              "\x27 failed to start: " ++ "m") [], []))
    ∧ ((⟨fun _ => .ok ["x\n"], fun _ => .finished 1 "" "err line\n"⟩ : Env).runProcess
        (invocationOf ⟨"cf", ".", false, false, false, 0, "auto", [], "Google"⟩ "f.c") =
          .finished 1 "" "err line\n" → (1 : Int) ≠ 0 →
        run_clang_format_diff_wrapper
            ⟨fun _ => .ok ["x\n"], fun _ => .finished 1 "" "err line\n"⟩
            ⟨"cf", ".", false, false, false, 0, "auto", [], "Google"⟩ "f.c" =
          (.diffError ("Command \x27" ++
              list2cmdline (invocationOf
                ⟨"cf", ".", false, false, false, 0, "auto", [], "Google"⟩ "f.c") ++
              "\x27 returned non-zero exit status " ++ pyIntStr 1)
            (Py.splitlinesKeepends "err line\n"), [])) :=
  C5_subprocess_failures
    ⟨fun _ => .ok ["x\n"], fun _ => .finished 1 "" "err line\n"⟩
    ⟨"cf", ".", false, false, false, 0, "auto", [], "Google"⟩ "f.c"
    ["x\n"] "m" 1 "" "err line\n" rfl rfl


end Wrapper

namespace Difflib

/-! Basic lemmas about `matchAt`, `between` and list segments. -/

/-- An empty match at any in-bounds position. -/
theorem matchAt_zero {a b : List String} {i j : Nat}
    (ha : i ≤ a.length) (hb : j ≤ b.length) : matchAt a b i j 0 :=
  ⟨by omega, by omega, fun t ht => absurd ht (Nat.not_lt_zero t)⟩

/-- A sequence matches itself on any in-bounds segment. -/
theorem matchAt_self (a : List String) {i k : Nat} (h : i + k ≤ a.length) :
    matchAt a a i i k :=
  ⟨h, h, fun _ _ => rfl⟩

/-- Adjacent matches concatenate. -/
theorem matchAt_concat {a b : List String} {i j k m : Nat}
    (h₁ : matchAt a b i j k) (h₂ : matchAt a b (i + k) (j + k) m) :
    matchAt a b i j (k + m) := by
  obtain ⟨ha₁, hb₁, hp₁⟩ := h₁
  obtain ⟨ha₂, hb₂, hp₂⟩ := h₂
  refine ⟨by omega, by omega, fun t ht => ?_⟩
  by_cases htk : t < k
  · exact hp₁ t htk
  · have h := hp₂ (t - k) (by omega)
    have e₁ : i + k + (t - k) = i + t := by omega
    have e₂ : j + k + (t - k) = j + t := by omega
    rwa [e₁, e₂] at h

/-- A match restricts to a shorter length. -/
theorem matchAt_mono {a b : List String} {i j k m : Nat}
    (h : matchAt a b i j k) (hm : m ≤ k) : matchAt a b i j m := by
  obtain ⟨ha, hb, hp⟩ := h
  exact ⟨by omega, by omega, fun t ht => hp t (by omega)⟩

/-- A match restricts to a suffix. -/
theorem matchAt_shift {a b : List String} {i j k d : Nat}
    (h : matchAt a b i j k) (hd : d ≤ k) :
    matchAt a b (i + d) (j + d) (k - d) := by
  obtain ⟨ha, hb, hp⟩ := h
  refine ⟨by omega, by omega, fun t ht => ?_⟩
  have h := hp (d + t) (by omega)
  have e₁ : i + (d + t) = i + d + t := by omega
  have e₂ : j + (d + t) = j + d + t := by omega
  rwa [e₁, e₂] at h

/-- A match extends by one equal element on the left. -/
theorem matchAt_cons {a b : List String} {i j k : Nat}
    (h : matchAt a b (i + 1) (j + 1) k)
    (_hi : i < a.length) (_hj : j < b.length)
    (he : a.getD i "" = b.getD j "") : matchAt a b i j (k + 1) := by
  obtain ⟨ha, hb, hp⟩ := h
  refine ⟨by omega, by omega, fun t ht => ?_⟩
  cases t with
  | zero => simpa using he
  | succ t =>
      have h := hp t (by omega)
      have e₁ : i + 1 + t = i + (t + 1) := by omega
      have e₂ : j + 1 + t = j + (t + 1) := by omega
      rwa [e₁, e₂] at h

/-- A match extends by one equal element on the right. -/
theorem matchAt_snoc {a b : List String} {i j k : Nat}
    (h : matchAt a b i j k)
    (hi : i + k < a.length) (hj : j + k < b.length)
    (he : a.getD (i + k) "" = b.getD (j + k) "") :
    matchAt a b i j (k + 1) := by
  obtain ⟨ha, hb, hp⟩ := h
  refine ⟨by omega, by omega, fun t ht => ?_⟩
  by_cases htk : t < k
  · exact hp t htk
  · have : t = k := by omega
    subst this
    exact he

/-- Equal segments as lists: `matchAt` gives equal `drop`-`take` slices. -/
theorem seg_eq_of_matchAt {a b : List String} {x y L : Nat}
    (h : matchAt a b x y L) :
    (a.drop x).take L = (b.drop y).take L := by
  obtain ⟨ha, hb, hp⟩ := h
  apply List.ext_getElem
  · simp only [List.length_take, List.length_drop]
    omega
  · intro t h₁ h₂
    have ht : t < L := by
      simp only [List.length_take, List.length_drop] at h₁
      omega
    rw [List.getElem_take, List.getElem_take, List.getElem_drop, List.getElem_drop]
    have hxa : x + t < a.length := by omega
    have hyb : y + t < b.length := by omega
    have := hp t ht
    rwa [List.getD_eq_getElem a "" hxa, List.getD_eq_getElem b "" hyb] at this

/-- Whole-list version: a full-length match of equal-length lists means the
lists are equal. -/
theorem eq_of_matchAt_full {a b : List String}
    (hlen : a.length = b.length) (h : matchAt a b 0 0 a.length) : a = b := by
  obtain ⟨ha, hb, hp⟩ := h
  apply List.ext_getElem hlen
  intro n h₁ h₂
  have h0 := hp n h₁
  simp only [Nat.zero_add] at h0
  rwa [List.getD_eq_getElem a "" h₁, List.getD_eq_getElem b "" h₂] at h0

/-- Reflexive `between`. -/
theorem between_refl {a b : List String} {x y : Nat}
    (ha : x ≤ a.length) (hb : y ≤ b.length) : between a b x y x y :=
  ⟨Nat.le_refl x, Nat.le_refl y, by omega, by
    simpa using matchAt_zero ha hb⟩

/-- `between` composes. -/
theorem between_trans {a b : List String} {x y u v w z : Nat}
    (h₁ : between a b x y u v) (h₂ : between a b u v w z) :
    between a b x y w z := by
  obtain ⟨hx, hy, hl, hm⟩ := h₁
  obtain ⟨hu, hv, hl₂, hm₂⟩ := h₂
  refine ⟨by omega, by omega, by omega, ?_⟩
  have e₁ : u = x + (u - x) := by omega
  have e₂ : v = y + (u - x) := by omega
  rw [e₁, e₂] at hm₂
  have hcat := matchAt_concat hm hm₂
  have e₃ : u - x + (w - (x + (u - x))) = w - x := by omega
  rwa [e₃] at hcat

/-- A match yields a `between` over its extent. -/
theorem between_of_matchAt {a b : List String} {x y L : Nat}
    (h : matchAt a b x y L) : between a b x y (x + L) (y + L) :=
  ⟨by omega, by omega, by omega, by simpa using h⟩

/-- Equal tails: `between` up to the ends gives equal `drop`s. -/
theorem drop_eq_of_between {a b : List String} {u v : Nat}
    (h : between a b u v a.length b.length) :
    a.drop u = b.drop v := by
  obtain ⟨hu, hv, hl, hm⟩ := h
  have hseg := seg_eq_of_matchAt hm
  have e₁ : (a.drop u).take (a.length - u) = a.drop u := by
    apply List.take_of_length_le
    simp
  have e₂ : (b.drop v).take (a.length - u) = b.drop v := by
    rw [hl]
    apply List.take_of_length_le
    simp
  rwa [e₁, e₂] at hseg

end Difflib

namespace Difflib

/-! Soundness of the `find_longest_match` scan. -/

/-- Membership in the visited index list. -/
theorem flmJs_mem {a b : List String} {blo bhi i j : Nat}
    (h : j ∈ flmJs a b blo bhi i) :
    blo ≤ j ∧ j < bhi ∧ j < b.length ∧ b.getD j "" = a.getD i "" := by
  unfold flmJs at h
  rw [List.mem_filter] at h
  obtain ⟨h1, h2⟩ := h
  simp only [Bool.and_eq_true, decide_eq_true_eq] at h2
  unfold b2jGet at h1
  by_cases hp : isPopular b (a.getD i "")
  · rw [if_pos hp] at h1
    exact absurd h1 (List.not_mem_nil j)
  · rw [if_neg hp, List.mem_filter] at h1
    obtain ⟨hr, he⟩ := h1
    rw [List.mem_range] at hr
    simp only [decide_eq_true_eq] at he
    exact ⟨h2.1, h2.2, hr, he⟩

/-- The map component of one inner-loop step. -/
theorem flmStepJ_fst (i : Nat) (prev : Nat → Nat)
    (st : (Nat → Nat) × Nat × Nat × Nat) (j : Nat) :
    (flmStepJ i prev st j).1 =
      fun x => if x = j then (if j = 0 then 0 else prev (j - 1)) + 1 else st.1 x := by
  simp only [flmStepJ]
  split <;> split <;> rfl

/-- The best-candidate component of one inner-loop step. -/
theorem flmStepJ_best (i : Nat) (prev : Nat → Nat)
    (st : (Nat → Nat) × Nat × Nat × Nat) (j : Nat) :
    (flmStepJ i prev st j).2 =
      if st.2.2.2 < (if j = 0 then 0 else prev (j - 1)) + 1 then
        (i + 1 - ((if j = 0 then 0 else prev (j - 1)) + 1),
          j + 1 - ((if j = 0 then 0 else prev (j - 1)) + 1),
          (if j = 0 then 0 else prev (j - 1)) + 1)
      else st.2 := by
  simp only [flmStepJ]
  split <;> split <;> rfl

/-- The map after the inner loop: every visited index is overwritten with its
run value, everything else keeps its previous value. -/
theorem foldJ_map (i : Nat) (prev : Nat → Nat) :
    ∀ (js : List Nat) (st : (Nat → Nat) × Nat × Nat × Nat),
      (js.foldl (flmStepJ i prev) st).1 =
        fun x => if x ∈ js then (if x = 0 then 0 else prev (x - 1)) + 1 else st.1 x := by
  intro js
  induction js with
  | nil => intro st; funext x; simp
  | cons j rest ih =>
      intro st
      rw [List.foldl_cons, ih]
      funext x
      rw [flmStepJ_fst]
      by_cases hx : x ∈ rest
      · simp [hx]
      · by_cases hxj : x = j
        · subst hxj
          simp [hx]
        · simp [hx, hxj]

/-- Equation lemma for `runFn` at row `0`. -/
theorem runFn_zero (a b : List String) (alo blo bhi j : Nat) :
    runFn a b alo blo bhi 0 j =
      if j ∈ flmJs a b blo bhi 0 then 1 else 0 := rfl

/-- Equation lemma for `runFn` at a successor row. -/
theorem runFn_succ (a b : List String) (alo blo bhi i j : Nat) :
    runFn a b alo blo bhi (i + 1) j =
      if j ∈ flmJs a b blo bhi (i + 1) then
        (if i + 1 = alo ∨ j = 0 then 0 else runFn a b alo blo bhi i (j - 1)) + 1
      else 0 := rfl

/-- The run value at a visited index, in terms of the previous row. -/
theorem runFn_eq_v (a b : List String) (alo blo bhi : Nat) (i j : Nat)
    (hi : alo ≤ i) (hj : j ∈ flmJs a b blo bhi i) :
    runFn a b alo blo bhi i j =
      (if j = 0 then 0 else
        (if i = alo then 0 else runFn a b alo blo bhi (i - 1) (j - 1))) + 1 := by
  cases i with
  | zero =>
      have halo : alo = 0 := by omega
      subst halo
      rw [runFn_zero, if_pos hj]
      by_cases hj0 : j = 0 <;> simp [hj0]
  | succ s =>
      rw [runFn_succ, if_pos hj]
      by_cases he : s + 1 = alo
      · by_cases hj0 : j = 0 <;> simp [he, hj0]
      · by_cases hj0 : j = 0 <;> simp [he, hj0]

/-- Soundness of the run value: a nonzero run of length `k` ending at
`(i, j)` is an equal-content match of the `k` elements ending there, within
the scan bounds. -/
theorem runFn_sound (a b : List String) (alo blo bhi : Nat)
    (_hbhi : bhi ≤ b.length) :
    ∀ (i j : Nat), alo ≤ i → i < a.length →
      runFn a b alo blo bhi i j ≠ 0 →
      matchAt a b (i + 1 - runFn a b alo blo bhi i j)
          (j + 1 - runFn a b alo blo bhi i j) (runFn a b alo blo bhi i j)
        ∧ runFn a b alo blo bhi i j ≤ i + 1 - alo
        ∧ runFn a b alo blo bhi i j ≤ j + 1 - blo
        ∧ j < bhi := by
  intro i
  induction i with
  | zero =>
      intro j halo hia hk
      have hjs : j ∈ flmJs a b blo bhi 0 := by
        by_contra hc
        exact hk (by rw [runFn_zero, if_neg hc])
      have hk1 : runFn a b alo blo bhi 0 j = 1 := by
        rw [runFn_zero, if_pos hjs]
      obtain ⟨hb1, hb2, hb3, hb4⟩ := flmJs_mem hjs
      rw [hk1]
      refine ⟨⟨by omega, by omega, ?_⟩, by omega, by omega, hb2⟩
      intro t ht
      have ht0 : t = 0 := by omega
      subst ht0
      simpa using hb4.symm
  | succ s ih =>
      intro j halo hia hk
      have hjs : j ∈ flmJs a b blo bhi (s + 1) := by
        by_contra hc
        exact hk (by rw [runFn_succ, if_neg hc])
      obtain ⟨hb1, hb2, hb3, hb4⟩ := flmJs_mem hjs
      have heq : runFn a b alo blo bhi (s + 1) j =
          (if s + 1 = alo ∨ j = 0 then 0 else runFn a b alo blo bhi s (j - 1)) + 1 := by
        rw [runFn_succ, if_pos hjs]
      by_cases hz : s + 1 = alo ∨ j = 0
      · rw [heq, if_pos hz]
        refine ⟨⟨by omega, by omega, ?_⟩, by omega, by omega, hb2⟩
        intro t ht
        have ht0 : t = 0 := by omega
        subst ht0
        have e1 : s + 1 + 1 - 1 + 0 = s + 1 := by omega
        have e2 : j + 1 - 1 + 0 = j := by omega
        rw [e1, e2]
        exact hb4.symm
      · push_neg at hz
        rw [heq, if_neg (by tauto)]
        by_cases hk' : runFn a b alo blo bhi s (j - 1) = 0
        · rw [hk']
          refine ⟨⟨by omega, by omega, ?_⟩, by omega, by omega, hb2⟩
          intro t ht
          have ht0 : t = 0 := by omega
          subst ht0
          have e1 : s + 1 + 1 - (0 + 1) + 0 = s + 1 := by omega
          have e2 : j + 1 - (0 + 1) + 0 = j := by omega
          rw [e1, e2]
          exact hb4.symm
        · have halos : alo ≤ s := by omega
          obtain ⟨hm, hk1, hk2, hk3⟩ := ih (j - 1) halos (by omega) hk'
          set k := runFn a b alo blo bhi s (j - 1) with hkdef
          have hkj : k ≤ j := by omega
          have hks : k ≤ s + 1 := by omega
          have e1 : s + 1 + 1 - (k + 1) = s + 1 - k := by omega
          have e2 : j + 1 - (k + 1) = j - 1 + 1 - k := by omega
          have hm2 : matchAt a b (s + 1 + 1 - (k + 1)) (j + 1 - (k + 1)) k := by
            rw [e1, e2]
            exact hm
          have hsnoc : matchAt a b (s + 1 + 1 - (k + 1)) (j + 1 - (k + 1)) (k + 1) := by
            apply matchAt_snoc hm2
            · have : s + 1 + 1 - (k + 1) + k = s + 1 := by omega
              rw [this]; exact hia
            · have : j + 1 - (k + 1) + k = j := by omega
              rw [this]; omega
            · have e5 : s + 1 + 1 - (k + 1) + k = s + 1 := by omega
              have e6 : j + 1 - (k + 1) + k = j := by omega
              rw [e5, e6]
              exact hb4.symm
          exact ⟨hsnoc, by omega, by omega, hb2⟩

end Difflib

namespace Difflib

/-- The `j2len` map component of the scan after `m` outer steps. -/
theorem scan_j2len (a b : List String) (alo blo bhi : Nat) :
    ∀ m : Nat,
      ((List.range' alo m).foldl (flmStepI a b blo bhi)
          (fun _ => 0, alo, blo, 0)).1 =
        if m = 0 then (fun _ => 0)
        else fun j => runFn a b alo blo bhi (alo + m - 1) j := by
  intro m
  induction m with
  | zero => simp
  | succ m ih =>
      have hc : List.range' alo (m + 1) = List.range' alo m ++ [alo + m] := by
        have h0 := @List.range'_concat 1 alo m
        simpa using h0
      rw [hc, List.foldl_append, List.foldl_cons, List.foldl_nil]
      have hstep : ∀ (st : (Nat → Nat) × Nat × Nat × Nat),
          st.1 = (if m = 0 then (fun _ => 0)
            else fun j => runFn a b alo blo bhi (alo + m - 1) j) →
          (flmStepI a b blo bhi st (alo + m)).1 =
            fun j => runFn a b alo blo bhi (alo + m) j := by
        intro st hst
        unfold flmStepI
        rw [foldJ_map]
        funext j
        by_cases hjm : j ∈ flmJs a b blo bhi (alo + m)
        · rw [if_pos hjm,
            runFn_eq_v a b alo blo bhi (alo + m) j (by omega) hjm]
          cases m with
          | zero =>
              simp only [Nat.add_zero, if_pos rfl] at hst ⊢
              rw [hst]
              by_cases hj0 : j = 0 <;> simp [hj0]
          | succ m' =>
              have hne : ¬ alo + (m' + 1) = alo := by omega
              rw [hst]
              simp only [Nat.succ_ne_zero, if_false, if_neg hne]
        · rw [if_neg hjm]
          cases hm : alo + m with
          | zero => rw [runFn_zero, if_neg (hm ▸ hjm)]
          | succ s => rw [runFn_succ, if_neg (hm ▸ hjm)]
      have e : alo + (m + 1) - 1 = alo + m := by omega
      rw [hstep _ ih]
      simp [e]

/-- `bestOK` is preserved by the inner loop. -/
theorem foldJ_bestOK (a b : List String) (alo ahi blo bhi i : Nat)
    (prev : Nat → Nat) (hi : alo ≤ i) (hia : i < ahi) (hahi : ahi ≤ a.length)
    (hbhi : bhi ≤ b.length) :
    ∀ (js : List Nat),
      (∀ j ∈ js, j ∈ flmJs a b blo bhi i ∧
        (if j = 0 then 0 else prev (j - 1)) + 1 = runFn a b alo blo bhi i j) →
      ∀ (st : (Nat → Nat) × Nat × Nat × Nat),
        bestOK a b alo ahi blo bhi st.2 →
        bestOK a b alo ahi blo bhi ((js.foldl (flmStepJ i prev) st)).2 := by
  intro js
  induction js with
  | nil => intro _ st h; exact h
  | cons j rest ih =>
      intro hjs st hst
      rw [List.foldl_cons]
      refine ih (fun x hx => hjs x (List.mem_cons_of_mem j hx)) _ ?_
      obtain ⟨hjm, hjv⟩ := hjs j (List.mem_cons_self j rest)
      rw [flmStepJ_best, hjv]
      split
      · -- an update happened; the new candidate is the run ending at (i, j)
        have hk0 : runFn a b alo blo bhi i j ≠ 0 := by omega
        obtain ⟨hm, hk1, hk2, hk3⟩ :=
          runFn_sound a b alo blo bhi hbhi i j hi (by omega) hk0
        constructor
        · intro h
          exact absurd h hk0
        · intro _
          refine ⟨hm, ?_, ?_, ?_, ?_⟩
          · show alo ≤ i + 1 - runFn a b alo blo bhi i j
            omega
          · show blo ≤ j + 1 - runFn a b alo blo bhi i j
            omega
          · show i + 1 - runFn a b alo blo bhi i j + runFn a b alo blo bhi i j ≤ ahi
            omega
          · show j + 1 - runFn a b alo blo bhi i j + runFn a b alo blo bhi i j ≤ bhi
            omega
      · exact hst

/-- `bestOK` holds for the scan state. -/
theorem scan_bestOK (a b : List String) (alo ahi blo bhi : Nat)
    (hahi : ahi ≤ a.length) (hbhi : bhi ≤ b.length) :
    ∀ m : Nat, alo + m ≤ ahi →
      bestOK a b alo ahi blo bhi
        (((List.range' alo m).foldl (flmStepI a b blo bhi)
          (fun _ => 0, alo, blo, 0)).2) := by
  intro m
  induction m with
  | zero =>
      intro hm
      refine ⟨fun _ => ⟨rfl, rfl⟩, fun h => absurd rfl h⟩
  | succ m ih =>
      intro hm
      have hc : List.range' alo (m + 1) = List.range' alo m ++ [alo + m] := by
        have h0 := @List.range'_concat 1 alo m
        simpa using h0
      rw [hc, List.foldl_append, List.foldl_cons, List.foldl_nil]
      set st := (List.range' alo m).foldl (flmStepI a b blo bhi)
        (fun _ => 0, alo, blo, 0) with hstdef
      have hmap := scan_j2len a b alo blo bhi m
      unfold flmStepI
      apply foldJ_bestOK a b alo ahi blo bhi (alo + m) st.1
        (by omega) (by omega) hahi hbhi
      · intro j hj
        refine ⟨hj, ?_⟩
        rw [runFn_eq_v a b alo blo bhi (alo + m) j (by omega) hj]
        rw [← hstdef] at hmap
        rw [hmap]
        cases m with
        | zero =>
            simp only [if_pos rfl, Nat.add_zero]
            by_cases hj0 : j = 0 <;> simp [hj0]
        | succ m' =>
            have hne : ¬ alo + (m' + 1) = alo := by omega
            simp only [Nat.succ_ne_zero, if_false, if_neg hne]
      · exact ih (by omega)

end Difflib

namespace Difflib

/-- Unfolding of `bestOK` on an explicit triple. -/
theorem bestOK_def (a b : List String) (alo ahi blo bhi x y z : Nat) :
    bestOK a b alo ahi blo bhi (x, y, z) ↔
      ((z = 0 → x = alo ∧ y = blo) ∧
        (z ≠ 0 → matchAt a b x y z ∧ alo ≤ x ∧ blo ≤ y ∧
          x + z ≤ ahi ∧ y + z ≤ bhi)) := Iff.rfl

/-- The left extension loop preserves `bestOK`. -/
theorem extendLeft_bestOK (a b : List String) (alo ahi blo bhi : Nat)
    (hahi : ahi ≤ a.length) (hbhi : bhi ≤ b.length) :
    ∀ (besti bestj bestsize : Nat),
      bestOK a b alo ahi blo bhi (besti, bestj, bestsize) →
      bestOK a b alo ahi blo bhi (extendLeft a b alo blo besti bestj bestsize) := by
  intro besti bestj bestsize
  induction besti, bestj, bestsize using extendLeft.induct a b alo blo with
  | case1 besti bestj bestsize hguard ih =>
      intro h
      rw [extendLeft.eq_def, if_pos hguard]
      apply ih
      obtain ⟨hg1, hg2, hg3⟩ := hguard
      rw [bestOK_def] at h
      obtain ⟨hzero, hnz⟩ := h
      rw [bestOK_def]
      have hnew : matchAt a b (besti - 1) (bestj - 1) (bestsize + 1) ∧
          besti - 1 + (bestsize + 1) ≤ ahi ∧ bestj - 1 + (bestsize + 1) ≤ bhi := by
        by_cases hs : bestsize = 0
        · obtain ⟨he1, he2⟩ := hzero hs
          subst hs
          omega
        · obtain ⟨hm, h1, h2, h3, h4⟩ := hnz hs
          have hm2 : matchAt a b (besti - 1 + 1) (bestj - 1 + 1) bestsize := by
            have e1 : besti - 1 + 1 = besti := by omega
            have e2 : bestj - 1 + 1 = bestj := by omega
            rw [e1, e2]
            exact hm
          refine ⟨matchAt_cons hm2 (by omega) (by omega) hg3, by omega, by omega⟩
      exact ⟨fun hc => absurd hc (by omega),
        fun _ => ⟨hnew.1, by omega, by omega, hnew.2.1, hnew.2.2⟩⟩
  | case2 besti bestj bestsize hguard =>
      intro h
      rw [extendLeft.eq_def, if_neg hguard]
      exact h

/-- The right extension loop preserves `bestOK`. -/
theorem extendRight_bestOK (a b : List String) (alo ahi blo bhi : Nat)
    (hahi : ahi ≤ a.length) (hbhi : bhi ≤ b.length) (besti bestj : Nat) :
    ∀ (bestsize : Nat),
      bestOK a b alo ahi blo bhi (besti, bestj, bestsize) →
      bestOK a b alo ahi blo bhi
        (besti, bestj, extendRight a b ahi bhi besti bestj bestsize) := by
  intro bestsize
  induction bestsize using extendRight.induct a b ahi bhi besti bestj with
  | case1 bestsize hguard ih =>
      intro h
      rw [extendRight.eq_def, if_pos hguard]
      apply ih
      obtain ⟨hg1, hg2, hg3⟩ := hguard
      rw [bestOK_def] at h
      obtain ⟨hzero, hnz⟩ := h
      rw [bestOK_def]
      have hnew : matchAt a b besti bestj (bestsize + 1) := by
        by_cases hs : bestsize = 0
        · subst hs
          have h0 : matchAt a b besti bestj 0 :=
            matchAt_zero (by omega) (by omega)
          exact matchAt_snoc h0 (by omega) (by omega) hg3
        · obtain ⟨hm, h1, h2, h3, h4⟩ := hnz hs
          exact matchAt_snoc hm (by omega) (by omega) hg3
      have hpos : alo ≤ besti ∧ blo ≤ bestj := by
        by_cases hs : bestsize = 0
        · obtain ⟨he1, he2⟩ := hzero hs
          omega
        · obtain ⟨_, h1, h2, _, _⟩ := hnz hs
          exact ⟨h1, h2⟩
      exact ⟨fun hc => absurd hc (by omega),
        fun _ => ⟨hnew, hpos.1, hpos.2, by omega, by omega⟩⟩
  | case2 bestsize hguard =>
      intro h
      rw [extendRight.eq_def, if_neg hguard]
      exact h

/-- Soundness of `find_longest_match`: a zero-size result sits at the
rectangle origin; a nonzero result is an in-rectangle equal-content
match. -/
theorem flm_bestOK (a b : List String) (alo ahi blo bhi : Nat)
    (hahi : ahi ≤ a.length) (hbhi : bhi ≤ b.length) :
    bestOK a b alo ahi blo bhi (find_longest_match a b alo ahi blo bhi) := by
  have hscan : bestOK a b alo ahi blo bhi (flmScan a b alo ahi blo bhi).2 := by
    by_cases hle : alo ≤ ahi
    · have := scan_bestOK a b alo ahi blo bhi hahi hbhi (ahi - alo) (by omega)
      unfold flmScan
      exact this
    · have hm0 : ahi - alo = 0 := by omega
      unfold flmScan
      rw [hm0]
      exact ⟨fun _ => ⟨rfl, rfl⟩, fun h => absurd rfl h⟩
  unfold find_longest_match
  have hL := extendLeft_bestOK a b alo ahi blo bhi hahi hbhi
    (flmScan a b alo ahi blo bhi).2.1 (flmScan a b alo ahi blo bhi).2.2.1
    (flmScan a b alo ahi blo bhi).2.2.2 hscan
  have hR := extendRight_bestOK a b alo ahi blo bhi hahi hbhi
    (extendLeft a b alo blo (flmScan a b alo ahi blo bhi).2.1
      (flmScan a b alo ahi blo bhi).2.2.1 (flmScan a b alo ahi blo bhi).2.2.2).1
    (extendLeft a b alo blo (flmScan a b alo ahi blo bhi).2.1
      (flmScan a b alo ahi blo bhi).2.2.1 (flmScan a b alo ahi blo bhi).2.2.2).2.1
    (extendLeft a b alo blo (flmScan a b alo ahi blo bhi).2.1
      (flmScan a b alo ahi blo bhi).2.2.1 (flmScan a b alo ahi blo bhi).2.2.2).2.2
    hL
  exact hR

end Difflib

namespace Difflib

/-! The diagonal property: on identical inputs `find_longest_match` returns
the full-range match, so identical inputs produce an empty diff. -/

/-- The visited index list is strictly increasing. -/
theorem flmJs_sorted (a b : List String) (blo bhi i : Nat) :
    (flmJs a b blo bhi i).Pairwise (· < ·) := by
  unfold flmJs b2jGet
  split
  · simp
  · exact List.Pairwise.filter _ (List.Pairwise.filter _ (List.pairwise_lt_range _))

/-- If the inner loop visits anything at row `i` (on identical sequences),
it also visits the diagonal index `i`. -/
theorem mem_flmJs_self (a : List String) {blo bhi i j : Nat}
    (hj : j ∈ flmJs a a blo bhi i) (hi : i < a.length)
    (hblo : blo ≤ i) (hbhi : i < bhi) : i ∈ flmJs a a blo bhi i := by
  unfold flmJs b2jGet at hj ⊢
  by_cases hp : isPopular a (a.getD i "")
  · rw [if_pos hp] at hj
    simp at hj
  · rw [if_neg hp] at hj ⊢
    rw [List.mem_filter]
    refine ⟨List.mem_filter.2 ⟨List.mem_range.2 hi, by simp⟩, ?_⟩
    simp only [Bool.and_eq_true, decide_eq_true_eq]
    exact ⟨hblo, hbhi⟩

/-- The visited index list only depends on the element value at the row. -/
theorem flmJs_value_congr (a b : List String) {blo bhi i i' : Nat}
    (h : a.getD i "" = a.getD i' "") :
    flmJs a b blo bhi i = flmJs a b blo bhi i' := by
  unfold flmJs
  rw [h]

/-- On identical sequences, no run at row `i` beats the diagonal run. -/
theorem runFn_le_dI (a : List String) (bhi : Nat) :
    ∀ i j, i < a.length → i < bhi →
      runFn a a 0 0 bhi i j ≤ runFn a a 0 0 bhi i i := by
  intro i
  induction i with
  | zero =>
      intro j h1 h2
      by_cases hj : j ∈ flmJs a a 0 bhi 0
      · rw [runFn_zero, if_pos hj, runFn_zero,
          if_pos (mem_flmJs_self a hj h1 (Nat.zero_le 0) h2)]
      · rw [runFn_zero, if_neg hj]
        omega
  | succ i ih =>
      intro j h1 h2
      by_cases hj : j ∈ flmJs a a 0 bhi (i + 1)
      · have hself := mem_flmJs_self a hj h1 (Nat.zero_le (i + 1)) h2
        rw [runFn_succ, if_pos hj, runFn_succ, if_pos hself]
        rw [if_neg (by omega : ¬(i + 1 = 0 ∨ i + 1 = 0))]
        by_cases hj0 : j = 0
        · rw [if_pos (Or.inr hj0)]
          omega
        · rw [if_neg (by omega : ¬(i + 1 = 0 ∨ j = 0))]
          have h3 := ih (j - 1) (by omega) (by omega)
          simp only [Nat.add_sub_cancel] at h3 ⊢
          omega
      · rw [runFn_succ, if_neg hj]
        omega

/-- On identical sequences, a run ending at column `j` never beats the
diagonal run at row `j`. -/
theorem runFn_le_dJ (a : List String) (bhi : Nat) :
    ∀ i j, runFn a a 0 0 bhi i j ≤ runFn a a 0 0 bhi j j := by
  intro i
  induction i with
  | zero =>
      intro j
      by_cases hj : j ∈ flmJs a a 0 bhi 0
      · obtain ⟨_, hjbhi, hjlen, hval⟩ := flmJs_mem hj
        have hjj : j ∈ flmJs a a 0 bhi j := by
          rw [flmJs_value_congr a a hval]
          exact hj
        rw [runFn_zero, if_pos hj]
        cases j with
        | zero => rw [runFn_zero, if_pos hjj]
        | succ t =>
            rw [runFn_succ, if_pos hjj]
            omega
      · rw [runFn_zero, if_neg hj]
        omega
  | succ i ih =>
      intro j
      by_cases hj : j ∈ flmJs a a 0 bhi (i + 1)
      · obtain ⟨_, hjbhi, hjlen, hval⟩ := flmJs_mem hj
        have hjj : j ∈ flmJs a a 0 bhi j := by
          rw [flmJs_value_congr a a hval]
          exact hj
        rw [runFn_succ, if_pos hj]
        cases j with
        | zero =>
            rw [if_pos (Or.inr rfl), runFn_zero, if_pos hjj]
        | succ t =>
            rw [runFn_succ, if_pos hjj]
            rw [if_neg (by omega : ¬(i + 1 = 0 ∨ t + 1 = 0)),
              if_neg (by omega : ¬(t + 1 = 0 ∨ t + 1 = 0))]
            have h3 := ih (t + 1 - 1)
            simp only [Nat.add_sub_cancel] at h3 ⊢
            omega
      · rw [runFn_succ, if_neg hj]
        omega

/-- The inner loop on identical sequences keeps the best candidate on the
diagonal, and its size dominates all diagonal runs up to the current row. -/
theorem foldJ_diag (a : List String) (bhi i : Nat) (prev : Nat → Nat)
    (hi : i < a.length) (hibhi : i < bhi) :
    ∀ (js : List Nat), js.Pairwise (· < ·) →
      (∀ j ∈ js, j ∈ flmJs a a 0 bhi i ∧
        (if j = 0 then 0 else prev (j - 1)) + 1 = runFn a a 0 0 bhi i j) →
      ∀ (mp : Nat → Nat) (p B : Nat),
        (∀ x, x < i → runFn a a 0 0 bhi x x ≤ B) →
        (i ∈ js ∨ runFn a a 0 0 bhi i i ≤ B) →
        ∃ q C, (js.foldl (flmStepJ i prev) (mp, p, p, B)).2 = (q, q, C) ∧
          (∀ x, x < i → runFn a a 0 0 bhi x x ≤ C) ∧
          runFn a a 0 0 bhi i i ≤ C := by
  intro js
  induction js with
  | nil =>
      intro _ _ mp p B hrec hdisj
      refine ⟨p, B, rfl, hrec, ?_⟩
      rcases hdisj with h | h
      · exact absurd h (List.not_mem_nil i)
      · exact h
  | cons j rest ih =>
      intro hsort hmem mp p B hrec hdisj
      obtain ⟨hjm, hjv⟩ := hmem j (List.mem_cons_self j rest)
      rw [List.foldl_cons]
      have hstep := flmStepJ_best i prev (mp, p, p, B) j
      rw [hjv] at hstep
      dsimp only at hstep
      have hrest_sort : rest.Pairwise (fun x y => x < y) := hsort.of_cons
      have hrest_mem : ∀ x ∈ rest, x ∈ flmJs a a 0 bhi i ∧
          (if x = 0 then 0 else prev (x - 1)) + 1 = runFn a a 0 0 bhi i x :=
        fun x hx => hmem x (List.mem_cons_of_mem j hx)
      have hjgt : ∀ x ∈ rest, j < x := (List.pairwise_cons.1 hsort).1
      by_cases hupd : B < runFn a a 0 0 bhi i j
      · -- an update happened; it can only be the diagonal index
        have hji : j = i := by
          rcases Nat.lt_trichotomy j i with hlt | heq | hgt
          · exfalso
            have h1 := runFn_le_dJ a bhi i j
            have h2 := hrec j hlt
            omega
          · exact heq
          · exfalso
            have hnotin : i ∉ j :: rest := by
              intro hin
              rcases List.mem_cons.1 hin with h | h
              · omega
              · have := hjgt i h
                omega
            have hdB : runFn a a 0 0 bhi i i ≤ B := by
              rcases hdisj with h | h
              · exact absurd h hnotin
              · exact h
            have h1 := runFn_le_dI a bhi i j hi hibhi
            omega
        have he : (flmStepJ i prev (mp, p, p, B) j).2 =
            (i + 1 - runFn a a 0 0 bhi i i, i + 1 - runFn a a 0 0 bhi i i,
              runFn a a 0 0 bhi i i) := by
          rw [hstep, if_pos hupd, hji]
        have hfold : List.foldl (flmStepJ i prev) (flmStepJ i prev (mp, p, p, B) j) rest =
            List.foldl (flmStepJ i prev)
              ((flmStepJ i prev (mp, p, p, B) j).1,
                i + 1 - runFn a a 0 0 bhi i i, i + 1 - runFn a a 0 0 bhi i i,
                runFn a a 0 0 bhi i i) rest := by
          congr 1
          calc flmStepJ i prev (mp, p, p, B) j
              = ((flmStepJ i prev (mp, p, p, B) j).1,
                  (flmStepJ i prev (mp, p, p, B) j).2) := rfl
            _ = _ := by rw [he]
        rw [hfold]
        apply ih hrest_sort hrest_mem
        · intro x hx
          have h1 := hrec x hx
          have h2 := runFn_le_dI a bhi i j hi hibhi
          have h3 := hji ▸ hupd
          omega
        · right
          exact Nat.le_refl _
      · -- no update: the candidate is unchanged
        have he : (flmStepJ i prev (mp, p, p, B) j).2 = (p, p, B) := by
          rw [hstep, if_neg hupd]
        have hfold : List.foldl (flmStepJ i prev) (flmStepJ i prev (mp, p, p, B) j) rest =
            List.foldl (flmStepJ i prev)
              ((flmStepJ i prev (mp, p, p, B) j).1, p, p, B) rest := by
          congr 1
          calc flmStepJ i prev (mp, p, p, B) j
              = ((flmStepJ i prev (mp, p, p, B) j).1,
                  (flmStepJ i prev (mp, p, p, B) j).2) := rfl
            _ = _ := by rw [he]
        rw [hfold]
        apply ih hrest_sort hrest_mem _ p B hrec
        rcases hdisj with hin | hB
        · rcases List.mem_cons.1 hin with heq | hin2
          · right
            rw [← heq] at hupd
            omega
          · left
            exact hin2
        · right
          exact hB

end Difflib

namespace Difflib

/-- The inner-loop value at a visited index equals `runFn`, with the
previous row taken from the scan state. -/
theorem scan_prev_v (a b : List String) (alo blo bhi m : Nat) (j : Nat)
    (hj : j ∈ flmJs a b blo bhi (alo + m)) :
    (if j = 0 then 0 else
      (((List.range' alo m).foldl (flmStepI a b blo bhi)
        (fun _ => 0, alo, blo, 0)).1) (j - 1)) + 1
      = runFn a b alo blo bhi (alo + m) j := by
  rw [runFn_eq_v a b alo blo bhi (alo + m) j (by omega) hj, scan_j2len]
  cases m with
  | zero =>
      simp only [if_pos rfl, Nat.add_zero]
      by_cases hj0 : j = 0 <;> simp [hj0]
  | succ m' =>
      have hne : ¬ alo + (m' + 1) = alo := by omega
      simp only [Nat.succ_ne_zero, if_false, if_neg hne]

/-- On identical sequences the scan keeps its best candidate on the
diagonal, with size dominating every processed diagonal run. -/
theorem scan_diag (a : List String) (n : Nat) (hn : n ≤ a.length) :
    ∀ m, m ≤ n →
      ∃ q C, ((List.range' 0 m).foldl (flmStepI a a 0 n)
          (fun _ => 0, 0, 0, 0)).2 = (q, q, C) ∧
        ∀ x, x < m → runFn a a 0 0 n x x ≤ C := by
  intro m
  induction m with
  | zero =>
      intro _
      exact ⟨0, 0, rfl, by omega⟩
  | succ m ih =>
      intro hm
      obtain ⟨q, C, hq, hrec⟩ := ih (by omega)
      have hc : List.range' 0 (m + 1) = List.range' 0 m ++ [m] := by
        have h0 := @List.range'_concat 1 0 m
        simpa using h0
      rw [hc, List.foldl_append, List.foldl_cons, List.foldl_nil]
      set st := (List.range' 0 m).foldl (flmStepI a a 0 n)
        (fun _ => 0, 0, 0, 0) with hstdef
      unfold flmStepI
      have h21 : st.2.1 = q := by rw [hq]
      have h221 : st.2.2.1 = q := by rw [hq]
      have h222 : st.2.2.2 = C := by rw [hq]
      rw [h21, h221, h222]
      have hv : ∀ j ∈ flmJs a a 0 n m, j ∈ flmJs a a 0 n m ∧
          (if j = 0 then 0 else st.1 (j - 1)) + 1 = runFn a a 0 0 n m j := by
        intro j hj
        refine ⟨hj, ?_⟩
        have := scan_prev_v a a 0 0 n m j (by simpa using hj)
        simpa using this
      have hdisj : m ∈ flmJs a a 0 n m ∨ runFn a a 0 0 n m m ≤ C := by
        by_cases hmem : m ∈ flmJs a a 0 n m
        · exact Or.inl hmem
        · right
          have hz : runFn a a 0 0 n m m = 0 := by
            cases m with
            | zero => rw [runFn_zero, if_neg hmem]
            | succ t => rw [runFn_succ, if_neg hmem]
          omega
      obtain ⟨q', C', hq', hrec', hdm⟩ :=
        foldJ_diag a n m st.1 (by omega) (by omega)
          (flmJs a a 0 n m) (flmJs_sorted a a 0 n m) hv
          (fun _ => 0) q C hrec hdisj
      refine ⟨q', C', hq', ?_⟩
      intro x hx
      by_cases hxm : x < m
      · exact hrec' x hxm
      · have : x = m := by omega
        subst this
        exact hdm

/-- On identical sequences a diagonal candidate extends left all the way to
the origin. -/
theorem extendLeft_diag (a : List String) :
    ∀ p B, extendLeft a a 0 0 p p B = (0, 0, p + B) := by
  intro p
  induction p with
  | zero =>
      intro B
      rw [extendLeft.eq_def, if_neg (by omega : ¬((0:Nat) < 0 ∧ (0:Nat) < 0 ∧
        a.getD (0 - 1) "" = a.getD (0 - 1) ""))]
      simp
  | succ s ih =>
      intro B
      rw [extendLeft.eq_def,
        if_pos ⟨by omega, by omega, rfl⟩]
      have e1 : s + 1 - 1 = s := by omega
      rw [e1, ih (B + 1)]
      have e2 : s + (B + 1) = s + 1 + B := by omega
      rw [e2]

/-- On identical sequences a diagonal candidate at the origin extends right
to the full length. -/
theorem extendRight_diag (a : List String) (n : Nat) :
    ∀ s, s ≤ n → extendRight a a n n 0 0 s = n := by
  intro s
  induction s using extendRight.induct a a n n 0 0 with
  | case1 s hguard ih =>
      intro _
      rw [extendRight.eq_def, if_pos hguard]
      exact ih (by omega)
  | case2 s hguard =>
      intro hs
      rw [extendRight.eq_def, if_neg hguard]
      have hlt : ¬ (0 + s < n) := fun h => hguard ⟨h, h, rfl⟩
      omega

/-- On identical sequences `find_longest_match` over the full range returns
the whole sequence as one match. -/
theorem flm_diag (a : List String) :
    find_longest_match a a 0 a.length 0 a.length = (0, 0, a.length) := by
  obtain ⟨q, C, hq, _⟩ :=
    scan_diag a a.length (Nat.le_refl a.length) a.length (Nat.le_refl a.length)
  have hbok := scan_bestOK a a 0 a.length 0 a.length
    (Nat.le_refl a.length) (Nat.le_refl a.length) a.length (by omega)
  have hqC : q + C ≤ a.length := by
    rw [hq] at hbok
    rw [bestOK_def] at hbok
    obtain ⟨hz, hnz⟩ := hbok
    by_cases hC : C = 0
    · have := hz hC
      omega
    · have := hnz hC
      omega
  unfold find_longest_match flmScan
  have hsub : a.length - 0 = a.length := by omega
  rw [hsub]
  dsimp only
  have h21 : ((List.range' 0 a.length).foldl (flmStepI a a 0 a.length)
      (fun _ => 0, 0, 0, 0)).2.1 = q := by rw [hq]
  have h221 : ((List.range' 0 a.length).foldl (flmStepI a a 0 a.length)
      (fun _ => 0, 0, 0, 0)).2.2.1 = q := by rw [hq]
  have h222 : ((List.range' 0 a.length).foldl (flmStepI a a 0 a.length)
      (fun _ => 0, 0, 0, 0)).2.2.2 = C := by rw [hq]
  rw [h21, h221, h222, extendLeft_diag a q C]
  have hR := extendRight_diag a a.length (q + C) hqC
  simpa using hR

end Difflib

namespace Difflib

/-- The queue loop with an empty queue returns the accumulator, for any
fuel. -/
theorem processQueue_nil (a b : List String) (fuel : Nat)
    (acc : List (Nat × Nat × Nat)) :
    processQueue a b fuel [] acc = acc := by
  cases fuel <;> rfl

/-- On identical sequences the matching blocks are the whole sequence
followed by the sentinel (or just the sentinel when empty). -/
theorem get_matching_blocks_self (a : List String) :
    get_matching_blocks a a =
      if a.length = 0 then [(a.length, a.length, 0)]
      else [(0, 0, a.length), (a.length, a.length, 0)] := by
  unfold get_matching_blocks
  have hflm := flm_diag a
  by_cases hn : a.length = 0
  · rw [hn] at hflm
    rw [if_pos hn]
    simp only [processQueue, hn, hflm]
    simp [collapseBlocks]
  · rw [if_neg hn]
    simp only [processQueue, hflm]
    rw [if_pos (by omega : a.length ≠ 0)]
    rw [if_neg (by omega : ¬((0:Nat) < 0 ∧ (0:Nat) < 0)),
      if_neg (by omega : ¬(0 + a.length < a.length ∧ 0 + a.length < a.length))]
    rw [processQueue_nil]
    rw [List.nil_append, List.mergeSort_singleton]
    simp [collapseBlocks, hn]

/-- On identical sequences the opcodes are a single `equal` opcode (or
nothing when empty). -/
theorem get_opcodes_self (a : List String) :
    get_opcodes a a =
      if a.length = 0 then []
      else [⟨.equal, 0, a.length, 0, a.length⟩] := by
  unfold get_opcodes
  rw [get_matching_blocks_self]
  by_cases hn : a.length = 0
  · rw [if_pos hn, if_pos hn]
    simp [opcodesLoop, hn]
  · rw [if_neg hn, if_neg hn]
    simp only [opcodesLoop]
    rw [if_neg (by omega : ¬((0:Nat) < 0 ∧ (0:Nat) < 0)), if_neg (by omega : ¬(0:Nat) < 0),
      if_neg (by omega : ¬(0:Nat) < 0), if_pos (by omega : a.length ≠ 0)]
    simp only [Nat.zero_add]
    rw [if_neg (by omega : ¬(a.length < a.length ∧ a.length < a.length)),
      if_neg (by omega : ¬a.length < a.length), if_neg (by omega : ¬a.length < a.length),
      if_neg (by omega : ¬(0:Nat) ≠ 0)]
    simp

/-- On identical sequences there are no groups: the single `equal` opcode
(or the placeholder for empty opcodes) is dropped. -/
theorem get_grouped_opcodes_self (a : List String) (n : Nat) :
    get_grouped_opcodes a a n = [] := by
  unfold get_grouped_opcodes
  rw [get_opcodes_self]
  by_cases hn : a.length = 0
  · rw [if_pos hn]
    simp only [if_pos rfl]
    simp only [fixupFirst, fixupLast, if_pos rfl, groupLoop, reduceIte]
    rw [if_neg (by
      simp only [not_and]
      intro _
      omega)]
    simp [finalGroup, groupLoop]
  · rw [if_neg hn]
    dsimp only
    rw [if_neg (by simp)]
    simp only [fixupFirst, fixupLast, if_pos rfl, groupLoop, reduceIte]
    rw [if_neg (by
      simp only [not_and]
      intro _
      omega)]
    simp [finalGroup, groupLoop]

/-- Identical sequences produce an empty unified diff. -/
theorem unified_diff_self (a : List String) (ff tf : String) (n : Nat)
    (lt : String) : unified_diff a a ff tf n lt = [] := by
  unfold unified_diff
  rw [get_grouped_opcodes_self]

end Difflib

namespace Difflib

/-! Soundness and chaining of the matching-block pipeline: every block found
by the queue loop is an in-bounds equal-content segment pair, the found
blocks are mutually aligned, and sorting plus collapsing yields a chained
list of good blocks. -/

/-- `bAligned` is symmetric. -/
theorem bAligned_symm {x y : Nat × Nat × Nat} (h : bAligned x y) : bAligned y x :=
  h.elim Or.inr Or.inl

/-- `rAligned` is symmetric. -/
theorem rAligned_symm {r s : Nat × Nat × Nat × Nat} (h : rAligned r s) :
    rAligned s r :=
  h.elim Or.inr Or.inl

/-- A sub-rectangle stays aligned to any block the rectangle is aligned to. -/
theorem rbAligned_sub {alo ahi blo bhi alo2 ahi2 blo2 bhi2 x1 x2 x3 : Nat}
    (h : rbAligned (alo, ahi, blo, bhi) (x1, x2, x3))
    (h1 : alo ≤ alo2) (h2 : ahi2 ≤ ahi) (h3 : blo ≤ blo2) (h4 : bhi2 ≤ bhi) :
    rbAligned (alo2, ahi2, blo2, bhi2) (x1, x2, x3) := by
  simp only [rbAligned] at h ⊢
  omega

/-- A sub-rectangle stays aligned to any rectangle the rectangle is aligned
to. -/
theorem rAligned_sub {alo ahi blo bhi alo2 ahi2 blo2 bhi2 s1 s2 s3 s4 : Nat}
    (h : rAligned (alo, ahi, blo, bhi) (s1, s2, s3, s4))
    (h1 : alo ≤ alo2) (h2 : ahi2 ≤ ahi) (h3 : blo ≤ blo2) (h4 : bhi2 ≤ bhi) :
    rAligned (alo2, ahi2, blo2, bhi2) (s1, s2, s3, s4) := by
  simp only [rAligned] at h ⊢
  omega

/-- A block inside a rectangle is aligned to any block the rectangle is
aligned to. -/
theorem bAligned_of_rb {alo ahi blo bhi x1 x2 x3 m1 m2 m3 : Nat}
    (h : rbAligned (alo, ahi, blo, bhi) (x1, x2, x3))
    (h1 : alo ≤ m1) (h2 : blo ≤ m2) (h3 : m1 + m3 ≤ ahi) (h4 : m2 + m3 ≤ bhi) :
    bAligned (x1, x2, x3) (m1, m2, m3) := by
  simp only [rbAligned] at h
  simp only [bAligned, chainB]
  omega

/-- A block inside a rectangle is aligned to any rectangle the rectangle is
aligned to. -/
theorem rbAligned_of_r {alo ahi blo bhi s1 s2 s3 s4 m1 m2 m3 : Nat}
    (h : rAligned (alo, ahi, blo, bhi) (s1, s2, s3, s4))
    (h1 : alo ≤ m1) (h2 : blo ≤ m2) (h3 : m1 + m3 ≤ ahi) (h4 : m2 + m3 ≤ bhi) :
    rbAligned (s1, s2, s3, s4) (m1, m2, m3) := by
  simp only [rAligned] at h
  simp only [rbAligned]
  omega

/-- The queue-loop invariant: starting from well-formed, mutually aligned
rectangles and already-found good, mutually aligned blocks, with every
rectangle aligned to every found block, the final block list consists of
good blocks and is mutually aligned. -/
theorem processQueue_inv (a b : List String) :
    ∀ (fuel : Nat) (queue : List (Nat × Nat × Nat × Nat))
      (acc : List (Nat × Nat × Nat)),
    (∀ r ∈ queue, wfRect a b r) →
    (∀ x ∈ acc, goodBlock a b x) →
    List.Pairwise bAligned acc →
    List.Pairwise rAligned queue →
    (∀ r ∈ queue, ∀ x ∈ acc, rbAligned r x) →
    (∀ x ∈ processQueue a b fuel queue acc, goodBlock a b x) ∧
      List.Pairwise bAligned (processQueue a b fuel queue acc) := by
  intro fuel
  induction fuel with
  | zero =>
      intro queue acc _ hg hp _ _
      exact ⟨hg, hp⟩
  | succ fuel ih =>
      intro queue acc hwf hg hp hr hrb
      match queue with
      | [] => exact ⟨hg, hp⟩
      | (alo, ahi, blo, bhi) :: rest =>
        have hheadmem : (alo, ahi, blo, bhi) ∈ (alo, ahi, blo, bhi) :: rest :=
          List.mem_cons_self _ _
        have hahi : ahi ≤ a.length := (hwf _ hheadmem).1
        have hbhi : bhi ≤ b.length := (hwf _ hheadmem).2
        have hbest := flm_bestOK a b alo ahi blo bhi hahi hbhi
        have hwf' : ∀ r ∈ rest, wfRect a b r :=
          fun r hr' => hwf r (List.mem_cons_of_mem _ hr')
        have hr' : List.Pairwise rAligned rest := hr.of_cons
        have hrhead : ∀ s ∈ rest, rAligned (alo, ahi, blo, bhi) s :=
          (List.pairwise_cons.mp hr).1
        have hrb' : ∀ r ∈ rest, ∀ x ∈ acc, rbAligned r x :=
          fun r hr' => hrb r (List.mem_cons_of_mem _ hr')
        simp only [processQueue]
        by_cases hk : (find_longest_match a b alo ahi blo bhi).2.2 = 0
        · rw [if_neg (by simp [hk])]
          exact ih rest acc hwf' hg hp hr' hrb'
        · rw [if_pos hk]
          have hgood := hbest.2 hk
          obtain ⟨hmatch, hi₁, hj₁, hi₂, hj₂⟩ := hgood
          set m := find_longest_match a b alo ahi blo bhi with hmdef
          have hblk : goodBlock a b (m.1, m.2.1, m.2.2) := ⟨hmatch, hk⟩
          have hg' : ∀ x ∈ acc ++ [(m.1, m.2.1, m.2.2)], goodBlock a b x := by
            intro x hx
            rcases List.mem_append.mp hx with hx | hx
            · exact hg x hx
            · rw [List.mem_singleton.mp hx]
              exact hblk
          have hacc_blk : ∀ x ∈ acc, bAligned x (m.1, m.2.1, m.2.2) := by
            intro x hx
            obtain ⟨x1, x2, x3⟩ := x
            exact bAligned_of_rb (hrb _ hheadmem _ hx) hi₁ hj₁ hi₂ hj₂
          have hp' : List.Pairwise bAligned (acc ++ [(m.1, m.2.1, m.2.2)]) := by
            rw [List.pairwise_append]
            refine ⟨hp, List.pairwise_singleton _ _, ?_⟩
            intro x hx y hy
            rw [List.mem_singleton.mp hy]
            exact hacc_blk x hx
          have hrest_blk : ∀ s ∈ rest, rbAligned s (m.1, m.2.1, m.2.2) := by
            intro s hs
            obtain ⟨s1, s2, s3, s4⟩ := s
            exact rbAligned_of_r (hrhead _ hs) hi₁ hj₁ hi₂ hj₂
          have hrb_rest : ∀ r ∈ rest, ∀ x ∈ acc ++ [(m.1, m.2.1, m.2.2)],
              rbAligned r x := by
            intro r hrm x hx
            rcases List.mem_append.mp hx with hx | hx
            · exact hrb' r hrm x hx
            · rw [List.mem_singleton.mp hx]
              exact hrest_blk r hrm
          have hwf1 : wfRect a b (alo, m.1, blo, m.2.1) := by
            simp only [wfRect]
            omega
          have hwf2 : wfRect a b (m.1 + m.2.2, ahi, m.2.1 + m.2.2, bhi) := by
            simp only [wfRect]
            omega
          have hr1_rest : ∀ s ∈ rest, rAligned (alo, m.1, blo, m.2.1) s := by
            intro s hs
            obtain ⟨s1, s2, s3, s4⟩ := s
            exact rAligned_sub (hrhead _ hs) (Nat.le_refl _) (by omega)
              (Nat.le_refl _) (by omega)
          have hr2_rest : ∀ s ∈ rest,
              rAligned (m.1 + m.2.2, ahi, m.2.1 + m.2.2, bhi) s := by
            intro s hs
            obtain ⟨s1, s2, s3, s4⟩ := s
            exact rAligned_sub (hrhead _ hs) (by omega) (Nat.le_refl _)
              (by omega) (Nat.le_refl _)
          have hr12 : rAligned (m.1 + m.2.2, ahi, m.2.1 + m.2.2, bhi)
              (alo, m.1, blo, m.2.1) := by
            simp only [rAligned]
            omega
          have hr1_acc : ∀ x ∈ acc ++ [(m.1, m.2.1, m.2.2)],
              rbAligned (alo, m.1, blo, m.2.1) x := by
            intro x hx
            rcases List.mem_append.mp hx with hx | hx
            · obtain ⟨x1, x2, x3⟩ := x
              exact rbAligned_sub (hrb _ hheadmem _ hx) (Nat.le_refl _)
                (by omega) (Nat.le_refl _) (by omega)
            · rw [List.mem_singleton.mp hx]
              simp only [rbAligned]
              omega
          have hr2_acc : ∀ x ∈ acc ++ [(m.1, m.2.1, m.2.2)],
              rbAligned (m.1 + m.2.2, ahi, m.2.1 + m.2.2, bhi) x := by
            intro x hx
            rcases List.mem_append.mp hx with hx | hx
            · obtain ⟨x1, x2, x3⟩ := x
              exact rbAligned_sub (hrb _ hheadmem _ hx) (by omega)
                (Nat.le_refl _) (by omega) (Nat.le_refl _)
            · rw [List.mem_singleton.mp hx]
              simp only [rbAligned]
              omega
          by_cases h1 : alo < m.1 ∧ blo < m.2.1 <;>
            by_cases h2 : m.1 + m.2.2 < ahi ∧ m.2.1 + m.2.2 < bhi
          · rw [if_pos h1, if_pos h2]
            refine ih _ _ ?_ hg' hp' ?_ ?_
            · intro r hrm
              rcases hrm with _ | ⟨_, hrm⟩
              · exact hwf2
              rcases hrm with _ | ⟨_, hrm⟩
              · exact hwf1
              · exact hwf' _ hrm
            · rw [List.pairwise_cons]
              refine ⟨?_, ?_⟩
              · intro s hs
                rcases hs with _ | ⟨_, hs⟩
                · exact hr12
                · exact hr2_rest _ hs
              rw [List.pairwise_cons]
              exact ⟨fun s hs => hr1_rest _ hs, hr'⟩
            · intro r hrm x hx
              rcases hrm with _ | ⟨_, hrm⟩
              · exact hr2_acc x hx
              rcases hrm with _ | ⟨_, hrm⟩
              · exact hr1_acc x hx
              · exact hrb_rest _ hrm x hx
          · rw [if_pos h1, if_neg h2]
            refine ih _ _ ?_ hg' hp' ?_ ?_
            · intro r hrm
              rcases hrm with _ | ⟨_, hrm⟩
              · exact hwf1
              · exact hwf' _ hrm
            · rw [List.pairwise_cons]
              exact ⟨fun s hs => hr1_rest _ hs, hr'⟩
            · intro r hrm x hx
              rcases hrm with _ | ⟨_, hrm⟩
              · exact hr1_acc x hx
              · exact hrb_rest _ hrm x hx
          · rw [if_neg h1, if_pos h2]
            refine ih _ _ ?_ hg' hp' ?_ ?_
            · intro r hrm
              rcases hrm with _ | ⟨_, hrm⟩
              · exact hwf2
              · exact hwf' _ hrm
            · rw [List.pairwise_cons]
              exact ⟨fun s hs => hr2_rest _ hs, hr'⟩
            · intro r hrm x hx
              rcases hrm with _ | ⟨_, hrm⟩
              · exact hr2_acc x hx
              · exact hrb_rest _ hrm x hx
          · rw [if_neg h1, if_neg h2]
            exact ih _ _ hwf' hg' hp' hr' hrb_rest

end Difflib

namespace Difflib

/-- `blockLe` (Python tuple comparison on triples) is transitive. -/
theorem blockLe_trans : ∀ x y z : Nat × Nat × Nat,
    blockLe x y → blockLe y z → blockLe x z := by
  intro ⟨x1, x2, x3⟩ ⟨y1, y2, y3⟩ ⟨z1, z2, z3⟩ hxy hyz
  simp only [blockLe, Bool.or_eq_true, Bool.and_eq_true, decide_eq_true_eq]
    at hxy hyz ⊢
  omega

/-- `blockLe` is total. -/
theorem blockLe_total : ∀ x y : Nat × Nat × Nat,
    blockLe x y || blockLe y x := by
  intro ⟨x1, x2, x3⟩ ⟨y1, y2, y3⟩
  simp only [blockLe, Bool.or_eq_true, Bool.and_eq_true, decide_eq_true_eq]
  omega

/-- Two mutually aligned blocks in sort order with a nonzero first size are
chained in that order. -/
theorem chainB_of_le_aligned {x y : Nat × Nat × Nat}
    (hle : blockLe x y) (hal : bAligned x y) (hx : x.2.2 ≠ 0) :
    chainB x y := by
  obtain ⟨x1, x2, x3⟩ := x
  obtain ⟨y1, y2, y3⟩ := y
  have hx3 : x3 ≠ 0 := hx
  simp only [blockLe, Bool.or_eq_true, Bool.and_eq_true, decide_eq_true_eq]
    at hle
  simp only [bAligned, chainB] at hal ⊢
  omega

/-- The collapse-loop invariant: starting from a pending triple that is a
match when nonzero and chains before every remaining block, with the
remaining blocks good and chained, the output blocks are good, chained, and
start no earlier than the pending triple. -/
theorem collapseBlocks_inv (a b : List String) :
    ∀ (l : List (Nat × Nat × Nat)) (t : Nat × Nat × Nat),
    (t.2.2 ≠ 0 → matchAt a b t.1 t.2.1 t.2.2) →
    (∀ y ∈ l, chainB t y) →
    (∀ y ∈ l, goodBlock a b y) →
    List.Pairwise chainB l →
    (∀ x ∈ collapseBlocks t l, goodBlock a b x) ∧
      List.Pairwise chainB (collapseBlocks t l) ∧
      (∀ x ∈ collapseBlocks t l, t.1 ≤ x.1 ∧ t.2.1 ≤ x.2.1) := by
  intro l
  induction l with
  | nil =>
      intro t hm _ _ _
      obtain ⟨t1, t2, t3⟩ := t
      simp only [collapseBlocks]
      by_cases ht : t3 ≠ 0
      · rw [if_pos ht]
        refine ⟨?_, List.pairwise_singleton _ _, ?_⟩
        · intro x hx
          rw [List.mem_singleton.mp hx]
          exact ⟨hm ht, ht⟩
        · intro x hx
          rw [List.mem_singleton.mp hx]
          exact ⟨Nat.le_refl _, Nat.le_refl _⟩
      · rw [if_neg ht]
        exact ⟨fun x hx => absurd hx (List.not_mem_nil x),
          List.Pairwise.nil, fun x hx => absurd hx (List.not_mem_nil x)⟩
  | cons hd tl ih =>
      intro t hm hchain hgood hpw
      obtain ⟨i2, j2, k2⟩ := hd
      obtain ⟨t1, t2, t3⟩ := t
      have hheadgood : goodBlock a b (i2, j2, k2) :=
        hgood _ (List.mem_cons_self _ _)
      have hheadmatch : matchAt a b i2 j2 k2 := hheadgood.1
      have hk2 : k2 ≠ 0 := hheadgood.2
      have hheadchain : t1 + t3 ≤ i2 ∧ t2 + t3 ≤ j2 :=
        hchain _ (List.mem_cons_self _ _)
      have htlchain : ∀ y ∈ tl, chainB (i2, j2, k2) y :=
        (List.pairwise_cons.mp hpw).1
      have htlgood : ∀ y ∈ tl, goodBlock a b y :=
        fun y hy => hgood y (List.mem_cons_of_mem _ hy)
      have htlpw : List.Pairwise chainB tl := hpw.of_cons
      simp only [collapseBlocks]
      by_cases hadj : t1 + t3 = i2 ∧ t2 + t3 = j2
      · rw [if_pos hadj]
        have hm' : (t3 + k2 ≠ 0) → matchAt a b t1 t2 (t3 + k2) := by
          intro _
          by_cases ht3 : t3 = 0
          · subst ht3
            have hi : t1 = i2 := by omega
            have hj : t2 = j2 := by omega
            rw [hi, hj, Nat.zero_add]
            exact hheadmatch
          · have h2 : matchAt a b (t1 + t3) (t2 + t3) k2 := by
              rw [hadj.1, hadj.2]
              exact hheadmatch
            exact matchAt_concat (hm ht3) h2
        have hchain' : ∀ y ∈ tl, chainB (t1, t2, t3 + k2) y := by
          intro y hy
          obtain ⟨y1, y2, y3⟩ := y
          have h := htlchain _ hy
          simp only [chainB] at h ⊢
          omega
        have := ih (t1, t2, t3 + k2) hm' hchain' htlgood htlpw
        exact ⟨this.1, this.2.1, fun x hx =>
          ⟨(this.2.2 x hx).1, (this.2.2 x hx).2⟩⟩
      · rw [if_neg hadj]
        have hrec := ih (i2, j2, k2) (fun _ => hheadmatch) htlchain htlgood htlpw
        have hstart : ∀ x ∈ collapseBlocks (i2, j2, k2) tl,
            i2 ≤ x.1 ∧ j2 ≤ x.2.1 := by
          intro x hx
          have h := hrec.2.2 x hx
          exact ⟨h.1, h.2⟩
        constructor
        · intro x hx
          rcases List.mem_append.mp hx with hx | hx
          · have ht : t3 ≠ 0 := by
              by_contra ht0
              rw [if_neg (by simp [ht0])] at hx
              exact List.not_mem_nil x hx
            rw [if_pos ht] at hx
            rw [List.mem_singleton.mp hx]
            exact ⟨hm ht, ht⟩
          · exact hrec.1 x hx
        constructor
        · rw [List.pairwise_append]
          refine ⟨?_, hrec.2.1, ?_⟩
          · split
            · exact List.pairwise_singleton _ _
            · exact List.Pairwise.nil
          · intro x hx z hz
            have hxt : x = (t1, t2, t3) := by
              by_cases ht : t3 ≠ 0
              · rw [if_pos ht] at hx
                exact List.mem_singleton.mp hx
              · rw [if_neg ht] at hx
                exact absurd hx (List.not_mem_nil x)
            subst hxt
            have hz' := hstart z hz
            obtain ⟨z1, z2, z3⟩ := z
            simp only [chainB]
            have h1 : i2 ≤ z1 := hz'.1
            have h2 : j2 ≤ z2 := hz'.2
            omega
        · intro x hx
          rcases List.mem_append.mp hx with hx | hx
          · have ht : t3 ≠ 0 := by
              by_contra ht0
              rw [if_neg (by simp [ht0])] at hx
              exact List.not_mem_nil x hx
            rw [if_pos ht] at hx
            rw [List.mem_singleton.mp hx]
            exact ⟨Nat.le_refl _, Nat.le_refl _⟩
          · have h := hstart x hx
            have h1 : i2 ≤ x.1 := h.1
            have h2 : j2 ≤ x.2.1 := h.2
            omega

end Difflib

namespace Difflib

/-- Soundness of `get_matching_blocks`: the result is a list of good
(in-bounds, equal-content, nonzero) blocks followed by the sentinel, and the
whole list is chained in order. -/
theorem get_matching_blocks_sound (a b : List String) :
    ∃ cp, get_matching_blocks a b = cp ++ [(a.length, b.length, 0)] ∧
      (∀ x ∈ cp, goodBlock a b x) ∧
      List.Pairwise chainB (cp ++ [(a.length, b.length, 0)]) := by
  have hq := processQueue_inv a b (a.length + b.length + 1)
    [(0, a.length, 0, b.length)] []
    (by
      intro r hr
      rw [List.mem_singleton.mp hr]
      simp only [wfRect]
      omega)
    (fun x hx => absurd hx (List.not_mem_nil x))
    List.Pairwise.nil
    (List.pairwise_singleton _ _)
    (fun r _ x hx => absurd hx (List.not_mem_nil x))
  set blocks := processQueue a b (a.length + b.length + 1)
    [(0, a.length, 0, b.length)] [] with hblocks
  have hsortgood : ∀ x ∈ blocks.mergeSort blockLe, goodBlock a b x := by
    intro x hx
    exact hq.1 x (List.mem_mergeSort.mp hx)
  have hsortal : List.Pairwise bAligned (blocks.mergeSort blockLe) :=
    (List.Perm.pairwise_iff (fun h => bAligned_symm h)
      (List.mergeSort_perm blocks blockLe)).mpr hq.2
  have hsortle : List.Pairwise (fun x y => blockLe x y = true)
      (blocks.mergeSort blockLe) :=
    List.sorted_mergeSort blockLe_trans blockLe_total blocks
  have hsortchain : List.Pairwise chainB (blocks.mergeSort blockLe) := by
    refine List.Pairwise.imp_of_mem ?_ (hsortle.and hsortal)
    intro x y hx _ h
    exact chainB_of_le_aligned h.1 h.2 (hsortgood x hx).2
  have hcol := collapseBlocks_inv a b (blocks.mergeSort blockLe) (0, 0, 0)
    (fun h => absurd rfl h)
    (by
      intro y hy
      obtain ⟨y1, y2, y3⟩ := y
      simp only [chainB]
      omega)
    hsortgood hsortchain
  refine ⟨collapseBlocks (0, 0, 0) (blocks.mergeSort blockLe), rfl, hcol.1, ?_⟩
  rw [List.pairwise_append]
  refine ⟨hcol.2.1, List.pairwise_singleton _ _, ?_⟩
  intro x hx y hy
  rw [List.mem_singleton.mp hy]
  have hg := hcol.1 x hx
  obtain ⟨x1, x2, x3⟩ := x
  obtain ⟨hma, _⟩ := hg
  obtain ⟨ha, hb, _⟩ := hma
  simp only [chainB]
  exact ⟨ha, hb⟩

end Difflib

namespace Difflib

/-- Contiguous opcode runs concatenate. -/
theorem tiles_append : ∀ {l1 : List Opcode} {l2 : List Opcode}
    {x y m1 m2 u v : Nat},
    tiles x y l1 m1 m2 → tiles m1 m2 l2 u v → tiles x y (l1 ++ l2) u v := by
  intro l1
  induction l1 with
  | nil =>
      intro l2 x y m1 m2 u v h1 h2
      obtain ⟨hx, hy⟩ := h1
      rw [List.nil_append, hx, hy]
      exact h2
  | cons c rest ih =>
      intro l2 x y m1 m2 u v h1 h2
      obtain ⟨hi, hj, hx, hy, hrest⟩ := h1
      exact ⟨hi, hj, hx, hy, ih hrest h2⟩

/-- The tagged-plus-equal segment emitted for one block tiles the region
from the cursor to the end of the block, and each emitted opcode is sound,
provided the cursor is at or before the block and the block is an in-bounds
match when nonzero. -/
theorem opcodesStep_sound (a b : List String) (i j ai bj sz : Nat)
    (hgz : sz ≠ 0 → matchAt a b ai bj sz)
    (hba : ai + sz ≤ a.length) (hbb : bj + sz ≤ b.length)
    (hci : i ≤ ai) (hcj : j ≤ bj) :
    tiles i j
      ((if i < ai ∧ j < bj then [⟨.replace, i, ai, j, bj⟩]
        else if i < ai then [⟨.delete, i, ai, j, bj⟩]
        else if j < bj then [⟨.insert, i, ai, j, bj⟩]
        else []) ++
       (if sz ≠ 0 then [⟨.equal, ai, ai + sz, bj, bj + sz⟩] else []))
      (ai + sz) (bj + sz) ∧
    (∀ c ∈ (if i < ai ∧ j < bj then [⟨.replace, i, ai, j, bj⟩]
        else if i < ai then [⟨.delete, i, ai, j, bj⟩]
        else if j < bj then [⟨.insert, i, ai, j, bj⟩]
        else []) ++
       (if sz ≠ 0 then [(⟨.equal, ai, ai + sz, bj, bj + sz⟩ : Opcode)] else []),
      opcodeSound a b c) := by
  constructor
  · refine @tiles_append _ _ _ _ ai bj _ _ ?_ ?_
    · by_cases h1 : i < ai <;> by_cases h2 : j < bj
      · rw [if_pos ⟨h1, h2⟩]
        exact ⟨rfl, rfl, hci, hcj, rfl, rfl⟩
      · rw [if_neg (by omega), if_pos h1]
        exact ⟨rfl, rfl, hci, hcj, rfl, rfl⟩
      · rw [if_neg (by omega), if_neg (by omega), if_pos h2]
        exact ⟨rfl, rfl, hci, hcj, rfl, rfl⟩
      · rw [if_neg (by omega), if_neg (by omega), if_neg (by omega)]
        exact ⟨by omega, by omega⟩
    · by_cases hsz : sz ≠ 0
      · rw [if_pos hsz]
        exact ⟨rfl, rfl, Nat.le_add_right ai sz, Nat.le_add_right bj sz,
          rfl, rfl⟩
      · rw [if_neg hsz]
        have h0 : sz = 0 := not_ne_iff.mp hsz
        exact ⟨by omega, by omega⟩
  · intro c hc
    rcases List.mem_append.mp hc with hc | hc
    · have hce : c = ⟨.replace, i, ai, j, bj⟩ ∨
          (c = ⟨.delete, i, ai, j, bj⟩ ∧ j = bj) ∨
          (c = ⟨.insert, i, ai, j, bj⟩ ∧ i = ai) := by
        by_cases h1 : i < ai <;> by_cases h2 : j < bj
        · rw [if_pos ⟨h1, h2⟩] at hc
          exact Or.inl (List.mem_singleton.mp hc)
        · rw [if_neg (by omega), if_pos h1] at hc
          exact Or.inr (Or.inl ⟨List.mem_singleton.mp hc, by omega⟩)
        · rw [if_neg (by omega), if_neg (by omega), if_pos h2] at hc
          exact Or.inr (Or.inr ⟨List.mem_singleton.mp hc, by omega⟩)
        · rw [if_neg (by omega), if_neg (by omega), if_neg (by omega)] at hc
          exact absurd hc (List.not_mem_nil c)
      rcases hce with hce | ⟨hce, heq⟩ | ⟨hce, heq⟩ <;> subst hce
      · exact ⟨show ai ≤ a.length by omega, show bj ≤ b.length by omega,
          fun h => Tag.noConfusion h, fun h => Tag.noConfusion h,
          fun h => Tag.noConfusion h⟩
      · exact ⟨show ai ≤ a.length by omega, show bj ≤ b.length by omega,
          fun h => Tag.noConfusion h, fun _ => heq,
          fun h => Tag.noConfusion h⟩
      · exact ⟨show ai ≤ a.length by omega, show bj ≤ b.length by omega,
          fun h => Tag.noConfusion h, fun h => Tag.noConfusion h,
          fun _ => heq⟩
    · by_cases hsz : sz ≠ 0
      · rw [if_pos hsz] at hc
        rw [List.mem_singleton.mp hc]
        refine ⟨show ai + sz ≤ a.length by omega,
          show bj + sz ≤ b.length by omega, fun _ => ?_,
          fun h => Tag.noConfusion h, fun h => Tag.noConfusion h⟩
        refine ⟨show ai + sz - ai = bj + sz - bj by omega, ?_⟩
        show matchAt a b ai bj (ai + sz - ai)
        have he : ai + sz - ai = sz := by omega
        rw [he]
        exact hgz hsz
      · rw [if_neg hsz] at hc
        exact absurd hc (List.not_mem_nil c)

/-- The opcode-walk invariant: on a chained list of in-bounds blocks whose
nonzero blocks are matches, starting from a cursor at or before the first
block, the produced opcodes tile the region from the cursor to the end of
the last block and each opcode is sound. -/
theorem opcodesLoop_sound (a b : List String) :
    ∀ (bs : List (Nat × Nat × Nat)) (x0 : Nat × Nat × Nat) (i j : Nat),
    (∀ x ∈ x0 :: bs, x.2.2 ≠ 0 → matchAt a b x.1 x.2.1 x.2.2) →
    (∀ x ∈ x0 :: bs, x.1 + x.2.2 ≤ a.length ∧ x.2.1 + x.2.2 ≤ b.length) →
    List.Pairwise chainB (x0 :: bs) →
    i ≤ x0.1 → j ≤ x0.2.1 →
    tiles i j (opcodesLoop i j (x0 :: bs))
      (((x0 :: bs).getLastD (0, 0, 0)).1 +
        ((x0 :: bs).getLastD (0, 0, 0)).2.2)
      (((x0 :: bs).getLastD (0, 0, 0)).2.1 +
        ((x0 :: bs).getLastD (0, 0, 0)).2.2) ∧
    (∀ c ∈ opcodesLoop i j (x0 :: bs), opcodeSound a b c) := by
  intro bs
  induction bs with
  | nil =>
      intro x0 i j hgz hbd _ hci hcj
      obtain ⟨ai, bj, sz⟩ := x0
      have hb := hbd _ (List.mem_cons_self _ _)
      have hstep := opcodesStep_sound a b i j ai bj sz
        (hgz _ (List.mem_cons_self _ _)) hb.1 hb.2 hci hcj
      simp only [opcodesLoop, List.getLastD_cons, List.getLastD_nil,
        List.append_nil]
      exact hstep
  | cons y rest ih =>
      intro x0 i j hgz hbd hpw hci hcj
      obtain ⟨ai, bj, sz⟩ := x0
      have hb := hbd _ (List.mem_cons_self _ _)
      have hchain : chainB (ai, bj, sz) y :=
        (List.pairwise_cons.mp hpw).1 y (List.mem_cons_self _ _)
      have hstep := opcodesStep_sound a b i j ai bj sz
        (hgz _ (List.mem_cons_self _ _)) hb.1 hb.2 hci hcj
      have hrec := ih y (ai + sz) (bj + sz)
        (fun x hx => hgz x (List.mem_cons_of_mem _ hx))
        (fun x hx => hbd x (List.mem_cons_of_mem _ hx))
        hpw.of_cons hchain.1 hchain.2
      have hunf : opcodesLoop i j ((ai, bj, sz) :: y :: rest) =
          ((if i < ai ∧ j < bj then [⟨.replace, i, ai, j, bj⟩]
            else if i < ai then [⟨.delete, i, ai, j, bj⟩]
            else if j < bj then [⟨.insert, i, ai, j, bj⟩]
            else []) ++
           (if sz ≠ 0 then [(⟨.equal, ai, ai + sz, bj, bj + sz⟩ : Opcode)]
            else [])) ++
          opcodesLoop (ai + sz) (bj + sz) (y :: rest) := rfl
      rw [hunf, List.getLastD_cons, List.getLastD_cons]
      rw [List.getLastD_cons] at hrec
      constructor
      · exact @tiles_append _ _ _ _ (ai + sz) (bj + sz) _ _ hstep.1 hrec.1
      · intro c hc
        rcases List.mem_append.mp hc with hc | hc
        · exact hstep.2 c hc
        · exact hrec.2 c hc

end Difflib

namespace Difflib

/-- Soundness of `get_opcodes`: the opcodes tile the full rectangle from
`(0, 0)` to the sequence lengths, and each opcode is sound. -/
theorem get_opcodes_sound (a b : List String) :
    tiles 0 0 (get_opcodes a b) a.length b.length ∧
    ∀ c ∈ get_opcodes a b, opcodeSound a b c := by
  obtain ⟨cp, heq, hgood, hchain⟩ := get_matching_blocks_sound a b
  unfold get_opcodes
  rw [heq]
  have hgz : ∀ x ∈ cp ++ [(a.length, b.length, 0)],
      x.2.2 ≠ 0 → matchAt a b x.1 x.2.1 x.2.2 := by
    intro x hx
    rcases List.mem_append.mp hx with hx | hx
    · exact fun _ => (hgood x hx).1
    · rw [List.mem_singleton.mp hx]
      intro h
      exact absurd rfl h
  have hbd : ∀ x ∈ cp ++ [(a.length, b.length, 0)],
      x.1 + x.2.2 ≤ a.length ∧ x.2.1 + x.2.2 ≤ b.length := by
    intro x hx
    rcases List.mem_append.mp hx with hx | hx
    · exact ⟨(hgood x hx).1.1, (hgood x hx).1.2.1⟩
    · rw [List.mem_singleton.mp hx]
      exact ⟨show a.length + 0 ≤ a.length by omega,
        show b.length + 0 ≤ b.length by omega⟩
  have hlast : (cp ++ [(a.length, b.length, 0)]).getLastD (0, 0, 0) =
      (a.length, b.length, 0) := List.getLastD_concat _ _ _
  cases cp with
  | nil =>
      have hs := opcodesLoop_sound a b [] (a.length, b.length, 0) 0 0
        (by simp) (by simp) (by simp) (Nat.zero_le _) (Nat.zero_le _)
      rw [List.nil_append]
      simp only [List.getLastD_cons, List.getLastD_nil] at hs
      refine ⟨?_, hs.2⟩
      have h := hs.1
      rw [Nat.add_zero, Nat.add_zero] at h
      exact h
  | cons x0 cp' =>
      rw [List.cons_append] at hgz hbd hchain hlast ⊢
      have hs := opcodesLoop_sound a b (cp' ++ [(a.length, b.length, 0)]) x0 0 0
        hgz hbd hchain (Nat.zero_le _) (Nat.zero_le _)
      rw [show (x0 :: (cp' ++ [(a.length, b.length, 0)])).getLastD (0, 0, 0)
          = (cp' ++ [(a.length, b.length, 0)]).getLastD x0
        from List.getLastD_cons _ _ _] at hs
      have hlast' : (cp' ++ [(a.length, b.length, 0)]).getLastD x0 =
          (a.length, b.length, 0) := List.getLastD_concat _ _ _
      rw [hlast'] at hs
      refine ⟨?_, hs.2⟩
      have h := hs.1
      rw [show ((a.length, b.length, 0) : Nat × Nat × Nat).1 = a.length from rfl,
        show ((a.length, b.length, 0) : Nat × Nat × Nat).2.1 = b.length from rfl,
        show ((a.length, b.length, 0) : Nat × Nat × Nat).2.2 = 0 from rfl,
        Nat.add_zero, Nat.add_zero] at h
      exact h

end Difflib

namespace Difflib

/-- If the grouping loop returns no groups, the accumulated group and the
remaining opcodes together are empty or a single `equal` opcode. -/
theorem groupLoop_eq_nil (n : Nat) :
    ∀ (cs : List Opcode) (g : List Opcode),
    groupLoop n g cs = [] →
    g ++ cs = [] ∨ ∃ c, g ++ cs = [c] ∧ c.tag = Tag.equal := by
  intro cs
  induction cs with
  | nil =>
      intro g h
      rw [List.append_nil]
      simp only [groupLoop] at h
      cases g with
      | nil => exact Or.inl rfl
      | cons c g' =>
          cases g' with
          | nil =>
              simp only [finalGroup] at h
              split at h
              · next heq => exact Or.inr ⟨c, rfl, heq⟩
              · exact nomatch h
          | cons c2 g'' =>
              simp only [finalGroup] at h
              exact nomatch h
  | cons c cs' ih =>
      intro g h
      simp only [groupLoop] at h
      split at h
      · exact nomatch h
      · have hr := ih (g ++ [c]) h
        rw [List.append_assoc, List.singleton_append] at hr
        exact hr

/-- `fixupFirst` on a singleton produces a singleton with the same tag. -/
theorem fixupFirst_singleton (n : Nat) (c : Opcode) :
    ∃ d, fixupFirst n [c] = [d] ∧ d.tag = c.tag := by
  by_cases h : c.tag = Tag.equal
  · refine ⟨⟨.equal, max c.i1 (c.i2 - n), c.i2, max c.j1 (c.j2 - n), c.j2⟩,
      ?_, ?_⟩
    · simp only [fixupFirst, if_pos h]
    · rw [h]
  · exact ⟨c, by simp only [fixupFirst, if_neg h], rfl⟩

/-- `fixupLast` on a singleton produces a singleton with the same tag. -/
theorem fixupLast_singleton (n : Nat) (c : Opcode) :
    ∃ d, fixupLast n [c] = [d] ∧ d.tag = c.tag := by
  by_cases h : c.tag = Tag.equal
  · refine ⟨⟨.equal, c.i1, min c.i2 (c.i1 + n), c.j1, min c.j2 (c.j1 + n)⟩,
      ?_, ?_⟩
    · simp only [fixupLast, if_pos h]
    · rw [h]
  · exact ⟨c, by simp only [fixupLast, if_neg h], rfl⟩

/-- `fixupFirst` preserves length. -/
theorem fixupFirst_length (n : Nat) : ∀ l : List Opcode,
    (fixupFirst n l).length = l.length := by
  intro l
  cases l with
  | nil => rfl
  | cons c rest =>
      simp only [fixupFirst]
      split <;> rfl

/-- `fixupLast` preserves length. -/
theorem fixupLast_length (n : Nat) : ∀ l : List Opcode,
    (fixupLast n l).length = l.length := by
  intro l
  induction l with
  | nil => rfl
  | cons c rest ih =>
      cases rest with
      | nil =>
          simp only [fixupLast]
          split <;> rfl
      | cons c2 r2 =>
          simp only [fixupLast, List.length_cons]
          rw [ih]
          simp

/-- No groups means the sequences are identical: the opcodes of `a` versus
`b` must be empty (so both sequences are empty) or a single full-range
`equal` opcode. -/
theorem eq_of_grouped_nil (a b : List String) (n : Nat)
    (h : get_grouped_opcodes a b n = []) : a = b := by
  have hsound := get_opcodes_sound a b
  by_cases hc : get_opcodes a b = []
  · rw [hc] at hsound
    obtain ⟨hla, hlb⟩ := hsound.1
    have ha : a = [] := List.length_eq_zero.mp hla.symm
    have hb : b = [] := List.length_eq_zero.mp hlb.symm
    rw [ha, hb]
  · unfold get_grouped_opcodes at h
    dsimp only at h
    rw [if_neg hc] at h
    have hgl := groupLoop_eq_nil n _ [] h
    rw [List.nil_append] at hgl
    have hlen : (fixupLast n (fixupFirst n (get_opcodes a b))).length =
        (get_opcodes a b).length := by
      rw [fixupLast_length, fixupFirst_length]
    rcases hgl with hgl | ⟨c2, hgl, htag⟩
    · rw [hgl] at hlen
      exact absurd (List.length_eq_zero.mp hlen.symm) hc
    · rw [hgl] at hlen
      obtain ⟨c₀, hc₀⟩ := List.length_eq_one.mp hlen.symm
      obtain ⟨d, hd, hdtag⟩ := fixupFirst_singleton n c₀
      obtain ⟨e, he, hetag⟩ := fixupLast_singleton n d
      have he2 : fixupLast n (fixupFirst n (get_opcodes a b)) = [e] := by
        rw [hc₀, hd, he]
      have hce : c2 = e := by
        rw [he2] at hgl
        exact (List.cons.injEq _ _ _ _).mp hgl.symm |>.1
      have htag₀ : c₀.tag = Tag.equal := by
        rw [← hdtag, ← hetag, ← hce]
        exact htag
      have hs := hsound
      rw [hc₀] at hs
      obtain ⟨hi1, hj1, _, _, hrest⟩ := hs.1
      obtain ⟨hi2, hj2⟩ := hrest
      have hsnd := hs.2 c₀ (List.mem_cons_self _ _)
      obtain ⟨_, _, heqc, _, _⟩ := hsnd
      obtain ⟨hlen2, hm⟩ := heqc htag₀
      rw [hi1, hj1, hi2, hj2] at hlen2
      rw [hi1, hj1, hi2] at hm
      have hlab : a.length = b.length := by omega
      apply eq_of_matchAt_full hlab
      have e1 : a.length - 0 = a.length := by omega
      rw [e1] at hm
      exact hm

/-- The rendered unified diff is empty exactly when there are no groups. -/
theorem unified_diff_eq_nil_iff (a b : List String) (ff tf : String) (n : Nat)
    (lt : String) :
    unified_diff a b ff tf n lt = [] ↔ get_grouped_opcodes a b n = [] := by
  unfold unified_diff
  cases h : get_grouped_opcodes a b n with
  | nil => simp
  | cons g gs => simp

end Difflib

namespace Wrapper

/-- `make_diff` returns the empty list exactly when the two line sequences
are identical. -/
theorem make_diff_empty_iff (file : String) (a b : List String) :
    make_diff file a b = [] ↔ a = b := by
  constructor
  · intro h
    unfold make_diff at h
    exact Difflib.eq_of_grouped_nil a b 3
      ((Difflib.unified_diff_eq_nil_iff a b _ _ 3 "\n").mp h)
  · intro h
    subst h
    unfold make_diff
    exact Difflib.unified_diff_self a _ _ 3 "\n"

end Wrapper

namespace Wrapper

/-- C6 (corrected): `make_diff` is a pure function of the path and the two
line sequences; it returns the empty list exactly when the sequences are
identical, and otherwise a unified diff whose two header lines label the
before side `{path}\t(original)` and the after side `{path}\t(reformatted)`
(tab-separated, not space-separated). -/
theorem C6_renderer_empty_iff_identical (file : String) (a b : List String) :
    (make_diff file a b = [] ↔ a = b) ∧
    (a ≠ b → ∃ rest, make_diff file a b =
      ("--- " ++ (file ++ "\t(original)") ++ "\n") ::
        ("+++ " ++ (file ++ "\t(reformatted)") ++ "\n") :: rest) := by
  refine ⟨make_diff_empty_iff file a b, ?_⟩
  intro hne
  have hnot : make_diff file a b ≠ [] :=
    fun h => hne ((make_diff_empty_iff file a b).mp h)
  unfold make_diff Difflib.unified_diff at hnot ⊢
  cases h : Difflib.get_grouped_opcodes a b 3 with
  | nil =>
      rw [h] at hnot
      exact absurd rfl hnot
  | cons g gs =>
      exact ⟨_, rfl⟩

/-- C6, counterexample to the claimed header labels: the rendered labels
separate the path from `(original)` / `(reformatted)` with a tab character,
not with a space as the claim states. -/
theorem C6_counterexample :
    (∃ rest, make_diff "f" ["a\n"] ["b\n"] =
      ("--- " ++ ("f" ++ "\t(original)") ++ "\n") :: rest) ∧
    ("--- " ++ ("f" ++ "\t(original)") ++ "\n") = "--- f\t(original)\n" ∧
    "--- f\t(original)\n" ≠ "--- f (original)\n" := by
  refine ⟨?_, by decide, by decide⟩
  have hne : (["a\n"] : List String) ≠ ["b\n"] := by decide
  unfold make_diff Difflib.unified_diff
  cases h : Difflib.get_grouped_opcodes ["a\n"] ["b\n"] 3 with
  | nil => exact absurd (Difflib.eq_of_grouped_nil _ _ 3 h) hne
  | cons g gs => exact ⟨_, rfl⟩

/-- Witness for `C6_renderer_empty_iff_identical` at concrete inputs. -/
theorem C6_renderer_empty_iff_identical_witness :
    make_diff "f" ["x\n"] ["x\n"] = [] ∧
    (["a\n"] : List String) ≠ ["b\n"] ∧
    (∃ rest, make_diff "f" ["a\n"] ["b\n"] =
      ("--- " ++ ("f" ++ "\t(original)") ++ "\n") ::
        ("+++ " ++ ("f" ++ "\t(reformatted)") ++ "\n") :: rest) :=
  ⟨(C6_renderer_empty_iff_identical "f" ["x\n"] ["x\n"]).1.mpr rfl,
   by decide,
   (C6_renderer_empty_iff_identical "f" ["a\n"] ["b\n"]).2 (by decide)⟩

end Wrapper

namespace Py

/-- `Char.ofNat` on a small code point keeps its value. -/
theorem toNat_ofNat_small {m : Nat} (h : m < 1000) : (Char.ofNat m).toNat = m := by
  unfold Char.ofNat
  split
  · rfl
  · next hh =>
      exact absurd (by
        simpa [Nat.isValidChar] using Or.inl (by omega : m < 0xd800)) hh

/-- Every character of `natToDec n` is a decimal digit. -/
theorem natToDec_digits (n : Nat) : ∀ c ∈ (natToDec n).data,
    48 ≤ c.toNat ∧ c.toNat ≤ 57 := by
  induction n using Nat.strong_induction_on with
  | _ n ih =>
      rw [natToDec]
      split
      · next h =>
          intro c hc
          have hc' : c = Char.ofNat (48 + n) := List.mem_singleton.mp hc
          subst hc'
          rw [toNat_ofNat_small (by omega)]
          omega
      · next h =>
          intro c hc
          rw [String.data_append] at hc
          rcases List.mem_append.mp hc with hc | hc
          · exact ih (n / 10) (Nat.div_lt_self (by omega) (by omega)) c hc
          · have hc' : c = Char.ofNat (48 + n % 10) := List.mem_singleton.mp hc
            subst hc'
            have hm : n % 10 < 10 := Nat.mod_lt _ (by omega)
            rw [toNat_ofNat_small (by omega)]
            omega

/-- `natToDec` never renders the empty string. -/
theorem natToDec_ne_nil (n : Nat) : (natToDec n).data ≠ [] := by
  rw [natToDec]
  split
  · exact fun h => nomatch h
  · rw [String.data_append]
    simp

/-- `decToNatAux` distributes over appending. -/
theorem decToNatAux_append (acc : Nat) (l1 l2 : List Char) :
    decToNatAux acc (l1 ++ l2) =
      (decToNatAux acc l1).bind (fun m => decToNatAux m l2) := by
  induction l1 generalizing acc with
  | nil => rfl
  | cons c r ih =>
      simp only [List.cons_append, decToNatAux]
      cases h : decDigit c with
      | none => rfl
      | some d => exact ih _

/-- Parsing the rendering of a natural number yields the number back, with
the accumulator shifted by the digit count. -/
theorem decToNatAux_natToDec (n : Nat) : ∀ acc : Nat,
    decToNatAux acc (natToDec n).data =
      some (acc * 10 ^ (natToDec n).data.length + n) := by
  induction n using Nat.strong_induction_on with
  | _ n ih =>
      intro acc
      rw [natToDec]
      split
      · next h =>
          show decToNatAux acc [Char.ofNat (48 + n)] = _
          simp only [decToNatAux, decDigit]
          rw [if_pos (by rw [toNat_ofNat_small (by omega)]; omega)]
          rw [toNat_ofNat_small (by omega)]
          simp only [List.length_singleton, pow_one]
          have e : 48 + n - 48 = n := by omega
          rw [e]
      · next h =>
          rw [String.data_append, decToNatAux_append,
            ih (n / 10) (Nat.div_lt_self (by omega) (by omega)) acc]
          simp only [Option.bind_some]
          show decToNatAux _ [Char.ofNat (48 + n % 10)] = _
          simp only [decToNatAux, decDigit]
          have hm : n % 10 < 10 := Nat.mod_lt _ (by omega)
          rw [if_pos (by rw [toNat_ofNat_small (by omega)]; omega)]
          rw [toNat_ofNat_small (by omega)]
          refine congrArg some ?_
          rw [List.length_append, List.length_singleton, pow_succ]
          have h10 : 10 * (n / 10) + (48 + n % 10 - 48) = n := by omega
          calc (acc * 10 ^ (natToDec (n / 10)).data.length + n / 10) * 10 +
              (48 + n % 10 - 48)
              = acc * (10 ^ (natToDec (n / 10)).data.length * 10) +
                (10 * (n / 10) + (48 + n % 10 - 48)) := by ring
            _ = _ := by rw [h10]

/-- Parsing the rendering with a zero accumulator yields the number. -/
theorem decToNatAux_natToDec_zero (n : Nat) :
    decToNatAux 0 (natToDec n).data = some n := by
  rw [decToNatAux_natToDec]
  simp

end Py

namespace Difflib

/-- `splitComma` on a comma-free list is the singleton of that list. -/
theorem splitComma_no_comma : ∀ l : List Char, (∀ c ∈ l, c ≠ ',') →
    splitComma l = [l] := by
  intro l
  induction l with
  | nil => intro _; rfl
  | cons c r ih =>
      intro h
      have hc : c ≠ ',' := h c (List.mem_cons_self _ _)
      rw [splitComma.eq_def]
      split
      · next heq => exact nomatch heq
      · next heq =>
          obtain ⟨hc', -⟩ := List.cons.injEq _ _ _ _ ▸ heq
          exact absurd hc' hc
      · next c' rest' hne heq =>
          obtain ⟨hc', hr'⟩ := (List.cons.injEq _ _ _ _).mp heq
          subst hc'
          subst hr'
          rw [ih (fun x hx => h x (List.mem_cons_of_mem _ hx))]

/-- `splitComma` splits at the first comma. -/
theorem splitComma_comma : ∀ (l1 l2 : List Char), (∀ c ∈ l1, c ≠ ',') →
    splitComma (l1 ++ ',' :: l2) = l1 :: splitComma l2 := by
  intro l1
  induction l1 with
  | nil => intro l2 _; rfl
  | cons c r ih =>
      intro l2 h
      have hc : c ≠ ',' := h c (List.mem_cons_self _ _)
      rw [List.cons_append, splitComma.eq_def]
      split
      · next heq => exact nomatch heq
      · next heq =>
          obtain ⟨hc', -⟩ := (List.cons.injEq _ _ _ _).mp heq
          exact absurd hc' hc
      · next c' rest' hne heq =>
          obtain ⟨hc', hr'⟩ := (List.cons.injEq _ _ _ _).mp heq
          subst hc'
          subst hr'
          rw [ih l2 (fun x hx => h x (List.mem_cons_of_mem _ hx))]

/-- `takeWhile` stops exactly at the first failing element. -/
theorem takeWhile_append_stop {p : Char → Bool} : ∀ (l1 : List Char)
    (c : Char) (l2 : List Char), (∀ x ∈ l1, p x = true) → p c = false →
    (l1 ++ c :: l2).takeWhile p = l1 := by
  intro l1
  induction l1 with
  | nil =>
      intro c l2 _ hc
      rw [List.nil_append, List.takeWhile_cons, hc]
      rfl
  | cons x r ih =>
      intro c l2 h hc
      rw [List.cons_append, List.takeWhile_cons, h x (List.mem_cons_self _ _)]
      rw [if_pos rfl, ih c l2 (fun y hy => h y (List.mem_cons_of_mem _ hy)) hc]

end Difflib

namespace Difflib

/-- `parseHunkStart` on a string with the `@@ -` prefix reduces to parsing
the range text. -/
theorem parseHunkStart_data (x : String) (R : List Char)
    (h : x.data = '@' :: '@' :: ' ' :: '-' :: R) :
    parseHunkStart x =
      (match splitComma (R.takeWhile (fun c => decide (c ≠ ' '))) with
       | [bs] => (decFromDigits bs).map (fun v => v - 1)
       | [bs, ls] =>
           match decFromDigits bs, decFromDigits ls with
           | some bnum, some lnum => some (if lnum = 0 then bnum else bnum - 1)
           | _, _ => none
       | _ => none) := by
  unfold parseHunkStart
  rw [h]
  rfl

/-- Rendered digits never contain a space. -/
theorem natToDec_no_space (m : Nat) : ∀ c ∈ (Py.natToDec m).data,
    decide (c ≠ ' ') = true := by
  intro c hc
  have h := Py.natToDec_digits m c hc
  simp only [decide_eq_true_eq]
  intro he
  subst he
  have h32 : (' ' : Char).toNat = 32 := rfl
  omega

/-- Rendered digits never contain a comma. -/
theorem natToDec_no_comma (m : Nat) : ∀ c ∈ (Py.natToDec m).data,
    c ≠ ',' := by
  intro c hc
  have h := Py.natToDec_digits m c hc
  intro he
  subst he
  have h44 : (',' : Char).toNat = 44 := rfl
  omega

/-- A rendered range text has no space. -/
theorem formatRangeUnified_no_space (sa ea : Nat) :
    ∀ c ∈ (formatRangeUnified sa ea).data, decide (c ≠ ' ') = true := by
  intro c hc
  unfold formatRangeUnified at hc
  dsimp only at hc
  split at hc
  · exact natToDec_no_space _ c hc
  · rw [String.data_append, String.data_append] at hc
    rcases List.mem_append.mp hc with hc | hc
    · rcases List.mem_append.mp hc with hc | hc
      · exact natToDec_no_space _ c hc
      · have hc' : c = ',' := List.mem_singleton.mp hc
        subst hc'
        rfl
    · exact natToDec_no_space _ c hc

/-- Parsing the `a`-side start out of a rendered hunk header recovers the
0-based group start. -/
theorem parseHunkStart_render (sa ea sb eb : Nat) (lt : String) :
    parseHunkStart ("@@ -" ++ formatRangeUnified sa ea ++ " +" ++
      formatRangeUnified sb eb ++ " @@" ++ lt) = some sa := by
  have hRdata : ("@@ -" ++ formatRangeUnified sa ea ++ " +" ++
      formatRangeUnified sb eb ++ " @@" ++ lt).data =
      '@' :: '@' :: ' ' :: '-' ::
        ((formatRangeUnified sa ea).data ++ (' ' :: '+' ::
          ((formatRangeUnified sb eb).data ++
            (' ' :: '@' :: '@' :: lt.data)))) := by
    simp only [String.data_append, List.append_assoc]
    rfl
  rw [parseHunkStart_data _ _ hRdata]
  rw [takeWhile_append_stop _ ' ' _ (formatRangeUnified_no_space sa ea) (by decide)]
  by_cases hl : ea - sa = 1
  · have hfr : formatRangeUnified sa ea = Py.natToDec (sa + 1) := by
      unfold formatRangeUnified
      dsimp only
      rw [if_pos hl]
    rw [hfr, splitComma_no_comma _ (natToDec_no_comma _)]
    show (decFromDigits (Py.natToDec (sa + 1)).data).map (fun v => v - 1) =
      some sa
    unfold decFromDigits
    rw [if_neg (Py.natToDec_ne_nil _), Py.decToNatAux_natToDec_zero]
    simp
  · have hfr : formatRangeUnified sa ea =
        Py.natToDec (if ea - sa = 0 then sa + 1 - 1 else sa + 1) ++ "," ++
          Py.natToDec (ea - sa) := by
      unfold formatRangeUnified
      dsimp only
      rw [if_neg hl]
    rw [hfr]
    have hd : (Py.natToDec (if ea - sa = 0 then sa + 1 - 1 else sa + 1) ++ ","
        ++ Py.natToDec (ea - sa)).data =
        (Py.natToDec (if ea - sa = 0 then sa + 1 - 1 else sa + 1)).data ++
          (',' :: (Py.natToDec (ea - sa)).data) := by
      simp only [String.data_append, List.append_assoc]
      rfl
    rw [hd, splitComma_comma _ _ (natToDec_no_comma _),
      splitComma_no_comma _ (natToDec_no_comma _)]
    show (match decFromDigits (Py.natToDec (if ea - sa = 0 then sa + 1 - 1
        else sa + 1)).data, decFromDigits (Py.natToDec (ea - sa)).data with
      | some bnum, some lnum => some (if lnum = 0 then bnum else bnum - 1)
      | _, _ => none) = some sa
    unfold decFromDigits
    rw [if_neg (Py.natToDec_ne_nil _), if_neg (Py.natToDec_ne_nil _),
      Py.decToNatAux_natToDec_zero, Py.decToNatAux_natToDec_zero]
    show some (if ea - sa = 0 then (if ea - sa = 0 then sa + 1 - 1 else sa + 1)
      else (if ea - sa = 0 then sa + 1 - 1 else sa + 1) - 1) = some sa
    by_cases h0 : ea - sa = 0
    · rw [if_pos h0, if_pos h0]
      simp
    · rw [if_neg h0, if_neg h0]
      simp

end Difflib

namespace Difflib

/-- A nonempty opcode run ends at the `getLastD` opcode's end. -/
theorem tiles_last : ∀ (g : List Opcode) (c : Opcode) (s t u v : Nat),
    tiles s t (c :: g) u v →
    ((c :: g).getLastD dfltOp).i2 = u ∧ ((c :: g).getLastD dfltOp).j2 = v := by
  intro g
  induction g with
  | nil =>
      intro c s t u v h
      obtain ⟨_, _, _, _, hu, hv⟩ := h
      exact ⟨hu, hv⟩
  | cons c2 g' ih =>
      intro c s t u v h
      obtain ⟨_, _, _, _, hrest⟩ := h
      rw [List.getLastD_cons]
      have := ih c2 c.i2 c.j2 u v hrest
      rw [List.getLastD_cons] at this ⊢
      exact this

/-- `headD` of an append with a nonempty left part. -/
theorem headD_append_left (g l : List Opcode) (hg : g ≠ []) (d : Opcode) :
    (g ++ l).headD d = g.headD d := by
  cases g with
  | nil => exact absurd rfl hg
  | cons c g' => rfl

/-- `getLastD` of a nonempty list ignores the default. -/
theorem getLastD_ne_nil (l : List Opcode) (hl : l ≠ []) (d d2 : Opcode) :
    l.getLastD d = l.getLastD d2 := by
  cases l with
  | nil => exact absurd rfl hl
  | cons c l' => rw [List.getLastD_cons, List.getLastD_cons]

/-- `getLastD` of an append with a nonempty right part. -/
theorem getLastD_append_right : ∀ (g l : List Opcode), l ≠ [] →
    ∀ d : Opcode, (g ++ l).getLastD d = l.getLastD d := by
  intro g
  induction g with
  | nil => intro l _ d; rw [List.nil_append]
  | cons c g' ih =>
      intro l hl d
      rw [List.cons_append, List.getLastD_cons, ih l hl c]
      exact getLastD_ne_nil l hl c d

/-- A sub-segment of a match with equal offsets on both sides is a
`between` region. -/
theorem between_within {a b : List String} {x y L : Nat}
    (h : matchAt a b x y L) (d1 d2 : Nat) (hd : d1 ≤ d2) (hL : d2 ≤ L) :
    between a b (x + d1) (y + d1) (x + d2) (y + d2) := by
  have h1 := matchAt_mono (matchAt_shift h (by omega : d1 ≤ L))
    (by omega : d2 - d1 ≤ L - d1)
  have h2 := between_of_matchAt h1
  have e1 : x + d1 + (d2 - d1) = x + d2 := by omega
  have e2 : y + d1 + (d2 - d1) = y + d2 := by omega
  rwa [e1, e2] at h2

/-- The start of a run extended by one trailing opcode that begins at the
run's end. -/
theorem gStart_append_single (g : List Opcode) (tc : Opcode)
    (s t w w2 : Nat) (h : tiles s t g w w2) (h1 : tc.i1 = w)
    (h2 : tc.j1 = w2) :
    gStartA (g ++ [tc]) = s ∧ gStartB (g ++ [tc]) = t := by
  cases g with
  | nil =>
      obtain ⟨hs, ht⟩ := h
      constructor
      · show tc.i1 = s
        omega
      · show tc.j1 = t
        omega
  | cons c g' =>
      obtain ⟨hi, hj, _⟩ := h
      exact ⟨hi, hj⟩

end Difflib

namespace Difflib

/-- Assemble one chained group from its parts. -/
theorem GroupsChained_cons (a b : List String) (n : Nat)
    (g : List Opcode) (hg : g ≠ [])
    (u v s t w w2 : Nat) (rest : List (List Opcode))
    (h1 : between a b u v s t)
    (h2 : tiles s t g w w2)
    (h4 : ∀ c ∈ g, opcodeSound a b c)
    (h5 : (g.headD dfltOp).tag = Tag.equal →
      (g.headD dfltOp).i2 - (g.headD dfltOp).i1 ≤ n)
    (h6 : (g.getLastD dfltOp).tag = Tag.equal →
      (g.getLastD dfltOp).i2 - (g.getLastD dfltOp).i1 ≤ n)
    (h7 : GroupsChained a b n w w2 rest) :
    GroupsChained a b n u v (g :: rest) := by
  cases g with
  | nil => exact absurd rfl hg
  | cons c1 g' =>
      have hlast := tiles_last g' c1 s t w w2 h2
      refine ⟨by simp, ?_, ?_, h4, h5, h6, ?_⟩
      · show between a b u v (gStartA (c1 :: g')) (gStartB (c1 :: g'))
        rw [show gStartA (c1 :: g') = s from h2.1,
          show gStartB (c1 :: g') = t from h2.2.1]
        exact h1
      · show tiles (gStartA (c1 :: g')) (gStartB (c1 :: g')) (c1 :: g')
          (gEndA (c1 :: g')) (gEndB (c1 :: g'))
        rw [show gStartA (c1 :: g') = s from h2.1,
          show gStartB (c1 :: g') = t from h2.2.1,
          show gEndA (c1 :: g') = w from hlast.1,
          show gEndB (c1 :: g') = w2 from hlast.2]
        exact h2
      · rw [show gEndA (c1 :: g') = w from hlast.1,
          show gEndB (c1 :: g') = w2 from hlast.2]
        exact h7

/-- The grouping-loop invariant: processing sound contiguous opcodes whose
overall first and last `equal` opcodes carry at most `n` lines of context,
starting from a pending group preceded by an agreeing region, yields chained
groups. -/
theorem groupLoop_chained (a b : List String) (n : Nat) :
    ∀ (cs : List Opcode) (g : List Opcode) (u v s t w w2 w3 w4 : Nat),
    between a b u v s t →
    tiles s t g w w2 →
    tiles w w2 cs w3 w4 →
    between a b w3 w4 a.length b.length →
    (∀ c ∈ g ++ cs, opcodeSound a b c) →
    (((g ++ cs).headD dfltOp).tag = Tag.equal →
      ((g ++ cs).headD dfltOp).i2 - ((g ++ cs).headD dfltOp).i1 ≤ n) →
    (((g ++ cs).getLastD dfltOp).tag = Tag.equal →
      ((g ++ cs).getLastD dfltOp).i2 - ((g ++ cs).getLastD dfltOp).i1 ≤ n) →
    GroupsChained a b n u v (groupLoop n g cs) := by
  intro cs
  induction cs with
  | nil =>
      intro g u v s t w w2 w3 w4 h1 h2 h3 htail h4 h5 h6
      obtain ⟨hw, hw2⟩ := h3
      rw [List.append_nil] at h4 h5 h6
      simp only [groupLoop]
      cases g with
      | nil =>
          obtain ⟨hs, ht⟩ := h2
          show between a b u v a.length b.length
          rw [hs, hw, ht, hw2] at h1
          exact between_trans h1 htail
      | cons c1 g' =>
          cases g' with
          | nil =>
              by_cases he : c1.tag = Tag.equal
              · rw [show finalGroup [c1] = [] from by simp [finalGroup, he]]
                show between a b u v a.length b.length
                obtain ⟨hi1, hj1, hle1, hle2, hi2, hj2⟩ := h2
                obtain ⟨-, -, heqc, -, -⟩ := h4 c1 (List.mem_cons_self _ _)
                obtain ⟨hlen, hm⟩ := heqc he
                have hb := between_of_matchAt hm
                have e1 : c1.i1 + (c1.i2 - c1.i1) = c1.i2 := by omega
                have e2 : c1.j1 + (c1.i2 - c1.i1) = c1.j2 := by omega
                rw [e1, e2, hi1, hj1, hi2, hw, hj2, hw2] at hb
                exact between_trans (between_trans h1 hb) htail
              · rw [show finalGroup [c1] = [[c1]] from by simp [finalGroup, he]]
                refine GroupsChained_cons a b n [c1] (by simp) u v s t
                  w w2 [] h1 h2 h4 h5 h6 ?_
                show between a b w w2 a.length b.length
                rw [hw, hw2]
                exact htail
          | cons c2 g'' =>
              rw [show finalGroup (c1 :: c2 :: g'') = [c1 :: c2 :: g'']
                from rfl]
              refine GroupsChained_cons a b n (c1 :: c2 :: g'') (by simp) u v
                s t w w2 [] h1 h2 h4 h5 h6 ?_
              show between a b w w2 a.length b.length
              rw [hw, hw2]
              exact htail
  | cons c rest ih =>
      intro g u v s t w w2 w3 w4 h1 h2 h3 htail h4 h5 h6
      obtain ⟨hc1, hc2, hle1, hle2, h3'⟩ := h3
      have hassoc : (g ++ [c]) ++ rest = g ++ (c :: rest) := by
        rw [List.append_assoc, List.singleton_append]
      simp only [groupLoop]
      by_cases hsp : c.tag = Tag.equal ∧ 2 * n < c.i2 - c.i1
      · rw [if_pos hsp]
        have hcs := h4 c (List.mem_append.mpr (Or.inr (List.mem_cons_self _ _)))
        obtain ⟨hbla, hblb, heqc, -, -⟩ := hcs
        obtain ⟨hlen, hm⟩ := heqc hsp.1
        have hii : c.i1 ≤ c.i2 := by omega
        have hjj : c.j1 ≤ c.j2 := by omega
        have h2n := hsp.2
        have htile_tc : tiles w w2
            [(⟨.equal, c.i1, min c.i2 (c.i1 + n), c.j1,
              min c.j2 (c.j1 + n)⟩ : Opcode)]
            (min c.i2 (c.i1 + n)) (min c.j2 (c.j1 + n)) := by
          refine ⟨hc1, hc2, ?_, ?_, rfl, rfl⟩
          · show w ≤ min c.i2 (c.i1 + n)
            omega
          · show w2 ≤ min c.j2 (c.j1 + n)
            omega
        refine GroupsChained_cons a b n _ (by simp) u v s t
          (min c.i2 (c.i1 + n)) (min c.j2 (c.j1 + n)) _ h1
          (tiles_append h2 htile_tc) ?_ ?_ ?_ ?_
        · intro op hop
          rcases List.mem_append.mp hop with hop | hop
          · exact h4 op (List.mem_append.mpr (Or.inl hop))
          · rw [List.mem_singleton.mp hop]
            refine ⟨show min c.i2 (c.i1 + n) ≤ a.length by omega,
              show min c.j2 (c.j1 + n) ≤ b.length by omega,
              fun _ => ⟨?_, ?_⟩, fun h => Tag.noConfusion h,
              fun h => Tag.noConfusion h⟩
            · show min c.i2 (c.i1 + n) - c.i1 = min c.j2 (c.j1 + n) - c.j1
              omega
            · show matchAt a b c.i1 c.j1 (min c.i2 (c.i1 + n) - c.i1)
              exact matchAt_mono hm (by omega)
        · cases g with
          | nil =>
              intro _
              show min c.i2 (c.i1 + n) - c.i1 ≤ n
              omega
          | cons c1 g' =>
              rw [headD_append_left _ _ (by simp) _]
              rw [headD_append_left _ _ (by simp) _] at h5
              exact h5
        · rw [getLastD_append_right _ _ (by simp) _]
          intro _
          show min c.i2 (c.i1 + n) - c.i1 ≤ n
          omega
        · -- the recursive tail, starting from the next group's context head
          refine ih [(⟨.equal, max c.i1 (c.i2 - n), c.i2, max c.j1 (c.j2 - n),
              c.j2⟩ : Opcode)] (min c.i2 (c.i1 + n)) (min c.j2 (c.j1 + n))
            (max c.i1 (c.i2 - n)) (max c.j1 (c.j2 - n)) c.i2 c.j2 w3 w4
            ?_ ?_ h3' htail ?_ ?_ ?_
          · -- between from the emitted group's end to the new head's start
            have hW := between_within hm (min (c.i2 - c.i1) n)
              (c.i2 - c.i1 - n) (by omega) (by omega)
            have e1 : c.i1 + min (c.i2 - c.i1) n = min c.i2 (c.i1 + n) := by
              omega
            have e2 : c.j1 + min (c.i2 - c.i1) n = min c.j2 (c.j1 + n) := by
              omega
            have e3 : c.i1 + (c.i2 - c.i1 - n) = max c.i1 (c.i2 - n) := by
              omega
            have e4 : c.j1 + (c.i2 - c.i1 - n) = max c.j1 (c.j2 - n) := by
              omega
            rw [e1, e2, e3, e4] at hW
            exact hW
          · refine ⟨rfl, rfl, ?_, ?_, rfl, rfl⟩
            · show max c.i1 (c.i2 - n) ≤ c.i2
              omega
            · show max c.j1 (c.j2 - n) ≤ c.j2
              omega
          · intro op hop
            rcases List.mem_append.mp hop with hop | hop
            · rw [List.mem_singleton.mp hop]
              refine ⟨hbla, hblb, fun _ => ⟨?_, ?_⟩,
                fun h => Tag.noConfusion h, fun h => Tag.noConfusion h⟩
              · show c.i2 - max c.i1 (c.i2 - n) = c.j2 - max c.j1 (c.j2 - n)
                omega
              · show matchAt a b (max c.i1 (c.i2 - n)) (max c.j1 (c.j2 - n))
                  (c.i2 - max c.i1 (c.i2 - n))
                have hS := matchAt_shift hm (by omega :
                  c.i2 - c.i1 - n ≤ c.i2 - c.i1)
                have e3 : c.i1 + (c.i2 - c.i1 - n) = max c.i1 (c.i2 - n) := by
                  omega
                have e4 : c.j1 + (c.i2 - c.i1 - n) = max c.j1 (c.j2 - n) := by
                  omega
                have e5 : c.i2 - c.i1 - (c.i2 - c.i1 - n) =
                    c.i2 - max c.i1 (c.i2 - n) := by omega
                rw [e3, e4, e5] at hS
                exact hS
            · exact h4 op (List.mem_append.mpr
                (Or.inr (List.mem_cons_of_mem _ hop)))
          · rw [List.singleton_append, List.headD_cons]
            intro _
            show c.i2 - max c.i1 (c.i2 - n) ≤ n
            omega
          · cases rest with
            | nil =>
                intro _
                show c.i2 - max c.i1 (c.i2 - n) ≤ n
                omega
            | cons r0 r1 =>
                rw [List.singleton_append, List.getLastD_cons,
                  getLastD_ne_nil (r0 :: r1) (by simp) _ dfltOp]
                rw [getLastD_append_right _ _ (by simp) _,
                  List.getLastD_cons,
                  getLastD_ne_nil (r0 :: r1) (by simp) _ dfltOp] at h6
                exact h6
      · rw [if_neg hsp]
        refine ih (g ++ [c]) u v s t c.i2 c.j2 w3 w4 h1
          (tiles_append h2 ⟨hc1, hc2, hle1, hle2, rfl, rfl⟩) h3' htail ?_ ?_ ?_
        · rw [hassoc]
          exact h4
        · rw [hassoc]
          exact h5
        · rw [hassoc]
          exact h6

end Difflib

namespace Difflib

/-- `fixupFirst` truncates a leading `equal` opcode to at most `n` context
lines, preserving soundness and contiguity and leaving a leading agreeing
region. -/
theorem fixupFirst_chained (a b : List String) (n : Nat) (c0 : Opcode)
    (r : List Opcode) (w3 w4 : Nat)
    (htiles : tiles 0 0 (c0 :: r) w3 w4)
    (hsound : ∀ c ∈ c0 :: r, opcodeSound a b c) :
    ∃ (c1 : Opcode) (s t : Nat),
      fixupFirst n (c0 :: r) = c1 :: r ∧
      between a b 0 0 s t ∧
      tiles s t (c1 :: r) w3 w4 ∧
      (∀ c ∈ c1 :: r, opcodeSound a b c) ∧
      (c1.tag = Tag.equal → c1.i2 - c1.i1 ≤ n) ∧
      (r ≠ [] → (c1 :: r).getLastD dfltOp = (c0 :: r).getLastD dfltOp) := by
  obtain ⟨hi1, hj1, hle1, hle2, hrest⟩ := htiles
  obtain ⟨hbla, hblb, heqc, hdel, hins⟩ := hsound c0 (List.mem_cons_self _ _)
  by_cases he : c0.tag = Tag.equal
  · obtain ⟨hlen, hm⟩ := heqc he
    refine ⟨⟨.equal, max c0.i1 (c0.i2 - n), c0.i2, max c0.j1 (c0.j2 - n),
      c0.j2⟩, max c0.i1 (c0.i2 - n), max c0.j1 (c0.j2 - n), ?_, ?_, ?_, ?_,
      ?_, ?_⟩
    · simp only [fixupFirst, if_pos he]
    · have hW := between_within hm 0 (c0.i2 - c0.i1 - n) (by omega) (by omega)
      have e1 : c0.i1 + 0 = 0 := by omega
      have e2 : c0.j1 + 0 = 0 := by omega
      have e3 : c0.i1 + (c0.i2 - c0.i1 - n) = max c0.i1 (c0.i2 - n) := by
        omega
      have e4 : c0.j1 + (c0.i2 - c0.i1 - n) = max c0.j1 (c0.j2 - n) := by
        omega
      rwa [e1, e2, e3, e4] at hW
    · exact ⟨rfl, rfl, show max c0.i1 (c0.i2 - n) ≤ c0.i2 by omega,
        show max c0.j1 (c0.j2 - n) ≤ c0.j2 by omega, hrest⟩
    · intro c hc
      rcases List.mem_cons.mp hc with hc | hc
      · subst hc
        refine ⟨hbla, hblb, fun _ => ⟨?_, ?_⟩, fun h => Tag.noConfusion h,
          fun h => Tag.noConfusion h⟩
        · show c0.i2 - max c0.i1 (c0.i2 - n) = c0.j2 - max c0.j1 (c0.j2 - n)
          omega
        · show matchAt a b (max c0.i1 (c0.i2 - n)) (max c0.j1 (c0.j2 - n))
            (c0.i2 - max c0.i1 (c0.i2 - n))
          have hS := matchAt_shift hm (by omega :
            c0.i2 - c0.i1 - n ≤ c0.i2 - c0.i1)
          have e3 : c0.i1 + (c0.i2 - c0.i1 - n) = max c0.i1 (c0.i2 - n) := by
            omega
          have e4 : c0.j1 + (c0.i2 - c0.i1 - n) = max c0.j1 (c0.j2 - n) := by
            omega
          have e5 : c0.i2 - c0.i1 - (c0.i2 - c0.i1 - n) =
              c0.i2 - max c0.i1 (c0.i2 - n) := by omega
          rwa [e3, e4, e5] at hS
      · exact hsound c (List.mem_cons_of_mem _ hc)
    · intro _
      show c0.i2 - max c0.i1 (c0.i2 - n) ≤ n
      omega
    · intro hr
      rw [List.getLastD_cons, List.getLastD_cons]
      cases r with
      | nil => exact absurd rfl hr
      | cons r0 r1 => rw [List.getLastD_cons, List.getLastD_cons]
  · refine ⟨c0, 0, 0, ?_, ?_, ?_, hsound, fun h => absurd h he, fun _ => rfl⟩
    · simp only [fixupFirst, if_neg he]
    · have h0a : (0 : Nat) ≤ a.length := Nat.zero_le _
      have h0b : (0 : Nat) ≤ b.length := Nat.zero_le _
      exact between_refl h0a h0b
    · exact ⟨hi1, hj1, hle1, hle2, hrest⟩

/-- `fixupLast` truncates a trailing `equal` opcode to at most `n` context
lines, preserving soundness, contiguity and the head tag, and leaving a
trailing agreeing region. -/
theorem fixupLast_chained (a b : List String) (n : Nat) :
    ∀ (l : List Opcode) (s t w3 w4 : Nat), l ≠ [] →
    tiles s t l w3 w4 →
    (∀ c ∈ l, opcodeSound a b c) →
    ∃ (w w2 : Nat),
      tiles s t (fixupLast n l) w w2 ∧
      between a b w w2 w3 w4 ∧
      (∀ c ∈ fixupLast n l, opcodeSound a b c) ∧
      ((fixupLast n l).headD dfltOp).tag = (l.headD dfltOp).tag ∧
      ((fixupLast n l).headD dfltOp).i2 - ((fixupLast n l).headD dfltOp).i1 ≤
        max n ((l.headD dfltOp).i2 - (l.headD dfltOp).i1) ∧
      (((fixupLast n l).getLastD dfltOp).tag = Tag.equal →
        ((fixupLast n l).getLastD dfltOp).i2 -
          ((fixupLast n l).getLastD dfltOp).i1 ≤ n) := by
  intro l
  induction l with
  | nil => intro s t w3 w4 hnil; exact absurd rfl hnil
  | cons c r ih =>
      intro s t w3 w4 _ htiles hsound
      obtain ⟨hi1, hj1, hle1, hle2, hrest⟩ := htiles
      cases r with
      | nil =>
          obtain ⟨hw3, hw4⟩ := hrest
          obtain ⟨hbla, hblb, heqc, -, -⟩ := hsound c (List.mem_cons_self _ _)
          by_cases he : c.tag = Tag.equal
          · obtain ⟨hlen, hm⟩ := heqc he
            rw [show fixupLast n [c] =
              [⟨.equal, c.i1, min c.i2 (c.i1 + n), c.j1,
                min c.j2 (c.j1 + n)⟩]
              from by simp only [fixupLast, if_pos he]]
            refine ⟨min c.i2 (c.i1 + n), min c.j2 (c.j1 + n), ?_, ?_, ?_, ?_,
              ?_, ?_⟩
            · exact ⟨hi1, hj1, show s ≤ min c.i2 (c.i1 + n) by omega,
                show t ≤ min c.j2 (c.j1 + n) by omega, rfl, rfl⟩
            · have hW := between_within hm (min (c.i2 - c.i1) n)
                (c.i2 - c.i1) (by omega) (by omega)
              have e1 : c.i1 + min (c.i2 - c.i1) n = min c.i2 (c.i1 + n) := by
                omega
              have e2 : c.j1 + min (c.i2 - c.i1) n = min c.j2 (c.j1 + n) := by
                omega
              have e3 : c.i1 + (c.i2 - c.i1) = w3 := by omega
              have e4 : c.j1 + (c.i2 - c.i1) = w4 := by omega
              rwa [e1, e2, e3, e4] at hW
            · intro op hop
              rw [List.mem_singleton.mp hop]
              refine ⟨show min c.i2 (c.i1 + n) ≤ a.length by omega,
                show min c.j2 (c.j1 + n) ≤ b.length by omega,
                fun _ => ⟨?_, ?_⟩, fun h => Tag.noConfusion h,
                fun h => Tag.noConfusion h⟩
              · show min c.i2 (c.i1 + n) - c.i1 = min c.j2 (c.j1 + n) - c.j1
                omega
              · show matchAt a b c.i1 c.j1 (min c.i2 (c.i1 + n) - c.i1)
                exact matchAt_mono hm (by omega)
            · exact he.symm
            · show min c.i2 (c.i1 + n) - c.i1 ≤ max n (c.i2 - c.i1)
              omega
            · intro _
              show min c.i2 (c.i1 + n) - c.i1 ≤ n
              omega
          · rw [show fixupLast n [c] = [c] from by
              simp only [fixupLast, if_neg he]]
            refine ⟨w3, w4, ⟨hi1, hj1, hle1, hle2, hw3, hw4⟩, ?_, hsound,
              rfl, by omega, fun h => absurd h he⟩
            have hwa : w3 ≤ a.length := by omega
            have hwb : w4 ≤ b.length := by omega
            exact between_refl hwa hwb
      | cons c2 r2 =>
          have hlen2 : fixupLast n (c2 :: r2) ≠ [] := by
            intro h
            have := fixupLast_length n (c2 :: r2)
            rw [h] at this
            exact nomatch this.symm
          obtain ⟨w, w2, ht2, hb2, hs2, -, -, hl2⟩ :=
            ih c.i2 c.j2 w3 w4 (by simp) hrest
            (fun op hop => hsound op (List.mem_cons_of_mem _ hop))
          rw [show fixupLast n (c :: c2 :: r2) =
            c :: fixupLast n (c2 :: r2) from by
              simp only [fixupLast]]
          refine ⟨w, w2, ⟨hi1, hj1, hle1, hle2, ht2⟩, hb2, ?_, ?_, ?_, ?_⟩
          · intro op hop
            rcases List.mem_cons.mp hop with hop | hop
            · subst hop
              exact hsound op (List.mem_cons_self _ _)
            · exact hs2 op hop
          · rw [List.headD_cons, List.headD_cons]
          · rw [List.headD_cons, List.headD_cons]
            omega
          · rw [List.getLastD_cons,
              getLastD_ne_nil (fixupLast n (c2 :: r2)) hlen2 c dfltOp]
            exact hl2

end Difflib

namespace Difflib

/-- The groups produced by `get_grouped_opcodes` on distinct sequences are
chained: sound contiguous opcodes with at most `n` context lines at the
edges, separated and surrounded by agreeing regions. -/
theorem get_grouped_opcodes_chained (a b : List String) (n : Nat)
    (hne : a ≠ b) :
    GroupsChained a b n 0 0 (get_grouped_opcodes a b n) := by
  have hsound := get_opcodes_sound a b
  have hc : get_opcodes a b ≠ [] := by
    intro h
    rw [h] at hsound
    obtain ⟨hla, hlb⟩ := hsound.1
    exact hne (by rw [List.length_eq_zero.mp hla.symm,
      List.length_eq_zero.mp hlb.symm])
  unfold get_grouped_opcodes
  dsimp only
  rw [if_neg hc]
  obtain ⟨htiles, hsnd⟩ := hsound
  cases hcodes : get_opcodes a b with
  | nil => exact absurd hcodes hc
  | cons c0 r =>
      rw [hcodes] at htiles hsnd
      obtain ⟨c1, s1, t1, hf1, hbet1, htiles1, hsnd1, hctx1, -⟩ :=
        fixupFirst_chained a b n c0 r a.length b.length htiles hsnd
      rw [hf1]
      obtain ⟨w, w2, ht2, hb2, hs2, htag2, hlen2b, hl2⟩ :=
        fixupLast_chained a b n (c1 :: r) s1 t1 a.length b.length (by simp)
          htiles1 hsnd1
      refine groupLoop_chained a b n (fixupLast n (c1 :: r)) [] 0 0 s1 t1
        s1 t1 w w2 hbet1 ⟨rfl, rfl⟩ ht2 hb2 ?_ ?_ ?_
      · rw [List.nil_append]
        exact hs2
      · rw [List.nil_append]
        rw [List.headD_cons] at htag2 hlen2b
        intro htg
        have htag : c1.tag = Tag.equal := htag2.symm.trans htg
        have hc1n := hctx1 htag
        omega
      · rw [List.nil_append]
        exact hl2

end Difflib

namespace Difflib

/-- `applyHunks` on a context line: check and copy. -/
theorem applyHunks_cons_ctx (orig : List String) (x : String)
    (rest : List String) (cursor : Nat) (acc : List String)
    (hcur : cursor < orig.length) (hx : orig.getD cursor "" = x) :
    applyHunks orig ((" " ++ x) :: rest) cursor acc =
      applyHunks orig rest (cursor + 1) (acc ++ [orig.getD cursor ""]) := by
  have hld : (" " ++ x).data = ' ' :: x.data := by
    rw [String.data_append]
    rfl
  simp only [applyHunks]
  rw [hld]
  show (if cursor < orig.length ∧ (orig.getD cursor "").data = x.data then
    applyHunks orig rest (cursor + 1) (acc ++ [orig.getD cursor ""])
    else none) = _
  rw [if_pos ⟨hcur, by rw [hx]⟩]

/-- `applyHunks` on a removed line: check and skip. -/
theorem applyHunks_cons_minus (orig : List String) (x : String)
    (rest : List String) (cursor : Nat) (acc : List String)
    (hcur : cursor < orig.length) (hx : orig.getD cursor "" = x) :
    applyHunks orig (("-" ++ x) :: rest) cursor acc =
      applyHunks orig rest (cursor + 1) acc := by
  have hld : ("-" ++ x).data = '-' :: x.data := by
    rw [String.data_append]
    rfl
  simp only [applyHunks]
  rw [hld]
  show (if cursor < orig.length ∧ (orig.getD cursor "").data = x.data then
    applyHunks orig rest (cursor + 1) acc else none) = _
  rw [if_pos ⟨hcur, by rw [hx]⟩]

/-- `applyHunks` on an added line: insert. -/
theorem applyHunks_cons_plus (orig : List String) (x : String)
    (rest : List String) (cursor : Nat) (acc : List String) :
    applyHunks orig (("+" ++ x) :: rest) cursor acc =
      applyHunks orig rest cursor (acc ++ [x]) := by
  have hld : ("+" ++ x).data = '+' :: x.data := by
    rw [String.data_append]
    rfl
  simp only [applyHunks]
  rw [hld]
  rfl

/-- `applyHunks` on a hunk header: copy the untouched region up to the
hunk's start. -/
theorem applyHunks_cons_hunk (orig : List String) (sa ea sb eb : Nat)
    (lt : String) (rest : List String) (cursor : Nat) (acc : List String)
    (h1 : cursor ≤ sa) (h2 : sa ≤ orig.length) :
    applyHunks orig (("@@ -" ++ formatRangeUnified sa ea ++ " +" ++
        formatRangeUnified sb eb ++ " @@" ++ lt) :: rest) cursor acc =
      applyHunks orig rest sa
        (acc ++ (orig.drop cursor).take (sa - cursor)) := by
  have hld : ("@@ -" ++ formatRangeUnified sa ea ++ " +" ++
      formatRangeUnified sb eb ++ " @@" ++ lt).data =
      '@' :: '@' :: ' ' :: '-' ::
        ((formatRangeUnified sa ea).data ++ (' ' :: '+' ::
          ((formatRangeUnified sb eb).data ++
            (' ' :: '@' :: '@' :: lt.data)))) := by
    simp only [String.data_append, List.append_assoc]
    rfl
  simp only [applyHunks]
  rw [hld]
  show (match parseHunkStart ("@@ -" ++ formatRangeUnified sa ea ++ " +" ++
      formatRangeUnified sb eb ++ " @@" ++ lt) with
    | none => none
    | some s =>
        if cursor ≤ s ∧ s ≤ orig.length then
          applyHunks orig rest s
            (acc ++ (orig.drop cursor).take (s - cursor))
        else none) = _
  rw [parseHunkStart_render]
  show (if cursor ≤ sa ∧ sa ≤ orig.length then
    applyHunks orig rest sa (acc ++ (orig.drop cursor).take (sa - cursor))
    else none) = _
  rw [if_pos ⟨h1, h2⟩]

end Difflib

namespace Difflib

/-- Consuming a run of context lines advances the cursor through `a` and
extends the accumulator through `b`. -/
theorem applyHunks_ctx_run (a b : List String) :
    ∀ (L i j : Nat) (rest : List String),
    matchAt a b i j L →
    applyHunks a (((a.drop i).take L).map (fun l => " " ++ l) ++ rest) i
      (b.take j) = applyHunks a rest (i + L) (b.take (j + L)) := by
  intro L
  induction L with
  | zero =>
      intro i j rest _
      rw [List.take_zero, List.map_nil, List.nil_append, Nat.add_zero,
        Nat.add_zero]
  | succ L ih =>
      intro i j rest hm
      obtain ⟨hia, hjb, hp⟩ := hm
      have hi : i < a.length := by omega
      have hj : j < b.length := by omega
      rw [List.drop_eq_getElem_cons hi, List.take_succ_cons, List.map_cons,
        List.cons_append]
      rw [applyHunks_cons_ctx a a[i] _ i (b.take j) hi
        (List.getD_eq_getElem a "" hi)]
      have hab : a.getD i "" = b.getD j "" := by
        have := hp 0 (by omega)
        simpa using this
      have htk : b.take j ++ [a.getD i ""] = b.take (j + 1) := by
        rw [hab, List.getD_eq_getElem b "" hj, List.take_succ,
          List.getElem?_eq_getElem hj]
        rfl
      rw [htk]
      have hm' : matchAt a b (i + 1) (j + 1) L := by
        refine ⟨by omega, by omega, fun t ht => ?_⟩
        have := hp (t + 1) (by omega)
        have e1 : i + (t + 1) = i + 1 + t := by omega
        have e2 : j + (t + 1) = j + 1 + t := by omega
        rwa [e1, e2] at this
      rw [ih (i + 1) (j + 1) rest hm']
      have e1 : i + 1 + L = i + (L + 1) := by omega
      have e2 : j + 1 + L = j + (L + 1) := by omega
      rw [e1, e2]

/-- Consuming a run of removed lines advances the cursor through `a`. -/
theorem applyHunks_minus_run (a : List String) :
    ∀ (L i : Nat) (rest : List String) (acc : List String),
    i + L ≤ a.length →
    applyHunks a (((a.drop i).take L).map (fun l => "-" ++ l) ++ rest) i
      acc = applyHunks a rest (i + L) acc := by
  intro L
  induction L with
  | zero =>
      intro i rest acc _
      rw [List.take_zero, List.map_nil, List.nil_append, Nat.add_zero]
  | succ L ih =>
      intro i rest acc hle
      have hi : i < a.length := by omega
      rw [List.drop_eq_getElem_cons hi, List.take_succ_cons, List.map_cons,
        List.cons_append]
      rw [applyHunks_cons_minus a a[i] _ i acc hi
        (List.getD_eq_getElem a "" hi)]
      rw [ih (i + 1) rest acc (by omega)]
      have e1 : i + 1 + L = i + (L + 1) := by omega
      rw [e1]

/-- Consuming a run of added lines extends the accumulator through `b`. -/
theorem applyHunks_plus_run (a b : List String) :
    ∀ (L j i : Nat) (rest : List String),
    j + L ≤ b.length →
    applyHunks a (((b.drop j).take L).map (fun l => "+" ++ l) ++ rest) i
      (b.take j) = applyHunks a rest i (b.take (j + L)) := by
  intro L
  induction L with
  | zero =>
      intro j i rest _
      rw [List.take_zero, List.map_nil, List.nil_append, Nat.add_zero]
  | succ L ih =>
      intro j i rest hle
      have hj : j < b.length := by omega
      rw [List.drop_eq_getElem_cons hj, List.take_succ_cons, List.map_cons,
        List.cons_append]
      rw [applyHunks_cons_plus a b[j] _ i (b.take j)]
      have htk : b.take j ++ [b[j]] = b.take (j + 1) := by
        rw [List.take_succ, List.getElem?_eq_getElem hj]
        rfl
      rw [htk]
      rw [ih (j + 1) i rest (by omega)]
      have e2 : j + 1 + L = j + (L + 1) := by omega
      rw [e2]

/-- Consuming one opcode's body lines moves the state from the opcode's
start to its end. -/
theorem applyHunks_opcode (a b : List String) (c : Opcode)
    (rest : List String) (hsnd : opcodeSound a b c)
    (hle1 : c.i1 ≤ c.i2) (hle2 : c.j1 ≤ c.j2) :
    applyHunks a (opcodeLines a b c ++ rest) c.i1 (b.take c.j1) =
      applyHunks a rest c.i2 (b.take c.j2) := by
  obtain ⟨hbla, hblb, heqc, hdel, hins⟩ := hsnd
  unfold opcodeLines
  cases htag : c.tag with
  | equal =>
      obtain ⟨hlen, hm⟩ := heqc htag
      show applyHunks a
        (((a.drop c.i1).take (c.i2 - c.i1)).map (fun l => " " ++ l) ++ rest)
        c.i1 (b.take c.j1) = _
      rw [applyHunks_ctx_run a b (c.i2 - c.i1) c.i1 c.j1 rest hm]
      have e1 : c.i1 + (c.i2 - c.i1) = c.i2 := by omega
      have e2 : c.j1 + (c.i2 - c.i1) = c.j2 := by omega
      rw [e1, e2]
  | replace =>
      show applyHunks a
        ((((a.drop c.i1).take (c.i2 - c.i1)).map (fun l => "-" ++ l) ++
          ((b.drop c.j1).take (c.j2 - c.j1)).map (fun l => "+" ++ l)) ++ rest)
        c.i1 (b.take c.j1) = _
      rw [List.append_assoc]
      rw [applyHunks_minus_run a (c.i2 - c.i1) c.i1 _ _ (by omega)]
      rw [applyHunks_plus_run a b (c.j2 - c.j1) c.j1 _ _ (by omega)]
      have e1 : c.i1 + (c.i2 - c.i1) = c.i2 := by omega
      have e2 : c.j1 + (c.j2 - c.j1) = c.j2 := by omega
      rw [e1, e2]
  | delete =>
      have hj : c.j1 = c.j2 := hdel htag
      show applyHunks a
        (((a.drop c.i1).take (c.i2 - c.i1)).map (fun l => "-" ++ l) ++ rest)
        c.i1 (b.take c.j1) = _
      rw [applyHunks_minus_run a (c.i2 - c.i1) c.i1 _ _ (by omega)]
      have e1 : c.i1 + (c.i2 - c.i1) = c.i2 := by omega
      rw [e1, hj]
  | insert =>
      have hi : c.i1 = c.i2 := hins htag
      show applyHunks a
        (((b.drop c.j1).take (c.j2 - c.j1)).map (fun l => "+" ++ l) ++ rest)
        c.i1 (b.take c.j1) = _
      rw [applyHunks_plus_run a b (c.j2 - c.j1) c.j1 _ _ (by omega)]
      have e2 : c.j1 + (c.j2 - c.j1) = c.j2 := by omega
      rw [e2, hi]

/-- Consuming a tiled run of sound opcodes moves the state from the run's
start to its end. -/
theorem applyHunks_opcodes_run (a b : List String) :
    ∀ (g : List Opcode) (x y u v : Nat) (rest : List String),
    tiles x y g u v → (∀ c ∈ g, opcodeSound a b c) →
    applyHunks a (g.flatMap (opcodeLines a b) ++ rest) x (b.take y) =
      applyHunks a rest u (b.take v) := by
  intro g
  induction g with
  | nil =>
      intro x y u v rest ht _
      obtain ⟨hu, hv⟩ := ht
      rw [List.flatMap_nil, List.nil_append, hu, hv]
  | cons c g' ih =>
      intro x y u v rest ht hs
      obtain ⟨hi1, hj1, hle1, hle2, hrest⟩ := ht
      rw [List.flatMap_cons, List.append_assoc]
      rw [← hi1, ← hj1]
      rw [applyHunks_opcode a b c _ (hs c (List.mem_cons_self _ _))
        (by omega) (by omega)]
      exact ih c.i2 c.j2 u v rest hrest
        (fun op hop => hs op (List.mem_cons_of_mem _ hop))

end Difflib

namespace Difflib

/-- Applying the rendered hunks of chained groups to `a` yields `b`. -/
theorem applyHunks_groups (a b : List String) (n : Nat) (lt : String) :
    ∀ (groups : List (List Opcode)) (u v : Nat),
    GroupsChained a b n u v groups →
    applyHunks a (groups.flatMap (hunkLines a b lt)) u (b.take v) = some b := by
  intro groups
  induction groups with
  | nil =>
      intro u v hch
      obtain ⟨hu, hv, hl, hm⟩ := hch
      rw [List.flatMap_nil]
      simp only [applyHunks]
      rw [if_pos hu]
      refine congrArg some ?_
      rw [drop_eq_of_between ⟨hu, hv, hl, hm⟩]
      exact List.take_append_drop v b
  | cons g gs ih =>
      intro u v hch
      obtain ⟨hgne, hbet, htile, hsnd, hctxh, hctxl, hrec⟩ := hch
      unfold gStartA gStartB at hbet
      unfold gStartA gStartB gEndA gEndB at htile
      unfold gEndA gEndB at hrec
      rw [List.flatMap_cons]
      unfold hunkLines
      dsimp only
      rw [List.cons_append]
      rw [show (⟨Tag.equal, 0, 0, 0, 0⟩ : Opcode) = dfltOp from rfl]
      obtain ⟨hu, hv, hlen, hm⟩ := hbet
      have hsla : (g.headD dfltOp).i1 ≤ a.length := by
        obtain ⟨h1, h2, h3⟩ := hm
        omega
      rw [applyHunks_cons_hunk a (g.headD dfltOp).i1 (g.getLastD dfltOp).i2
        (g.headD dfltOp).j1 (g.getLastD dfltOp).j2 lt _ u (b.take v) hu hsla]
      have hseg := seg_eq_of_matchAt hm
      have hacc : b.take v ++
          (a.drop u).take ((g.headD dfltOp).i1 - u) =
          b.take ((g.headD dfltOp).j1) := by
        rw [hseg, hlen, ← List.take_add]
        have e : v + ((g.headD dfltOp).j1 - v) = (g.headD dfltOp).j1 := by
          omega
        rw [e]
      rw [hacc]
      rw [applyHunks_opcodes_run a b g _ _ _ _ _ htile hsnd]
      exact ih _ _ hrec

/-- Applying a rendered unified diff of distinct sequences to the first
sequence yields the second. -/
theorem applyUnified_unified_diff (a b : List String) (ff tf lt : String)
    (n : Nat) (hne : a ≠ b) :
    applyUnified (unified_diff a b ff tf n lt) a = some b := by
  have hch := get_grouped_opcodes_chained a b n hne
  unfold unified_diff
  cases h : get_grouped_opcodes a b n with
  | nil => exact absurd (eq_of_grouped_nil a b n h) hne
  | cons g gs =>
      rw [h] at hch
      show applyHunks a ((g :: gs).flatMap (hunkLines a b lt)) 0 [] = some b
      have hres := applyHunks_groups a b n lt (g :: gs) 0 0 hch
      rw [List.take_zero] at hres
      exact hres

end Difflib

namespace Difflib

/-- Every rendered hunk line starting with `-` is an original line, and
every line starting with `+` is a reformatted line; hunk headers start with
`@` and context lines with a space. -/
theorem hunk_line_members (a b : List String) (lt : String)
    (groups : List (List Opcode)) :
    ∀ l ∈ groups.flatMap (hunkLines a b lt),
      (∀ cs, l.data = '-' :: cs → String.mk cs ∈ a) ∧
      (∀ cs, l.data = '+' :: cs → String.mk cs ∈ b) := by
  intro l hl
  obtain ⟨g, hg, hlg⟩ := List.mem_flatMap.mp hl
  unfold hunkLines at hlg
  dsimp only at hlg
  rcases List.mem_cons.mp hlg with hlg | hlg
  · subst hlg
    have hd : ("@@ -" ++
        formatRangeUnified (g.headD ⟨.equal, 0, 0, 0, 0⟩).i1
          (g.getLastD ⟨.equal, 0, 0, 0, 0⟩).i2 ++ " +" ++
        formatRangeUnified (g.headD ⟨.equal, 0, 0, 0, 0⟩).j1
          (g.getLastD ⟨.equal, 0, 0, 0, 0⟩).j2 ++ " @@" ++ lt).data =
        '@' :: '@' :: ' ' :: '-' ::
          ((formatRangeUnified (g.headD ⟨.equal, 0, 0, 0, 0⟩).i1
            (g.getLastD ⟨.equal, 0, 0, 0, 0⟩).i2).data ++ (' ' :: '+' ::
          ((formatRangeUnified (g.headD ⟨.equal, 0, 0, 0, 0⟩).j1
            (g.getLastD ⟨.equal, 0, 0, 0, 0⟩).j2).data ++
            (' ' :: '@' :: '@' :: lt.data)))) := by
      simp only [String.data_append, List.append_assoc]
      rfl
    constructor <;> intro cs hcs <;> rw [hd] at hcs
    · exact absurd ((List.cons.injEq _ _ _ _).mp hcs).1 (by decide)
    · exact absurd ((List.cons.injEq _ _ _ _).mp hcs).1 (by decide)
  · obtain ⟨c, hc, hlop⟩ := List.mem_flatMap.mp hlg
    unfold opcodeLines at hlop
    cases htag : c.tag <;> rw [htag] at hlop
    · -- replace
      rcases List.mem_append.mp hlop with hlop | hlop
      · obtain ⟨x, hx, hxl⟩ := List.mem_map.mp hlop
        subst hxl
        have hld : ("-" ++ x).data = '-' :: x.data := by
          rw [String.data_append]
          rfl
        constructor <;> intro cs hcs <;> rw [hld] at hcs
        · obtain ⟨-, htl⟩ := (List.cons.injEq _ _ _ _).mp hcs
          subst htl
          exact List.mem_of_mem_drop (List.mem_of_mem_take hx)
        · exact absurd ((List.cons.injEq _ _ _ _).mp hcs).1 (by decide)
      · obtain ⟨x, hx, hxl⟩ := List.mem_map.mp hlop
        subst hxl
        have hld : ("+" ++ x).data = '+' :: x.data := by
          rw [String.data_append]
          rfl
        constructor <;> intro cs hcs <;> rw [hld] at hcs
        · exact absurd ((List.cons.injEq _ _ _ _).mp hcs).1 (by decide)
        · obtain ⟨-, htl⟩ := (List.cons.injEq _ _ _ _).mp hcs
          subst htl
          exact List.mem_of_mem_drop (List.mem_of_mem_take hx)
    · -- delete
      obtain ⟨x, hx, hxl⟩ := List.mem_map.mp hlop
      subst hxl
      have hld : ("-" ++ x).data = '-' :: x.data := by
        rw [String.data_append]
        rfl
      constructor <;> intro cs hcs <;> rw [hld] at hcs
      · obtain ⟨-, htl⟩ := (List.cons.injEq _ _ _ _).mp hcs
        subst htl
        exact List.mem_of_mem_drop (List.mem_of_mem_take hx)
      · exact absurd ((List.cons.injEq _ _ _ _).mp hcs).1 (by decide)
    · -- insert
      obtain ⟨x, hx, hxl⟩ := List.mem_map.mp hlop
      subst hxl
      have hld : ("+" ++ x).data = '+' :: x.data := by
        rw [String.data_append]
        rfl
      constructor <;> intro cs hcs <;> rw [hld] at hcs
      · exact absurd ((List.cons.injEq _ _ _ _).mp hcs).1 (by decide)
      · obtain ⟨-, htl⟩ := (List.cons.injEq _ _ _ _).mp hcs
        subst htl
        exact List.mem_of_mem_drop (List.mem_of_mem_take hx)
    · -- equal
      obtain ⟨x, hx, hxl⟩ := List.mem_map.mp hlop
      subst hxl
      have hld : (" " ++ x).data = ' ' :: x.data := by
        rw [String.data_append]
        rfl
      constructor <;> intro cs hcs <;> rw [hld] at hcs
      · exact absurd ((List.cons.injEq _ _ _ _).mp hcs).1 (by decide)
      · exact absurd ((List.cons.injEq _ _ _ _).mp hcs).1 (by decide)

/-- The body of a rendered unified diff (after the two header lines) draws
its removed lines from `a` and its added lines from `b`. -/
theorem unified_diff_body_members (a b : List String) (ff tf lt : String)
    (n : Nat) :
    ∀ l ∈ (unified_diff a b ff tf n lt).drop 2,
      (∀ cs, l.data = '-' :: cs → String.mk cs ∈ a) ∧
      (∀ cs, l.data = '+' :: cs → String.mk cs ∈ b) := by
  unfold unified_diff
  cases h : get_grouped_opcodes a b n with
  | nil => simp
  | cons g gs =>
      intro l hl
      rw [List.drop_succ_cons, List.drop_succ_cons, List.drop_zero] at hl
      exact hunk_line_members a b lt (g :: gs) l hl

end Difflib

namespace Wrapper

/-- C7: for a file whose reformatted content differs from the original, in
non-in-place (and non-dry-run) mode the wrapper returns exactly
`make_diff file original reformatted` together with the captured stderr
lines, and that diff round-trips: applying it to the original yields the
reformatted content, its removed lines are drawn from the original line
sequence, and its added lines from the reformatted line sequence. -/
theorem C7_round_trip (file : String) (original reformatted : List String)
    (hne : original ≠ reformatted) :
    Difflib.applyUnified (make_diff file original reformatted) original =
      some reformatted ∧
    (∀ l ∈ (make_diff file original reformatted).drop 2,
      (∀ cs, l.data = '-' :: cs → String.mk cs ∈ original) ∧
      (∀ cs, l.data = '+' :: cs → String.mk cs ∈ reformatted)) ∧
    (∀ (env : Env) (args : Args) (stdout stderr : String),
      args.dry_run = false → args.in_place = false →
      env.readFile file = .ok original →
      env.runProcess (invocationOf args file) = .finished 0 stdout stderr →
      Py.splitlinesKeepends stdout = reformatted →
      (run_clang_format_diff env args file).1 =
        .ok (make_diff file original reformatted,
          Py.splitlinesKeepends stderr)) := by
  refine ⟨?_, ?_, ?_⟩
  · unfold make_diff
    exact Difflib.applyUnified_unified_diff original reformatted _ _ "\n" 3
      hne
  · unfold make_diff
    exact Difflib.unified_diff_body_members original reformatted _ _ "\n" 3
  · intro env args stdout stderr hdry hip hread hproc hsplit
    unfold run_clang_format_diff
    rw [hread]
    dsimp only
    rw [if_neg (by simp [hdry]), hproc]
    dsimp only
    rw [if_neg (by simp), if_neg (by simp [hip]), hsplit]

/-- Witness for `C7_round_trip` at concrete inputs. -/
theorem C7_round_trip_witness :
    (["a\n"] : List String) ≠ ["b\n"] ∧
    Difflib.applyUnified (make_diff "f" ["a\n"] ["b\n"]) ["a\n"] =
      some ["b\n"] :=
  ⟨by decide, (C7_round_trip "f" ["a\n"] ["b\n"] (by decide)).1⟩

end Wrapper
